import Mathlib

/-!
Verification of the SQL masking engine of this repository
(`sql_mask_gui.py`, `sql_masker.py`) against its natural-language
specification.  Python strings are modelled as `List Char`; Python
regular-expression substitutions (`re.sub` with `\b` word boundaries,
plain `str.replace`) are modelled by explicit left-to-right scanners
mirroring the non-overlapping leftmost-match semantics of `re`.
`random.choice` / `random.randint` are modelled by an explicit oracle
(a stream of natural numbers) threaded through the generators.
-/

namespace SqlMask

/-- Python strings, modelled as lists of characters. -/
abbrev Str := List Char

/-- Python `\w` for ASCII input: letters, digits and underscore. -/
def isWordChar (c : Char) : Bool := c.isAlphanum || c == '_'

/-- Python `\s` / default `str.strip` whitespace set (ASCII). -/
def isSpaceChar (c : Char) : Bool :=
  c == ' ' || c == '\t' || c == '\n' || c == '\r' || c == '\x0b' || c == '\x0c'

/-- The single-quote character. -/
def qS : Char := '\''

/-- The double-quote character. -/
def qD : Char := '"'

/-- Quote characters used around SQL string literals. -/
def isQuote (c : Char) : Bool := c == qS || c == qD

/-- A separator character: neither a word character nor a quote. -/
def sepChar (c : Char) : Bool := !isWordChar c && !isQuote c

/-- Wordness of an optional character; out-of-range positions count as non-word
(the convention of `\b` at the ends of the subject string). -/
def wordOpt : Option Char → Bool
  | none => false
  | some c => isWordChar c

/-- Python `str.lower` (ASCII fragment, which is all the sources use). -/
def lowerS (s : Str) : Str := s.map Char.toLower

/-- Python `c in s` for a set of characters. -/
def memChars (set : List Char) (c : Char) : Bool := set.contains c

/-- Drop leading characters belonging to `set`. -/
def dropLeading (set : List Char) : Str → Str
  | [] => []
  | c :: t => if memChars set c then dropLeading set t else c :: t

/-- Python `str.strip(chars)`: drop leading and trailing characters of `set`. -/
def pyStripChars (set : List Char) (s : Str) : Str :=
  ((dropLeading set ((dropLeading set s).reverse)).reverse)

/-- Python `str.strip()` (whitespace). -/
def pyStrip (s : Str) : Str :=
  pyStripChars [' ', '\t', '\n', '\r', '\x0b', '\x0c'] s

/-- Case-sensitive prefix test (`p` is a prefix of `s`). -/
def pfxOf : Str → Str → Bool
  | [], _ => true
  | _ :: _, [] => false
  | a :: p, b :: s => a == b && pfxOf p s

/-- Case-insensitive (ASCII `re.IGNORECASE`) prefix test. -/
def pfxOfCI : Str → Str → Bool
  | [], _ => true
  | _ :: _, [] => false
  | a :: p, b :: s => a.toLower == b.toLower && pfxOfCI p s

/-- Prefix test switching on a case-insensitivity flag. -/
def pfxOfX (ci : Bool) (p s : Str) : Bool :=
  if ci then pfxOfCI p s else pfxOf p s

/-- `p` occurs somewhere in `s` as a contiguous substring. -/
def occursB (p s : Str) : Bool :=
  (List.range (s.length + 1)).any fun i => pfxOf p (s.drop i)

/-- Case-insensitive occurrence. -/
def occursCI (p s : Str) : Bool :=
  (List.range (s.length + 1)).any fun i => pfxOfCI p (s.drop i)

/-- Digit characters used by Python's decimal formatting of a digit `< 10`. -/
def digitChar : Nat → Char
  | 0 => '0' | 1 => '1' | 2 => '2' | 3 => '3' | 4 => '4'
  | 5 => '5' | 6 => '6' | 7 => '7' | 8 => '8' | _ => '9'

/-- Little-endian decimal digits of `n`, with explicit fuel (`n` itself
suffices: `n / 10 < n` for `n ≥ 1`). -/
def pyDigits : Nat → Nat → List Nat
  | 0, _ => []
  | fuel + 1, n => if n = 0 then [] else n % 10 :: pyDigits fuel (n / 10)

/-- Python `str(n)` for a natural number (decimal, no leading zeros). -/
def pyNat (n : Nat) : Str :=
  if n = 0 then ['0'] else ((pyDigits n n).reverse).map digitChar

/-- Python `f"{n:02d}"`: decimal, left-padded with zeros to width 2. -/
def pyNatPad2 (n : Nat) : Str :=
  let d := pyNat n
  if d.length < 2 then List.replicate (2 - d.length) '0' ++ d else d

/-- Python `f"{n:03d}"`: decimal, left-padded with zeros to width 3. -/
def pyNatPad3 (n : Nat) : Str :=
  let d := pyNat n
  if d.length < 3 then List.replicate (3 - d.length) '0' ++ d else d

/-!  ### Scanners modelling Python string substitution

Each scanner walks the subject string left to right.  `skip > 0` means the
scanner is inside the last consumed match and must not look for new matches
(`re.sub`/`str.replace` never rescan a replacement and never overlap
matches).  `prev` is the previous character of the *original* subject,
used by the `\b` boundary tests of `re`. -/

/-- Core loop of Python `str.replace` (non-overlapping, left to right). -/
def replGo (p r : Str) : Nat → Str → Str
  | _ + 1, [] => []
  | skip + 1, _ :: t => replGo p r skip t
  | 0, [] => []
  | 0, c :: t =>
    if pfxOf p (c :: t) then r ++ replGo p r (p.length - 1) t
    else c :: replGo p r 0 t

/-- Python `s.replace(p, r)`.  The sources never call it with an empty
pattern; for an empty pattern we return `s` unchanged. -/
def pyReplace (p r s : Str) : Str :=
  if p = [] then s else replGo p r 0 s

/-- `\b` test between the previous character and the first matched one. -/
def bdryBefore (prev : Option Char) (c : Char) : Bool :=
  wordOpt prev != isWordChar c

/-- `\b` test between the last matched character and the rest. -/
def bdryAfter (lastM : Char) (rest : Str) : Bool :=
  isWordChar lastM != wordOpt rest.head?

/-- Core loop of `re.sub(r'\b' + re.escape(p) + r'\b', r, s)`; `ci` selects
`re.IGNORECASE`. -/
def wbGo (ci : Bool) (p r : Str) : Option Char → Nat → Str → Str
  | _, _ + 1, [] => []
  | _, skip + 1, c :: t => wbGo ci p r (some c) skip t
  | _, 0, [] => []
  | prev, 0, c :: t =>
    if pfxOfX ci p (c :: t) ∧ bdryBefore prev c ∧
        bdryAfter (((c :: t).take p.length).getLastD c) ((c :: t).drop p.length) then
      r ++ wbGo ci p r (some c) (p.length - 1) t
    else c :: wbGo ci p r (some c) 0 t

/-- Whole-word regex substitution.  Empty patterns do not arise from the
sources (masks and originals are nonempty); we return `s` unchanged then. -/
def wbSub (ci : Bool) (p r s : Str) : Str :=
  if p = [] then s else wbGo ci p r none 0 s

/-- Length of the leading run of `\s` characters. -/
def spaceRun : Str → Nat
  | [] => 0
  | c :: t => if isSpaceChar c then spaceRun t + 1 else 0

/-- Match length at the current position for the function-call pattern
`\b p \s* \(` (case-insensitive), or `none` if it does not match here. -/
def funcMatchLen (p : Str) (prev : Option Char) (s : Str) : Option Nat :=
  match s with
  | [] => none
  | c :: _ =>
    if pfxOfCI p s ∧ bdryBefore prev c then
      let rest := s.drop p.length
      let k := spaceRun rest
      if (rest.drop k).head? = some '(' then some (p.length + k + 1) else none
    else none

/-- Core loop of `re.sub(r'\b' + re.escape(p) + r'\s*\(', r ++ "(", s,
flags=re.IGNORECASE)`, the function-call pass of `SQLMasker.mask_sql`. -/
def funcGo (p r : Str) : Option Char → Nat → Str → Str
  | _, _ + 1, [] => []
  | _, skip + 1, c :: t => funcGo p r (some c) skip t
  | _, 0, [] => []
  | prev, 0, c :: t =>
    match funcMatchLen p prev (c :: t) with
    | some L => (r ++ ['(']) ++ funcGo p r (some c) (L - 1) t
    | none => c :: funcGo p r (some c) 0 t

/-- Function-call substitution pass (source line 764-766 of `sql_masker.py`). -/
def funcSub (p r s : Str) : Str :=
  if p = [] then s else funcGo p r none 0 s

/-!  ## The GUI masking engine (`sql_mask_gui.py`) -/

namespace Gui

/-- The `additional_keywords` set built in `EnhancedSQLMaskerGUI.__init__`
(source lines 363-410). -/
def additionalKeywords : List Str :=
  ([ "else", "elseif", "elsif", "if", "then", "case", "when", "end", "loop",
     "begin", "declare", "while", "for", "repeat", "until", "continue", "break",
     "over", "partition", "rows", "range", "unbounded", "preceding", "following",
     "current", "row", "first_value", "last_value", "lead", "lag", "rank",
     "dense_rank", "row_number", "ntile", "percent_rank", "cume_dist",
     "with", "recursive", "lateral", "pivot", "unpivot", "cross", "apply",
     "varchar", "char", "text", "int", "integer", "bigint", "smallint", "tinyint",
     "decimal", "numeric", "float", "double", "real", "date", "datetime", "timestamp",
     "time", "year", "boolean", "bool", "binary", "varbinary", "blob", "clob",
     "json", "xml", "uuid", "serial", "auto_increment",
     "count", "sum", "avg", "min", "max", "abs", "ceil", "floor", "round",
     "upper", "lower", "trim", "ltrim", "rtrim", "substring", "substr", "length",
     "concat", "replace", "coalesce", "isnull", "nullif", "cast", "convert",
     "extract", "datepart", "datediff", "dateadd", "now", "current_timestamp",
     "current_date", "current_time", "getdate", "sysdate",
     "limit", "offset", "top", "fetch", "next", "only", "ties",
     "returning", "output", "merge", "upsert", "conflict", "nothing",
     "exclude", "include", "using", "matched", "except", "intersect",
     "procedure", "function", "returns", "return", "out", "inout", "ref",
     "cursor", "open", "close", "deallocate", "execute", "exec",
     "call", "raise", "raiserror", "throw", "try", "catch", "finally",
     "constraint", "primary", "foreign", "unique", "check", "default",
     "index", "clustered", "nonclustered", "spatial", "fulltext",
     "transaction", "commit", "rollback", "savepoint", "isolation", "level",
     "read", "write", "uncommitted", "committed", "repeatable", "serializable",
     "grant", "revoke", "deny", "role", "user", "schema", "database",
     "backup", "restore", "checkpoint", "analyze", "vacuum", "reindex"
   ] : List String).map String.data

/-- The `builtin_patterns` list of `is_sql_keyword_or_function`
(source lines 656-672). -/
def builtinPatterns : List Str :=
  ([ "stddev", "variance", "var_pop", "var_samp", "stddev_pop", "stddev_samp",
     "epoch", "dow", "doy", "week", "quarter", "millennium", "century", "decade",
     "within", "preceding", "following", "unbounded", "current",
     "percentile_cont", "percentile_disc", "cume_dist", "percent_rank",
     "first_value", "last_value", "nth_value",
     "json_build_object", "json_agg", "json_object_agg",
     "string_agg", "array_agg", "array_to_string",
     "greatest", "least", "coalesce", "nullif"
   ] : List String).map String.data

/-- `EnhancedSQLMaskerGUI.is_sql_keyword_or_function` (source lines 644-674).
`kwBase` is the lowercase keyword set imported from `sqlparse.keywords.KEYWORDS`,
an external library table that we keep abstract (it is unioned with
`additionalKeywords` to form `self.sql_keywords`). -/
def is_sql_keyword_or_function (kwBase : List Str) (token : Str) : Bool :=
  if token = [] ∨ (pyStrip token).length = 0 then false
  else
    let clean := lowerS (pyStrip token)
    if clean ∈ kwBase ∨ clean ∈ additionalKeywords then true
    else decide (clean ∈ builtinPatterns)

/-- `EnhancedSQLMaskerGUI.normalize_string_quotes` (source lines 676-686). -/
def normalize_string_quotes (s : Str) : Str :=
  if s = [] then s
  else
    let st := pyStrip s
    if (st.head? = some qS ∧ st.getLast? = some qS) ∨
       (st.head? = some qD ∧ st.getLast? = some qD) then
      (st.drop 1).dropLast
    else st

/-- One mapping entry: `{"mask": ..., "enabled": ...}`. -/
structure Entry where
  mask : Str
  enabled : Bool
deriving DecidableEq

/-- An insertion-ordered category map (Python `dict` from original to entry). -/
abbrev CatMap := List (Str × Entry)

/-- The seven category maps of the GUI mapping store. -/
structure Maps where
  catalog_map : CatMap
  schema_map : CatMap
  table_map : CatMap
  column_map : CatMap
  string_map : CatMap
  function_map : CatMap
  alias_map : CatMap
deriving DecidableEq

/-- The empty mapping store. -/
def Maps.empty : Maps := ⟨[], [], [], [], [], [], []⟩

/-- Abstraction of the `sqlparse` token types that `_mask_token` inspects. -/
inductive TType where
  | keywordT | whitespaceT | commentT | punctuationT
  | stringSingleT | nameT | noneT | otherT
deriving DecidableEq

/-- A leaf token of the flattened `sqlparse` token stream. -/
structure Token where
  ttype : TType
  tstr : Str
deriving DecidableEq

/-- The first branch of `_mask_token`: token types emitted unchanged. -/
def skipType (tt : TType) : Bool :=
  tt = TType.keywordT ∨ tt = TType.whitespaceT ∨
  tt = TType.commentT ∨ tt = TType.punctuationT

/-- The string-literal matching loop of `_mask_token` (source lines 1174-1185):
first enabled entry matching exactly, or else on quote-normalized content. -/
def findStringEntry (sm : CatMap) (t : Str) : Option Entry :=
  match sm with
  | [] => none
  | (o, e) :: rest =>
    if e.enabled ∧
        (o = t ∨ normalize_string_quotes t = normalize_string_quotes o) then
      some e
    else findStringEntry rest t

/-- The identifier lookup loop of `_mask_token` (source lines 1188-1194):
first category map containing the token with an enabled entry; a map
containing the token with a disabled entry is skipped. -/
def identLookup (ds : List CatMap) (k : Str) : Option Str :=
  match ds with
  | [] => none
  | d :: rest =>
    match List.lookup k d with
    | some e => if e.enabled then some e.mask else identLookup rest k
    | none => identLookup rest k

/-- The category order checked by `_mask_token` for identifiers. -/
def identMaps (m : Maps) : List CatMap :=
  [m.catalog_map, m.schema_map, m.table_map, m.column_map,
   m.function_map, m.alias_map]

/-- `EnhancedSQLMaskerGUI._mask_token` (source lines 1163-1196). -/
def mask_token (kwBase : List Str) (m : Maps) (t : Token) : Str :=
  if skipType t.ttype ∨ is_sql_keyword_or_function kwBase (pyStrip t.tstr) then
    t.tstr
  else if t.ttype = TType.stringSingleT ∨ t.tstr.head? = some qS ∨
      t.tstr.head? = some qD then
    match findStringEntry m.string_map t.tstr with
    | some e => e.mask
    | none => t.tstr
  else if t.ttype = TType.nameT ∨ t.ttype = TType.noneT then
    (identLookup (identMaps m) t.tstr).getD t.tstr
  else t.tstr

/-- `mask_sql` / `_mask_statement` over the flattened token stream
(source lines 1129-1161): the masked text is the concatenation of the
per-token results. -/
def mask_stream (kwBase : List Str) (m : Maps) (ts : List Token) : Str :=
  (ts.map (mask_token kwBase m)).flatten

/-- The concatenated text of a token stream (the SQL text it was parsed from). -/
def streamStr (ts : List Token) : Str := (ts.map Token.tstr).flatten

/-- The first unmasking pass of `unmask_sql` (source lines 1210-1213): plain
substring replacement of each enabled string placeholder by its original. -/
def strPass (sm : CatMap) (s : Str) : Str :=
  sm.foldl (fun acc oe => if oe.2.enabled then pyReplace oe.2.mask oe.1 acc else acc) s

/-- An identifier unmasking pass of `unmask_sql` (source lines 1226-1231):
whole-word, case-sensitive replacement of each enabled placeholder. -/
def wbPass (d : CatMap) (s : Str) : Str :=
  d.foldl (fun acc oe => if oe.2.enabled then wbSub false oe.2.mask oe.1 acc else acc) s

/-- `EnhancedSQLMaskerGUI.unmask_sql` (source lines 1198-1240), transliterated
statement by statement: strings first, then the identifier maps in the order
of the source's `mapping_order` list. -/
def unmask_sql (m : Maps) (s : Str) : Str :=
  let s1 := strPass m.string_map s
  let s2 := wbPass m.alias_map s1
  let s3 := wbPass m.function_map s2
  let s4 := wbPass m.column_map s3
  let s5 := wbPass m.table_map s4
  let s6 := wbPass m.schema_map s5
  wbPass m.catalog_map s6

/-- Modelled from the spec: the unmasking algorithm as §4.6 words it — first
all enabled string placeholders by plain substring replacement, then
identifier placeholders by whole-word matching in the order
alias → function → column → table → schema → catalog. -/
def unmaskSpecOrder (m : Maps) (s : Str) : Str :=
  wbPass m.catalog_map
    (wbPass m.schema_map
      (wbPass m.table_map
        (wbPass m.column_map
          (wbPass m.function_map
            (wbPass m.alias_map
              (strPass m.string_map s))))))

/-!  ### `RealisticNameGenerator` (source lines 21-194)

`random.choice` is modelled by the oracle of the core module; the
`used_names` set is an explicit list. -/

/-- The randomness oracle (shared model with the core module). -/
structure RGen where
  used : List Str
  rng : List Nat
deriving DecidableEq

/-- Consume one oracle value. -/
def RGen.next (rg : RGen) : Nat × RGen :=
  (rg.rng.headD 0, { rg with rng := rg.rng.tail })

/-- `random.choice(l)` under the oracle. -/
def rgChoice (l : List Str) (rg : RGen) : Str × RGen :=
  let (n, rg') := rg.next
  (l.getD (n % l.length) [], rg')

/-- Mark a name as used. -/
def RGen.use (rg : RGen) (n : Str) : RGen := { rg with used := rg.used ++ [n] }

/-- `self.business_entities`. -/
def businessEntities : List Str :=
  ([ "users", "customers", "clients", "accounts", "profiles", "members",
     "orders", "transactions", "payments", "invoices", "receipts", "purchases",
     "products", "items", "inventory", "catalog", "categories", "brands",
     "employees", "staff", "departments", "roles", "permissions", "teams",
     "projects", "tasks", "activities", "events", "sessions", "logs",
     "reports", "analytics", "metrics", "statistics", "summaries",
     "contacts", "addresses", "locations", "regions", "stores", "branches",
     "reviews", "ratings", "feedback", "comments", "messages", "notifications",
     "campaigns", "promotions", "discounts", "offers", "coupons",
     "documents", "files", "attachments", "media", "images", "videos"
   ] : List String).map String.data

/-- `self.column_patterns`, in dict insertion order. -/
def columnPatternGroups : List (List Str) :=
  [ (["id", "uuid", "key", "ref", "identifier"] : List String).map String.data,
    (["name", "title", "label", "description", "caption"] : List String).map
      String.data,
    (["date", "time", "timestamp", "created_at", "updated_at", "modified_date"] :
      List String).map String.data,
    (["status", "state", "flag", "active", "enabled", "visible"] :
      List String).map String.data,
    (["email", "phone", "address", "city", "country", "postal_code"] :
      List String).map String.data,
    (["amount", "price", "cost", "total", "subtotal", "tax", "discount"] :
      List String).map String.data,
    (["count", "quantity", "weight", "height", "width", "length", "size"] :
      List String).map String.data ]

/-- `self.string_templates`. -/
def stringTemplates : List Str :=
  ([ "'example_data'", "'sample_value'", "'test_content'", "'demo_text'",
     "'placeholder'", "'mock_data'", "'dummy_value'", "'generic_text'"
   ] : List String).map String.data

/-- `self.function_prefixes` of the realistic generator. -/
def rFunctionPrefixes : List Str :=
  (["get", "calc", "process", "validate", "format", "parse", "convert"] :
    List String).map String.data

/-- `self.function_suffixes`. -/
def rFunctionSuffixes : List Str :=
  (["data", "value", "result", "info", "details", "summary"] :
    List String).map String.data

/-- First candidate not yet in `used_names`. -/
def firstUnused (cands : List Str) (used : List Str) : Option Str :=
  cands.find? fun n => decide (n ∉ used)

/-- `s` ends with `sfx`. -/
def sfxOf (sfx s : Str) : Bool := pfxOf sfx.reverse s.reverse

/-- The `while f"{base}_{counter}" in self.used_names: counter += 1` loops.
The Python loop always terminates because `used_names` is finite; the fuel
`used.length + 1` suffices for the same reason. -/
def counterLoop (base : Str) (used : List Str) : Nat → Nat → Str
  | 0, c => base ++ '_' :: pyNat c
  | fuel + 1, c =>
    let cand := base ++ '_' :: pyNat c
    if cand ∈ used then counterLoop base used fuel (c + 1) else cand

/-- Candidate pool plus counter fallback shared by several generators. -/
def pickFrom (cands : List Str) (rg : RGen) : Str × RGen :=
  match firstUnused cands rg.used with
  | some n => (n, rg.use n)
  | none =>
    let (base, rg1) := rgChoice cands rg
    let n := counterLoop base rg1.used (rg1.used.length + 1) 1
    (n, rg1.use n)

/-- `RealisticNameGenerator.generate_table_name` (source lines 70-101). -/
def rGenTableName (rg : RGen) (original : Str) : Str × RGen :=
  let ol := lowerS original
  let anyIn := fun (ws : List String) => ws.any fun w => occursB w.data ol
  let cands :=
    if anyIn ["user", "customer", "client", "account"] then
      (["users", "customers", "accounts", "profiles", "members"] :
        List String).map String.data
    else if anyIn ["order", "transaction", "payment", "purchase"] then
      (["orders", "transactions", "payments", "purchases", "invoices"] :
        List String).map String.data
    else if anyIn ["product", "item", "inventory", "catalog"] then
      (["products", "items", "inventory", "catalog", "categories"] :
        List String).map String.data
    else if anyIn ["employee", "staff", "team", "department"] then
      (["employees", "staff", "departments", "teams", "roles"] :
        List String).map String.data
    else businessEntities
  pickFrom cands rg

/-- `RealisticNameGenerator.generate_column_name` (source lines 103-144). -/
def rGenColumnName (rg : RGen) (original : Str) : Str × RGen :=
  let ol := lowerS original
  match
    columnPatternGroups.findSome? fun grp =>
      if grp.any (fun pat => occursB pat ol) then firstUnused grp rg.used else none
  with
  | some n => (n, rg.use n)
  | none =>
    let cands :=
      if sfxOf (("_id").data) ol ∨ sfxOf (("id").data) ol then
        (["record_id", "item_id", "ref_id", "entity_id"] : List String).map
          String.data
      else if pfxOf (("is_").data) ol ∨ pfxOf (("has_").data) ol then
        (["is_active", "is_enabled", "has_data", "is_valid"] : List String).map
          String.data
      else if occursB (("_date").data) ol ∨ occursB (("_time").data) ol then
        (["created_date", "modified_date", "process_time", "event_date"] :
          List String).map String.data
      else
        (["data_value", "content", "description", "details", "info",
          "reference", "category", "type", "status", "priority"] :
          List String).map String.data
    pickFrom cands rg

/-- `RealisticNameGenerator.generate_schema_name` (source lines 146-162);
the counter fallback uses the fixed base `schema` and no random call. -/
def rGenSchemaName (rg : RGen) (_original : Str) : Str × RGen :=
  let schemas := (["public", "main", "core", "app", "data", "reporting",
    "staging", "prod"] : List String).map String.data
  match firstUnused schemas rg.used with
  | some n => (n, rg.use n)
  | none =>
    let n := counterLoop (("schema").data) rg.used (rg.used.length + 1) 1
    (n, rg.use n)

/-- Python `str.title()` for a single lowercase word. -/
def pyTitle (s : Str) : Str :=
  match s with
  | [] => []
  | c :: t => c.toUpper :: t.map Char.toLower

/-- `RealisticNameGenerator.generate_function_name` (source lines 164-184);
the counter fallback reuses the drawn prefix and suffix. -/
def rGenFunctionName (rg : RGen) (_original : Str) : Str × RGen :=
  let (p, rg1) := rgChoice rFunctionPrefixes rg
  let (sfx, rg2) := rgChoice rFunctionSuffixes rg1
  let cands := [p ++ '_' :: sfx, p ++ pyTitle sfx, ("fn_").data ++ p ++ '_' :: sfx]
  match firstUnused cands rg2.used with
  | some n => (n, rg2.use n)
  | none =>
    let n := counterLoop (p ++ '_' :: sfx) rg2.used (rg2.used.length + 1) 1
    (n, rg2.use n)

/-- `RealisticNameGenerator.generate_string_value` (source lines 186-194):
one template drawn at random, double-quoted when the original was; the
result is *not* recorded in `used_names`. -/
def rGenStringValue (rg : RGen) (original : Str) : Str × RGen :=
  if original.head? = some qS then rgChoice stringTemplates rg
  else if original.head? = some qD then
    let (t, rg') := rgChoice stringTemplates rg
    (t.map (fun c => if c = qS then qD else c), rg')
  else rgChoice stringTemplates rg

/-!  ### `EnhancedSQLMaskerGUI.generate_placeholders` (source lines 846-966)

Source line 874 reads
`c_count = s_count = t_count = col_count = str_count = [1]`: a Python
chained assignment binds all five names to the *same* one-element list, so
the catalog, schema, table, column and string counters share one mutable
cell (`cnt1` below).  Line 875 likewise makes the function and alias
counters share a second cell (`cnt2`). -/

/-- The seven categories of the GUI store. -/
inductive GCat where
  | catalog | schema | table | column | strng | func | alias
deriving DecidableEq

/-- Category map accessor. -/
def getMap (m : Maps) : GCat → CatMap
  | GCat.catalog => m.catalog_map
  | GCat.schema => m.schema_map
  | GCat.table => m.table_map
  | GCat.column => m.column_map
  | GCat.strng => m.string_map
  | GCat.func => m.function_map
  | GCat.alias => m.alias_map

/-- Category map updater. -/
def setMap (m : Maps) : GCat → CatMap → Maps
  | GCat.catalog, d => { m with catalog_map := d }
  | GCat.schema, d => { m with schema_map := d }
  | GCat.table, d => { m with table_map := d }
  | GCat.column, d => { m with column_map := d }
  | GCat.strng, d => { m with string_map := d }
  | GCat.func, d => { m with function_map := d }
  | GCat.alias, d => { m with alias_map := d }

/-- Key membership in a category map. -/
def hasKeyE (d : CatMap) (k : Str) : Bool := d.any fun kv => kv.1 = k

/-- `EnhancedSQLMaskerGUI._has_naming_conflict` (source lines 958-966):
the key occurs in one of the six identifier maps other than the current
one (the string map is not consulted). -/
def hasNamingConflict (m : Maps) (cur : GCat) (key : Str) : Bool :=
  [GCat.catalog, GCat.schema, GCat.table, GCat.column, GCat.func,
   GCat.alias].any fun c => c ≠ cur ∧ hasKeyE (getMap m c) key

/-- The generation state: the maps under construction, the realistic name
generator, the two shared counter cells and `all_processed_items`. -/
structure PSt where
  maps : Maps
  rg : RGen
  cnt1 : Nat
  cnt2 : Nat
  processed : List Str
deriving DecidableEq

/-- The nested helper `add_map` of `generate_placeholders` (source lines
848-864), with the counter cell of the target category passed and returned
explicitly.  All call sites pass a generator function and leave
`avoid_conflicts` at its default `True`. -/
def add_map (kwBase : List Str) (realistic : Bool) (m : Maps) (cur : GCat)
    (key stem : Str) (genFun : RGen → Str → Str × RGen) (rg : RGen)
    (cnt : Nat) : Maps × RGen × Nat :=
  let d := getMap m cur
  if key ≠ [] ∧ ¬ hasKeyE d key ∧
      ¬ is_sql_keyword_or_function kwBase key ∧ 0 < (pyStrip key).length then
    if realistic then
      let (mask, rg') := genFun rg key
      (setMap m cur (d ++ [(key, ⟨mask, true⟩)]), rg', cnt + 1)
    else
      let base := stem ++ '_' :: pyNat cnt
      let mask := if hasNamingConflict m cur key then ("safe_").data ++ base else base
      (setMap m cur (d ++ [(key, ⟨mask, true⟩)]), rg, cnt + 1)
  else (m, rg, cnt)

/-- One table of the table-processing loop (source lines 881-908). -/
def procTable (kwBase : List Str) (realistic : Bool) (st : PSt) (tbl : Str) : PSt :=
  if tbl = [] ∨ is_sql_keyword_or_function kwBase tbl then st
  else
    let parts := tbl.splitOn '.'
    if parts.length = 3 then
      let cat := parts.getD 0 []
      let sch := parts.getD 1 []
      let tab := parts.getD 2 []
      let st1 :=
        if cat ∉ st.processed then
          let (m, rg, c) := add_map kwBase realistic st.maps GCat.catalog cat
            (("catalog").data) rGenSchemaName st.rg st.cnt1
          { st with maps := m, rg := rg, cnt1 := c, processed := st.processed ++ [cat] }
        else st
      let st2 :=
        if sch ∉ st1.processed then
          let (m, rg, c) := add_map kwBase realistic st1.maps GCat.schema sch
            (("schema").data) rGenSchemaName st1.rg st1.cnt1
          { st1 with maps := m, rg := rg, cnt1 := c, processed := st1.processed ++ [sch] }
        else st1
      if tab ∉ st2.processed then
        let (m, rg, c) := add_map kwBase realistic st2.maps GCat.table tab
          (("table").data) rGenTableName st2.rg st2.cnt1
        { st2 with maps := m, rg := rg, cnt1 := c, processed := st2.processed ++ [tab] }
      else st2
    else if parts.length = 2 then
      let sch := parts.getD 0 []
      let tab := parts.getD 1 []
      let st1 :=
        if sch ∉ st.processed then
          let (m, rg, c) := add_map kwBase realistic st.maps GCat.schema sch
            (("schema").data) rGenSchemaName st.rg st.cnt1
          { st with maps := m, rg := rg, cnt1 := c, processed := st.processed ++ [sch] }
        else st
      if tab ∉ st1.processed then
        let (m, rg, c) := add_map kwBase realistic st1.maps GCat.table tab
          (("table").data) rGenTableName st1.rg st1.cnt1
        { st1 with maps := m, rg := rg, cnt1 := c, processed := st1.processed ++ [tab] }
      else st1
    else
      if tbl ∉ st.processed then
        let (m, rg, c) := add_map kwBase realistic st.maps GCat.table tbl
          (("table").data) rGenTableName st.rg st.cnt1
        { st with maps := m, rg := rg, cnt1 := c, processed := st.processed ++ [tbl] }
      else st

/-- One column of the column loop (source lines 911-917). -/
def procColumn (kwBase : List Str) (realistic : Bool) (st : PSt) (col : Str) : PSt :=
  if col ≠ [] ∧ col ≠ ['*'] ∧ col ∉ st.processed ∧
      ¬ is_sql_keyword_or_function kwBase col then
    let (m, rg, c) := add_map kwBase realistic st.maps GCat.column col
      (("column").data) rGenColumnName st.rg st.cnt1
    { st with maps := m, rg := rg, cnt1 := c, processed := st.processed ++ [col] }
  else st

/-- One string of the string loop (source lines 920-929): no keyword or
key check, mask `'stringN'` in generic mode. -/
def procString (realistic : Bool) (st : PSt) (s : Str) : PSt :=
  if s ≠ [] ∧ s ∉ st.processed then
    let (mask, rg') :=
      if realistic then rGenStringValue st.rg s
      else (qS :: ("string").data ++ pyNat st.cnt1 ++ [qS], st.rg)
    { st with
      maps := setMap st.maps GCat.strng
        (getMap st.maps GCat.strng ++ [(s, ⟨mask, true⟩)])
      rg := rg', cnt1 := st.cnt1 + 1, processed := st.processed ++ [s] }
  else st

/-- One function of the function loop (source lines 932-938). -/
def procFunction (kwBase : List Str) (realistic : Bool) (st : PSt) (f : Str) : PSt :=
  if f ≠ [] ∧ f ∉ st.processed ∧ ¬ is_sql_keyword_or_function kwBase f then
    let (m, rg, c) := add_map kwBase realistic st.maps GCat.func f
      (("function").data) rGenFunctionName st.rg st.cnt2
    { st with maps := m, rg := rg, cnt2 := c, processed := st.processed ++ [f] }
  else st

/-- One alias of the alias loop (source lines 941-956): only aliases longer
than three characters, mask `alias_N` in generic mode or an `alias_`
prefixed realistic column name. -/
def procAlias (kwBase : List Str) (realistic : Bool) (st : PSt) (a : Str) : PSt :=
  if a ≠ [] ∧ a ∉ st.processed ∧
      ¬ is_sql_keyword_or_function kwBase a ∧ 3 < a.length then
    let (mask, rg') :=
      if realistic then
        let (cn, rg1) := rGenColumnName st.rg a
        (("alias_").data ++ cn, rg1)
      else (("alias_").data ++ pyNat st.cnt2, st.rg)
    { st with
      maps := setMap st.maps GCat.alias
        (getMap st.maps GCat.alias ++ [(a, ⟨mask, true⟩)])
      rg := rg', cnt2 := st.cnt2 + 1, processed := st.processed ++ [a] }
  else st

/-- `EnhancedSQLMaskerGUI.generate_placeholders` (source lines 846-956):
maps reset, fresh realistic generator, both shared counter cells starting
at 1. -/
def generate_placeholders (kwBase : List Str) (realistic : Bool) (g0 : List Nat)
    (tables columns strings functions aliases : List Str) : PSt :=
  let st0 : PSt := ⟨Maps.empty, ⟨[], g0⟩, 1, 1, []⟩
  let st1 := tables.foldl (procTable kwBase realistic) st0
  let st2 := columns.foldl (procColumn kwBase realistic) st1
  let st3 := strings.foldl (procString realistic) st2
  let st4 := functions.foldl (procFunction kwBase realistic) st3
  aliases.foldl (procAlias kwBase realistic) st4

/-!  ### `save_mapping` / `load_mapping` (source lines 1242-1361)

A loaded JSON entry need not be a dict with the required fields, so file
entries are modelled as raw values; the in-memory maps after a load hold
whatever the file supplied. -/

/-- A JSON value found at an entry position of a loaded mapping file:
either an object with optional `mask` / `enabled` fields (other fields do
not matter to the code), or something that is not an object. -/
inductive RawVal where
  | obj (mask? : Option Str) (enabled? : Option Bool)
  | nonObj
deriving DecidableEq

/-- A raw category map as read from a file. -/
abbrev RawMap := List (Str × RawVal)

/-- The `mappings` object of a mapping file. -/
structure RawMaps where
  catalogs : RawMap
  schemas : RawMap
  tables : RawMap
  columns : RawMap
  strings : RawMap
  functions : RawMap
  aliases : RawMap
deriving DecidableEq

/-- The metadata object of a mapping file (only the field the load logic
branches on is modelled). -/
structure RawMeta where
  realistic_names? : Option Bool
deriving DecidableEq

/-- A parsed mapping file.  `mappings? = none` models a JSON file without
a `"mappings"` key. -/
structure MapFile where
  metadata? : Option RawMeta
  mappings? : Option RawMaps
deriving DecidableEq

/-- Serialization of a well-formed entry. -/
def rawOfEntry (e : Entry) : RawVal := RawVal.obj (some e.mask) (some e.enabled)

/-- Serialization of a category map. -/
def rawOfCat (d : CatMap) : RawMap := d.map fun kv => (kv.1, rawOfEntry kv.2)

/-- `EnhancedSQLMaskerGUI.save_mapping` (source lines 1242-1286): the file
holds metadata (with the naming-mode flag) and the seven maps. -/
def save_mapping (realistic : Bool) (m : Maps) : MapFile :=
  ⟨some ⟨some realistic⟩,
   some ⟨rawOfCat m.catalog_map, rawOfCat m.schema_map, rawOfCat m.table_map,
         rawOfCat m.column_map, rawOfCat m.string_map, rawOfCat m.function_map,
         rawOfCat m.alias_map⟩⟩

/-- The validation test of the load loop (source line 1338):
`isinstance(value, dict) and "mask" in value and "enabled" in value`. -/
def rawValid : RawVal → Bool
  | RawVal.obj (some _) (some _) => true
  | _ => false

/-- First key with an invalid value, scanning one raw map. -/
def firstInvalid (d : RawMap) : Option Str :=
  (d.find? fun kv => ¬ rawValid kv.2).map Prod.fst

/-- First invalid key over the seven maps in validation order
(source lines 1333-1340). -/
def firstInvalidAll (r : RawMaps) : Option Str :=
  (firstInvalid r.catalogs).orElse fun _ =>
    (firstInvalid r.schemas).orElse fun _ =>
      (firstInvalid r.tables).orElse fun _ =>
        (firstInvalid r.columns).orElse fun _ =>
          (firstInvalid r.strings).orElse fun _ =>
            (firstInvalid r.functions).orElse fun _ => firstInvalid r.aliases

/-- The caller-visible outcome of `load_mapping`. -/
inductive LoadOutcome where
  | success
  | invalidFormat
  | invalidStructure (key : Str)
deriving DecidableEq

/-- The state of the GUI store that `load_mapping` touches: the seven maps
(raw, as the load assigns whatever the file holds) and the naming-mode
flag. -/
structure GuiSt where
  catalog_map : RawMap
  schema_map : RawMap
  table_map : RawMap
  column_map : RawMap
  string_map : RawMap
  function_map : RawMap
  alias_map : RawMap
  use_realistic_names : Bool
deriving DecidableEq

/-- Raw view of a well-formed store (for stating what a load leaves). -/
def rawSt (m : Maps) (realistic : Bool) : GuiSt :=
  ⟨rawOfCat m.catalog_map, rawOfCat m.schema_map, rawOfCat m.table_map,
   rawOfCat m.column_map, rawOfCat m.string_map, rawOfCat m.function_map,
   rawOfCat m.alias_map, realistic⟩

/-- `EnhancedSQLMaskerGUI.load_mapping` (source lines 1288-1361).  The file
dialog and message boxes are external; `userSaysYes` stands for the answer
to the naming-mode-mismatch question.  Note the source order: the seven
maps are assigned (lines 1310-1316) *before* the structure validation
(lines 1332-1340), and a validation failure returns early without
restoring them.  `toggle_naming_mode` (line 605) negates the flag, so the
accepted mismatch path sets the flag to the loaded value and then negates
it. -/
def load_mapping (st : GuiSt) (file : MapFile) (userSaysYes : Bool) :
    GuiSt × LoadOutcome :=
  match file.mappings? with
  | none => (st, LoadOutcome.invalidFormat)
  | some r =>
    let st1 : GuiSt :=
      { st with
        catalog_map := r.catalogs, schema_map := r.schemas,
        table_map := r.tables, column_map := r.columns,
        string_map := r.strings, function_map := r.functions,
        alias_map := r.aliases }
    let st2 : GuiSt :=
      match file.metadata? with
      | some meta =>
        match meta.realistic_names? with
        | some loaded =>
          if loaded ≠ st1.use_realistic_names ∧ userSaysYes then
            { st1 with use_realistic_names := !loaded }
          else st1
        | none => st1
      | none => st1
    match firstInvalidAll r with
    | some k => (st2, LoadOutcome.invalidStructure k)
    | none => (st2, LoadOutcome.success)

/-- The seven raw maps of a store, in validation order. -/
def stRawMaps (st : GuiSt) : List RawMap :=
  [st.catalog_map, st.schema_map, st.table_map, st.column_map,
   st.string_map, st.function_map, st.alias_map]

end Gui

/-!  ## The core masking module (`sql_masker.py`)

We model the configuration in which the optional `sqlparse` import is
absent (`except ImportError: sqlparse = None`, source lines 10-18): then
`KEYWORDS = {}`, analysis uses the `_extract_*_basic` regex extractors and
masking uses `_simple_mask_sql`.  The `sqlparse`-present substitution
pipeline of `mask_sql` (source lines 755-782), which is pure string
rewriting, is modelled separately as `mask_subst`.  The statement-level
extractors are modelled over an abstract stream of flattened `sqlparse`
leaf tokens. -/

namespace Core

/-- `additional_keywords` of `SQLAnalyzer.__init__` (source lines 113-138). -/
def additionalKeywords : List Str :=
  ([ "else", "elseif", "elsif", "if", "then", "case", "when", "end", "loop",
     "begin", "declare", "while", "for", "repeat", "until", "continue", "break",
     "over", "partition", "rows", "range", "unbounded", "preceding", "following",
     "current", "row", "first_value", "last_value", "lead", "lag", "rank",
     "dense_rank", "row_number", "ntile", "percent_rank", "cume_dist",
     "with", "recursive", "lateral", "pivot", "unpivot", "cross", "apply",
     "varchar", "char", "text", "int", "integer", "bigint", "smallint", "tinyint",
     "decimal", "numeric", "float", "double", "real", "date", "datetime", "timestamp",
     "time", "year", "boolean", "bool", "binary", "varbinary", "blob", "clob",
     "json", "xml", "uuid", "serial", "auto_increment",
     "count", "sum", "avg", "min", "max", "abs", "ceil", "floor", "round",
     "upper", "lower", "trim", "ltrim", "rtrim", "substring", "substr", "length",
     "concat", "replace", "coalesce", "isnull", "nullif", "cast", "convert",
     "extract", "datepart", "datediff", "dateadd", "now", "current_timestamp",
     "current_date", "current_time", "getdate", "sysdate"
   ] : List String).map String.data

/-- The four anchored alternation patterns of `is_sql_keyword_or_function`
(source lines 152-155); `^(a|b|...)$` on the lowercased token means exact
equality with one alternative (`$` also matches before one final newline). -/
def anchoredAlts : List Str :=
  ([ "select", "from", "where", "join", "on", "group", "order", "having",
     "union", "insert", "update", "delete", "create", "alter", "drop",
     "inner", "left", "right", "full", "outer", "cross",
     "distinct", "all", "any", "some", "exists", "in", "not", "and", "or",
     "between", "like", "is", "null",
     "asc", "desc", "limit", "offset", "top", "first", "last"
   ] : List String).map String.data

/-- `re.match(r'^(...)$', s)` for an alternation of literals: `s` equals an
alternative, possibly followed by one final newline. -/
def matchExactAlt (alts : List Str) (s : Str) : Bool :=
  alts.any fun a => s = a ∨ s = a ++ ['\n']

/-- `re.match(r'.*_id$', s)`: `.*` does not cross a newline and `$` accepts
the end of the string or a position before one final newline. -/
def matchIdSuffix (s : Str) : Bool :=
  (List.range (s.length + 1)).any fun i =>
    decide ('\n' ∉ s.take i) &&
      (decide (s.drop i = ['_', 'i', 'd']) || decide (s.drop i = ['_', 'i', 'd', '\n']))

/-- The prefixes of the pattern `^(get|set|is|has|can|should|will)_.*`. -/
def kwPrefixList : List Str :=
  ([ "get_", "set_", "is_", "has_", "can_", "should_", "will_" ] : List String).map
    String.data

/-- `re.match(r'^(get|set|is|has|can|should|will)_.*', s)`: `re.match` is a
prefix match and `.*` may be empty, so this is a starts-with test. -/
def matchKwPfx (s : Str) : Bool :=
  kwPrefixList.any fun p => pfxOf p s

/-- `SQLAnalyzer.is_sql_keyword_or_function` (source lines 142-164).
`kwBase` abstracts the lowercased `sqlparse.keywords.KEYWORDS` table
(empty in the configuration without `sqlparse`). -/
def is_sql_keyword_or_function (kwBase : List Str) (tok : Str) : Bool :=
  let tl := lowerS tok
  if tl ∈ kwBase ∨ tl ∈ additionalKeywords then true
  else matchExactAlt anchoredAlts tl || matchIdSuffix tl || matchKwPfx tl

/-- Python `str.upper` (ASCII fragment). -/
def upperS (s : Str) : Str := s.map Char.toUpper

/-- Characters stripped from extracted names: `.strip('`"[]')`. -/
def nameStripSet : List Char := ['`', '"', '[', ']']

/-- Python `s.split('.')[-1]` when `'.' in s`, otherwise `s` itself. -/
def lastDotPart (s : Str) : Str :=
  if '.' ∈ s then (s.splitOn '.').getLastD s else s

/-!  ### The regex table pattern `\bKW\s+([`"]?[a-zA-Z_][a-zA-Z0-9_]*[`"]?)` -/

/-- Match `[A-Za-z_][A-Za-z0-9_]*` at the head of `s`, returning the run and
the remaining input. -/
def identCore (s : Str) : Option (Str × Str) :=
  match s with
  | [] => none
  | c :: t =>
    if c.isAlpha ∨ c = '_' then
      let run := t.takeWhile fun d => isWordChar d
      some (c :: run, t.drop run.length)
    else none

/-- Match the capture group `([`"]?[A-Za-z_][A-Za-z0-9_]*[`"]?)` at the head
of `s`; returns the captured text and its length. -/
def matchIdentGroup (s : Str) : Option (Str × Nat) :=
  match s with
  | [] => none
  | c :: t =>
    if c = '`' ∨ c = qD then
      match identCore t with
      | some (core, rest) =>
        match rest.head? with
        | some d =>
          if d = '`' ∨ d = qD then some (c :: core ++ [d], core.length + 2)
          else some (c :: core, core.length + 1)
        | none => some (c :: core, core.length + 1)
      | none => none
    else
      match identCore s with
      | some (core, rest) =>
        match rest.head? with
        | some d =>
          if d = '`' ∨ d = qD then some (core ++ [d], core.length + 1)
          else some (core, core.length)
        | none => some (core, core.length)
      | none => none

/-- Match `KW₁\s+KW₂\s+...\s+(group)` at the head of `s` (the keywords are
separated and followed by at least one `\s`). -/
def matchKwsGroup : List Str → Str → Option (Str × Nat)
  | [], s => matchIdentGroup s
  | kw :: rest, s =>
    if pfxOf kw s then
      let s1 := s.drop kw.length
      let k := spaceRun s1
      if k = 0 then none
      else (matchKwsGroup rest (s1.drop k)).map fun gl => (gl.1, kw.length + k + gl.2)
    else none

/-- `re.findall` scan for one table pattern: leftmost, non-overlapping, with
`\b` before the first keyword character. -/
def tablePatGo (kws : List Str) : Option Char → Nat → Str → List Str
  | _, _ + 1, [] => []
  | _, skip + 1, c :: t => tablePatGo kws (some c) skip t
  | _, 0, [] => []
  | prev, 0, c :: t =>
    match (if wordOpt prev then none else matchKwsGroup kws (c :: t)) with
    | some (g, L) => g :: tablePatGo kws (some c) (L - 1) t
    | none => tablePatGo kws (some c) 0 t

/-- All captures of one table pattern in `s`. -/
def tablePat (kws : List Str) (s : Str) : List Str := tablePatGo kws none 0 s

/-- `SQLAnalyzer._extract_tables_basic` (source lines 166-188).  Python's
`list(set(..))` is modelled as deduplication keeping first occurrences
(set iteration order is interpreter-defined). -/
def extract_tables_basic (kwBase : List Str) (sql : Str) : List Str :=
  let su := upperS sql
  let raw := tablePat [("FROM").data] su ++ tablePat [("JOIN").data] su ++
      tablePat [("UPDATE").data] su ++ tablePat [("INSERT").data, ("INTO").data] su
  let tables := raw.filterMap fun m =>
    let tn := lastDotPart (pyStripChars nameStripSet m)
    if tn ≠ [] ∧ ¬ is_sql_keyword_or_function kwBase tn then some (lowerS tn)
    else none
  tables.eraseDups

/-!  ### The clause-extraction patterns of `_extract_columns_basic` -/

/-- First `some` value of `f` on `0, 1, ..., n-1`. -/
def firstSomeRange (n : Nat) (f : Nat → Option α) : Option α :=
  (List.range n).findSome? f

/-- Match `KW₁\s+KW₂\s+...\s+KWₖ` (case-insensitive) at the head of `s`,
with at least one `\s` between consecutive keywords; returns the consumed
length.  An empty keyword list consumes nothing. -/
def leadConsume : List Str → Str → Option Nat
  | [], _ => some 0
  | [kw], s => if pfxOfCI kw s then some kw.length else none
  | kw :: rest, s =>
    if pfxOfCI kw s then
      let s1 := s.drop kw.length
      let n := spaceRun s1
      if n = 0 then none
      else (leadConsume rest (s1.drop n)).map (· + kw.length + n)
    else none

/-- `\s+KW₁\s+KW₂...` (case-insensitive) matches at the head of `s`. -/
def tailKwSeq : List Str → Str → Bool
  | [], _ => true
  | kw :: rest, s =>
    let n := spaceRun s
    if n ≥ 1 ∧ pfxOfCI kw (s.drop n) then tailKwSeq rest (s.drop (n + kw.length))
    else false

/-- The tail `(?:\s+A₁...|\s+A₂...|\s*$)` of the clause patterns: one of the
keyword-sequence alternatives, or (when `eps` is set) only `\s` characters
remain (`\s*$` without `re.MULTILINE`). -/
def clauseTail (alts : List (List Str)) (eps : Bool) (s : Str) : Bool :=
  alts.any (fun kws => tailKwSeq kws s) || (eps && s.all fun c => isSpaceChar c)

/-- `re.search(r'\bLEAD...\s+(.*?)TAIL', sql, re.IGNORECASE | re.DOTALL)`:
leftmost start; at a start, the greedy `\s+` run is tried longest first and
the lazy group `(.*?)` shortest first (`re.DOTALL`: the group may contain
newlines).  Returns the captured group. -/
def searchClause (lead : List Str) (alts : List (List Str)) (eps : Bool)
    (sql : Str) : Option Str :=
  firstSomeRange (sql.length + 1) fun i =>
    let sfx := sql.drop i
    match sfx.head? with
    | none => none
    | some c =>
      if bdryBefore ((sql.take i).getLast?) c then
        match leadConsume lead sfx with
        | some L =>
          let rest := sfx.drop L
          let ms := spaceRun rest
          if ms = 0 then none
          else
            firstSomeRange ms fun dm =>
              let body := rest.drop (ms - dm)
              firstSomeRange (body.length + 1) fun g =>
                if clauseTail alts eps (body.drop g) then some (body.take g)
                else none
        | none => none
      else none

/-- `re.sub(r'^.*\.', '', col)`: anchored at the start, `.*` greedy and not
crossing a newline, so everything up to the last dot of the first line is
removed (no change when the first line has no dot). -/
def removeTablePfx (s : Str) : Str :=
  let fl := s.takeWhile fun c => c ≠ '\n'
  match (fl.reverse.findIdx? fun c => c = '.') with
  | some j => s.drop (fl.length - j)
  | none => s

/-- `re.sub(r'\s+AS\s+.*$', '', col, flags=re.IGNORECASE)`: the leftmost
position where at least one `\s`, `as`, at least one `\s` follow and the
remaining text contains no newline except possibly a final one; everything
from that position on is removed. -/
def removeAsAlias (s : Str) : Str :=
  match
    firstSomeRange (s.length + 1) fun i =>
      let sfx := s.drop i
      let n1 := spaceRun sfx
      if n1 = 0 then none
      else
        let u := sfx.drop n1
        if pfxOfCI (("as").data) u then
          let v := u.drop 2
          let n2 := spaceRun v
          if n2 = 0 then none
          else if (List.range n2).any (fun k => decide ('\n' ∉ (v.drop (k + 1)).dropLast))
          then some i else none
        else none
  with
  | some i => s.take i
  | none => s

/-- `re.match(r'.*\(.*\)', col)`: an opening and a later closing parenthesis
on the first line of `col`. -/
def hasParenPair (s : Str) : Bool :=
  let fl := s.takeWhile fun c => c ≠ '\n'
  match fl.findIdx? fun c => c = '(' with
  | some i => decide (')' ∈ fl.drop (i + 1))
  | none => false

/-- Maximal runs of word characters of `s`, in order. -/
def wordRuns : Str → List Str
  | [] => []
  | c :: t =>
    let rs := wordRuns t
    if isWordChar c then
      match t with
      | d :: _ => if isWordChar d then (c :: rs.headD []) :: rs.tail else [c] :: rs
      | [] => [[c]]
    else rs

/-- `re.findall(r'\b([a-zA-Z_][a-zA-Z0-9_]*)\b', clause)`: the maximal word
runs that start with a letter or underscore (a run starting with a digit
has no interior `\b`, so it yields nothing). -/
def findIdentifiers (clause : Str) : List Str :=
  (wordRuns clause).filter fun r =>
    match r.head? with
    | some c => c.isAlpha ∨ c = '_'
    | none => false

/-- `SQLAnalyzer._extract_columns_basic` (source lines 190-230). -/
def extract_columns_basic (kwBase : List Str) (sql : Str) : List Str :=
  let selCols :=
    match searchClause [("select").data] [[("from").data]] false sql with
    | some clause =>
      ((clause.splitOn ',').map pyStrip).filterMap fun col0 =>
        let col1 := pyStripChars nameStripSet (removeAsAlias (removeTablePfx col0))
        if col1 ≠ [] ∧ col1 ≠ ['*'] ∧ ¬ hasParenPair col1 ∧
            ¬ is_sql_keyword_or_function kwBase col1 then
          some (lowerS col1)
        else none
    | none => []
  let clauseIds := fun (oc : Option Str) =>
    match oc with
    | some clause =>
      (findIdentifiers clause).filterMap fun idf =>
        if ¬ is_sql_keyword_or_function kwBase idf then some (lowerS idf) else none
    | none => []
  let whereIds := clauseIds (searchClause [("where").data]
    [[("group").data, ("by").data], [("order").data, ("by").data]] true sql)
  let orderIds := clauseIds (searchClause [("order").data, ("by").data]
    [[("limit").data]] true sql)
  let groupIds := clauseIds (searchClause [("group").data, ("by").data]
    [[("having").data], [("order").data, ("by").data]] true sql)
  (selCols ++ whereIds ++ orderIds ++ groupIds).eraseDups

/-- `re.findall` scan for `'[^']*'|\"[^\"]*\"` (leftmost, alternation tried
left first, non-overlapping). -/
def stringsGo : Nat → Str → List Str
  | _ + 1, [] => []
  | skip + 1, _ :: t => stringsGo skip t
  | 0, [] => []
  | 0, c :: t =>
    if c = qS then
      match t.findIdx? fun d => d = qS with
      | some k => (c :: t.take k ++ [qS]) :: stringsGo (k + 1) t
      | none => stringsGo 0 t
    else if c = qD then
      match t.findIdx? fun d => d = qD with
      | some k => (c :: t.take k ++ [qD]) :: stringsGo (k + 1) t
      | none => stringsGo 0 t
    else stringsGo 0 t

/-- `SQLAnalyzer._extract_strings_basic` (source lines 232-240): all matches,
duplicates kept. -/
def extract_strings_basic (sql : Str) : List Str := stringsGo 0 sql

/-!  ### `SQLMasker._clean_sql_from_markdown` (source lines 452-456) -/

/-- Index (from the start of `s`) one past the last newline among the first
`n` characters of `s`, if any. -/
def lastNlWithin (n : Nat) (s : Str) : Option Nat :=
  match ((s.take n).reverse.findIdx? fun c => c = '\n') with
  | some j => some (n - j)
  | none => none

/-- Match length of ` ```(?:sql|SQL)?\s*\n ` at the head of `s` (the match
ends after the last newline inside the greedy `\s*` run, one branch of the
optional group tried at a time). -/
def md1At (s : Str) : Option Nat :=
  if pfxOf (['`', '`', '`']) s then
    let afterTicks := s.drop 3
    let tryTail := fun (kw : Str) =>
      if pfxOf kw afterTicks then
        let u := afterTicks.drop kw.length
        (lastNlWithin (spaceRun u) u).map (· + 3 + kw.length)
      else none
    (tryTail (("sql").data)).orElse fun _ =>
      (tryTail (("SQL").data)).orElse fun _ => tryTail []
  else none

/-- `re.sub(r'^```(?:sql|SQL)?\s*\n', '', sql, flags=re.MULTILINE)`:
`^` matches at the start and after each newline. -/
def md1Go : Bool → Nat → Str → Str
  | _, _ + 1, [] => []
  | _, skip + 1, c :: t => md1Go (c = '\n') skip t
  | _, 0, [] => []
  | atLineStart, 0, c :: t =>
    if atLineStart then
      match md1At (c :: t) with
      | some L => md1Go (c = '\n') (L - 1) t
      | none => c :: md1Go (c = '\n') 0 t
    else c :: md1Go (c = '\n') 0 t

/-- Match length of `\n```\s*$` at the head of `s` (`$` with `re.MULTILINE`:
at the end or before any newline; the greedy `\s*` takes the longest
qualifying run). -/
def md2At (s : Str) : Option Nat :=
  if pfxOf (['\n', '`', '`', '`']) s then
    let u := s.drop 4
    let run := spaceRun u
    if u.drop run = [] then some (4 + run)
    else
      match (List.range (run + 1)).reverse.find? fun k => (u.get? k) = some '\n' with
      | some k => some (4 + k)
      | none => none
  else none

/-- `re.sub(r'\n```\s*$', '', sql, flags=re.MULTILINE)`. -/
def md2Go : Nat → Str → Str
  | _ + 1, [] => []
  | skip + 1, _ :: t => md2Go skip t
  | 0, [] => []
  | 0, c :: t =>
    match md2At (c :: t) with
    | some L => md2Go (L - 1) t
    | none => c :: md2Go 0 t

/-- `SQLMasker._clean_sql_from_markdown` (source lines 452-456). -/
def clean_sql_from_markdown (sql : Str) : Str :=
  pyStrip (md2Go 0 (md1Go true 0 sql))

/-!  ### `NameGenerator` (source lines 21-97)

`random.choice` and `random.randint` are modelled by an oracle: a stream of
natural numbers consumed one per call, `choice l` picking index
`n % l.length`. -/

/-- The randomness oracle. -/
structure Rng where
  stream : List Nat
deriving DecidableEq

/-- Consume one oracle value. -/
def Rng.next (g : Rng) : Nat × Rng := (g.stream.headD 0, ⟨g.stream.tail⟩)

/-- `random.choice(l)` under the oracle. -/
def pyChoice (l : List Str) (g : Rng) : Str × Rng :=
  let (n, g') := g.next
  (l.getD (n % l.length) [], g')

/-- `random.choice([True, False])` under the oracle. -/
def pyChoiceBool (g : Rng) : Bool × Rng :=
  let (n, g') := g.next
  (n % 2 = 0, g')

/-- `random.randint(a, b)` (inclusive) under the oracle. -/
def pyRandint (a b : Nat) (g : Rng) : Nat × Rng :=
  let (n, g') := g.next
  (a + n % (b - a + 1), g')

/-- The mutable counters of `NameGenerator`. -/
structure NameGen where
  table_counter : Nat
  column_counter : Nat
  schema_counter : Nat
  function_counter : Nat
  string_counter : Nat
deriving DecidableEq

/-- `NameGenerator.__init__` counters. -/
def NameGen.init : NameGen := ⟨0, 0, 0, 0, 0⟩

/-- `self.table_prefixes`. -/
def tablePrefixes : List Str :=
  (["tbl", "data", "info", "ref", "dim", "fact"] : List String).map String.data

/-- `self.column_prefixes`. -/
def columnPrefixes : List Str :=
  (["col", "fld", "attr", "prop", "val"] : List String).map String.data

/-- `self.schema_prefixes`. -/
def schemaPrefixes : List Str :=
  (["db", "schema", "ns"] : List String).map String.data

/-- `self.function_prefixes`. -/
def functionPrefixes : List Str :=
  (["func", "proc", "fn"] : List String).map String.data

/-- `self.business_words`. -/
def businessWords : List Str :=
  ([ "account", "order", "customer", "product", "service", "item",
     "transaction", "payment", "invoice", "report", "data", "record",
     "entry", "detail", "summary", "status", "type", "category"
   ] : List String).map String.data

/-- `self.adjectives`. -/
def adjectives : List Str :=
  ([ "primary", "secondary", "main", "temp", "staging", "final",
     "active", "archived", "current", "historical", "master", "lookup"
   ] : List String).map String.data

/-- `NameGenerator.generate_table_name` (source lines 49-61). -/
def generate_table_name (ng : NameGen) (g : Rng) : Str × NameGen × Rng :=
  let ng := { ng with table_counter := ng.table_counter + 1 }
  let (b, g1) := pyChoiceBool g
  if b then
    let (p, g2) := pyChoice tablePrefixes g1
    let (w, g3) := pyChoice businessWords g2
    let (sfx, g4) := pyChoice
      ([[], ("_data").data, ("_info").data, ("_master").data, ("_detail").data]) g3
    (p ++ '_' :: w ++ sfx, ng, g4)
  else (("table_").data ++ pyNatPad3 ng.table_counter, ng, g1)

/-- `NameGenerator.generate_column_name` (source lines 63-77). -/
def generate_column_name (ng : NameGen) (g : Rng) : Str × NameGen × Rng :=
  let ng := { ng with column_counter := ng.column_counter + 1 }
  let (b, g1) := pyChoiceBool g
  if b then
    let (adj, g2) := pyChoice (adjectives ++ [[]]) g1
    let (w, g3) := pyChoice businessWords g2
    let (sfx, g4) := pyChoice
      ([("_id").data, ("_name").data, ("_code").data, ("_value").data,
        ("_flag").data, []]) g3
    let name := if adj ≠ [] then adj ++ '_' :: w ++ sfx else w ++ sfx
    (dropLeading ['_'] name, ng, g4)
  else
    let (p, g2) := pyChoice columnPrefixes g1
    (p ++ '_' :: pyNatPad3 ng.column_counter, ng, g2)

/-- `NameGenerator.generate_schema_name` (source lines 79-83). -/
def generate_schema_name (ng : NameGen) (g : Rng) : Str × NameGen × Rng :=
  let ng := { ng with schema_counter := ng.schema_counter + 1 }
  let (p, g1) := pyChoice schemaPrefixes g
  (p ++ '_' :: pyNatPad2 ng.schema_counter, ng, g1)

/-- `NameGenerator.generate_function_name` (source lines 85-90). -/
def generate_function_name (ng : NameGen) (g : Rng) : Str × NameGen × Rng :=
  let ng := { ng with function_counter := ng.function_counter + 1 }
  let (p, g1) := pyChoice functionPrefixes g
  let (a, g2) := pyChoice
    ((["get", "set", "calc", "proc", "exec", "run"] : List String).map String.data) g1
  (p ++ '_' :: a ++ '_' :: pyNatPad2 ng.function_counter, ng, g2)

/-- The character pool `string.ascii_letters + string.digits`. -/
def asciiPool : Str :=
  ("abcdefghijklmnopqrstuvwxyzABCDEFGHIJKLMNOPQRSTUVWXYZ0123456789").data

/-- Draw `n` pool characters. -/
def drawChars : Nat → Rng → Str × Rng
  | 0, g => ([], g)
  | n + 1, g =>
    let (k, g1) := g.next
    let c := asciiPool.getD (k % asciiPool.length) 'a'
    let (rest, g2) := drawChars n g1
    (c :: rest, g2)

/-- `NameGenerator.generate_string_value` (source lines 92-97): the length is
the quote-stripped length of the argument when the argument is nonempty
(Python truthiness), otherwise `random.randint(5, 15)`; the value is
`max 1 length` random pool characters. -/
def generate_string_value (original : Str) (ng : NameGen) (g : Rng) :
    Str × NameGen × Rng :=
  let ng := { ng with string_counter := ng.string_counter + 1 }
  let (len, g1) :=
    if original ≠ [] then ((pyStripChars [qS, qD] original).length, g)
    else pyRandint 5 15 g
  let (v, g2) := drawChars (max 1 len) g1
  (v, ng, g2)

/-!  ### `SQLMasker` state and mapping generation (source lines 402-517) -/

/-- The entity lists returned by `analyze_sql`. -/
structure Entities where
  tables : List Str
  columns : List Str
  strings : List Str
  functions : List Str
  aliases : List Str
deriving DecidableEq

/-- The mutable state of a `SQLMasker`: the five forward mapping dicts, the
five reverse dicts, the name generator counters and the randomness oracle. -/
structure MaskerSt where
  table_mapping : List (Str × Str)
  column_mapping : List (Str × Str)
  string_mapping : List (Str × Str)
  function_mapping : List (Str × Str)
  alias_mapping : List (Str × Str)
  reverse_table_mapping : List (Str × Str)
  reverse_column_mapping : List (Str × Str)
  reverse_string_mapping : List (Str × Str)
  reverse_function_mapping : List (Str × Str)
  reverse_alias_mapping : List (Str × Str)
  gen : NameGen
  rng : Rng
deriving DecidableEq

/-- A fresh `SQLMasker` with oracle `g`. -/
def MaskerSt.init (g : Rng) : MaskerSt :=
  ⟨[], [], [], [], [], [], [], [], [], [], NameGen.init, g⟩

/-- Membership of a key in a Python dict modelled as an association list. -/
def hasKey (d : List (Str × Str)) (k : Str) : Bool :=
  d.any fun kv => kv.1 = k

/-- The `while masked_name in reverse: regenerate` retry loops of
`_generate_traditional_mappings`.  Termination of the Python loop depends on
the random source, so the model carries explicit fuel; with fresh reverse
maps (all uses in the theorems below) the loop body never runs. -/
def genFresh (step : NameGen → Rng → Str × NameGen × Rng)
    (rev : List (Str × Str)) : Nat → NameGen → Rng → Str × NameGen × Rng
  | 0, ng, g => step ng g
  | fuel + 1, ng, g =>
    let (n, ng1, g1) := step ng g
    if hasKey rev n then genFresh step rev fuel ng1 g1 else (n, ng1, g1)

/-- Retry fuel (the Python loop is unbounded; any bound ≥ 1 is equivalent
for the inputs considered in the theorems below). -/
def retryFuel : Nat := 100

/-- The tables section of `_generate_traditional_mappings` (467-476). -/
def genTables (ts : List Str) (st : MaskerSt) : MaskerSt :=
  ts.foldl
    (fun st t =>
      if hasKey st.table_mapping t then st
      else
        let (n, ng1, g1) := genFresh (fun ng g => generate_table_name ng g)
          st.reverse_table_mapping retryFuel st.gen st.rng
        { st with
          table_mapping := st.table_mapping ++ [(t, n)]
          reverse_table_mapping := st.reverse_table_mapping ++ [(n, t)]
          gen := ng1, rng := g1 })
    st

/-- The columns section of `_generate_traditional_mappings` (478-487). -/
def genColumns (cs : List Str) (st : MaskerSt) : MaskerSt :=
  cs.foldl
    (fun st c =>
      if hasKey st.column_mapping c then st
      else
        let (n, ng1, g1) := genFresh (fun ng g => generate_column_name ng g)
          st.reverse_column_mapping retryFuel st.gen st.rng
        { st with
          column_mapping := st.column_mapping ++ [(c, n)]
          reverse_column_mapping := st.reverse_column_mapping ++ [(n, c)]
          gen := ng1, rng := g1 })
    st

/-- The strings section of `_generate_traditional_mappings` (489-499): the
quote style is preserved and there is no conflict-retry loop. -/
def genStrings (ss : List Str) (st : MaskerSt) : MaskerSt :=
  ss.foldl
    (fun st s =>
      if hasKey st.string_mapping s then st
      else
        let quote := match s.head? with
          | some c => if c = qS ∨ c = qD then c else qS
          | none => qS
        let inner := pyStripChars [qS, qD] s
        let (v, ng1, g1) := generate_string_value inner st.gen st.rng
        let masked := quote :: v ++ [quote]
        { st with
          string_mapping := st.string_mapping ++ [(s, masked)]
          reverse_string_mapping := st.reverse_string_mapping ++ [(masked, s)]
          gen := ng1, rng := g1 })
    st

/-- The functions section of `_generate_traditional_mappings` (501-510). -/
def genFunctions (fs : List Str) (st : MaskerSt) : MaskerSt :=
  fs.foldl
    (fun st f =>
      if hasKey st.function_mapping f then st
      else
        let (n, ng1, g1) := genFresh (fun ng g => generate_function_name ng g)
          st.reverse_function_mapping retryFuel st.gen st.rng
        { st with
          function_mapping := st.function_mapping ++ [(f, n)]
          reverse_function_mapping := st.reverse_function_mapping ++ [(n, f)]
          gen := ng1, rng := g1 })
    st

/-- The aliases section of `_generate_traditional_mappings` (512-517):
`alias_{len(alias_mapping)+1:02d}`, no retry loop. -/
def genAliases (al : List Str) (st : MaskerSt) : MaskerSt :=
  al.foldl
    (fun st a =>
      if hasKey st.alias_mapping a then st
      else
        let n := ("alias_").data ++ pyNatPad2 (st.alias_mapping.length + 1)
        { st with
          alias_mapping := st.alias_mapping ++ [(a, n)]
          reverse_alias_mapping := st.reverse_alias_mapping ++ [(n, a)] })
    st

/-- `SQLMasker._generate_traditional_mappings` (source lines 465-517). -/
def generate_traditional_mappings (ents : Entities) (st : MaskerSt) : MaskerSt :=
  genAliases ents.aliases
    (genFunctions ents.functions
      (genStrings ents.strings
        (genColumns ents.columns
          (genTables ents.tables st))))

/-- `SQLMasker.analyze_sql` (source lines 429-450) in the configuration
without `sqlparse`: markdown cleanup, then the basic extractors; function
and alias extraction return `[]` (source lines 349-350, 369-370). -/
def analyze_sql (kwBase : List Str) (sql : Str) : Entities :=
  let c := clean_sql_from_markdown sql
  ⟨extract_tables_basic kwBase c, extract_columns_basic kwBase c,
   extract_strings_basic c, [], []⟩

/-- `not any([...])` over the five forward mapping dicts
(source lines 746-747). -/
def mappingsEmpty (st : MaskerSt) : Bool :=
  st.table_mapping = [] ∧ st.column_mapping = [] ∧ st.string_mapping = [] ∧
  st.function_mapping = [] ∧ st.alias_mapping = []

/-- The replacement body of `_simple_mask_sql` (source lines 797-812):
plain `str.replace` over all mappings in the order strings, functions,
tables, columns, aliases. -/
def simple_mask_text (st : MaskerSt) (sql : Str) : Str :=
  let s1 := st.string_mapping.foldl (fun acc om => pyReplace om.1 om.2 acc) sql
  let s2 := st.function_mapping.foldl (fun acc om => pyReplace om.1 om.2 acc) s1
  let s3 := st.table_mapping.foldl (fun acc om => pyReplace om.1 om.2 acc) s2
  let s4 := st.column_mapping.foldl (fun acc om => pyReplace om.1 om.2 acc) s3
  st.alias_mapping.foldl (fun acc om => pyReplace om.1 om.2 acc) s4

/-- `SQLMasker._simple_mask_sql` (source lines 788-812): generate mappings
first when none exist, then substitute. -/
def simple_mask_sql (kwBase : List Str) (st : MaskerSt) (sql : Str) :
    MaskerSt × Str :=
  let st1 :=
    if mappingsEmpty st then generate_traditional_mappings (analyze_sql kwBase sql) st
    else st
  (st1, simple_mask_text st1 sql)

/-- `SQLMasker.mask_sql` (source lines 742-786) in the configuration without
`sqlparse`: the empty-mapping check and on-demand generation (lines
745-750), then the `if not sqlparse` branch delegating to
`_simple_mask_sql` (lines 752-753). -/
def mask_sql_noparse (kwBase : List Str) (st : MaskerSt) (sql : Str) :
    MaskerSt × Str :=
  let st1 :=
    if mappingsEmpty st then generate_traditional_mappings (analyze_sql kwBase sql) st
    else st
  simple_mask_sql kwBase st1 sql

/-- The `sqlparse`-present substitution pipeline of `SQLMasker.mask_sql`
(source lines 755-782), a pure function of the five forward mappings:
string literals by plain replacement, functions by the
`\b orig \s* \(` pattern, then tables, columns and aliases by
case-insensitive whole-word replacement. -/
def mask_subst (st : MaskerSt) (sql : Str) : Str :=
  let s1 := st.string_mapping.foldl (fun acc om => pyReplace om.1 om.2 acc) sql
  let s2 := st.function_mapping.foldl (fun acc om => funcSub om.1 om.2 acc) s1
  let s3 := st.table_mapping.foldl (fun acc om => wbSub true om.1 om.2 acc) s2
  let s4 := st.column_mapping.foldl (fun acc om => wbSub true om.1 om.2 acc) s3
  st.alias_mapping.foldl (fun acc om => wbSub true om.1 om.2 acc) s4

/-!  ### `SQLAnalyzer` statement-level extractors (source lines 259-399)

These walk the flattened `sqlparse` leaf-token stream of a statement, which
we abstract as a list of `(ttype, value)` pairs. -/

/-- Abstraction of the `sqlparse` token types the extractors compare with
`is` / `in`. -/
inductive CTType where
  | keywordT | nameT | stringSingleT | stringSymbolT | whitespaceT | otherT
deriving DecidableEq

/-- A flattened `sqlparse` leaf token. -/
structure CToken where
  ttype : CTType
  tstr : Str
deriving DecidableEq

/-- `SQLAnalyzer._extract_columns_from_statement` (source lines 300-326). -/
def extract_columns_stmt (kwBase : List Str) :
    Bool → Bool → Bool → List CToken → List Str
  | _, _, _, [] => []
  | inSel, inWh, inOrd, t :: ts =>
    let tv := upperS t.tstr
    if t.ttype = CTType.keywordT then
      if tv = ("SELECT").data then extract_columns_stmt kwBase true inWh inOrd ts
      else if tv = ("FROM").data ∨ tv = ("WHERE").data ∨ tv = ("GROUP BY").data ∨
          tv = ("ORDER BY").data ∨ tv = ("HAVING").data then
        extract_columns_stmt kwBase false (tv = ("WHERE").data)
          (tv = ("ORDER BY").data) ts
      else extract_columns_stmt kwBase inSel inWh inOrd ts
    else if (inSel ∨ inWh ∨ inOrd) ∧ t.ttype = CTType.nameT then
      if ¬ is_sql_keyword_or_function kwBase t.tstr then
        let cn := lastDotPart (pyStripChars nameStripSet t.tstr)
        if cn ≠ [] ∧ ¬ is_sql_keyword_or_function kwBase cn ∧ cn ≠ ['*'] then
          cn :: extract_columns_stmt kwBase inSel inWh inOrd ts
        else extract_columns_stmt kwBase inSel inWh inOrd ts
      else extract_columns_stmt kwBase inSel inWh inOrd ts
    else extract_columns_stmt kwBase inSel inWh inOrd ts

/-- `SQLAnalyzer._extract_tables_from_statement` (source lines 259-281). -/
def extract_tables_stmt (kwBase : List Str) :
    Bool → Bool → List CToken → List Str
  | _, _, [] => []
  | fromSeen, joinSeen, t :: ts =>
    let tv := upperS t.tstr
    if t.ttype = CTType.keywordT ∧
        (tv = ("FROM").data ∨ tv = ("JOIN").data ∨ tv = ("UPDATE").data ∨
         tv = ("INSERT INTO").data) then
      extract_tables_stmt kwBase true
        (tv = ("JOIN").data ∨ tv = ("LEFT JOIN").data ∨ tv = ("RIGHT JOIN").data ∨
         tv = ("INNER JOIN").data ∨ tv = ("OUTER JOIN").data) ts
    else if fromSeen ∧ t.ttype = CTType.nameT ∧
        ¬ is_sql_keyword_or_function kwBase t.tstr then
      let tn := lastDotPart (pyStripChars nameStripSet t.tstr)
      let out := if tn ≠ [] ∧ ¬ is_sql_keyword_or_function kwBase tn then [tn] else []
      out ++ extract_tables_stmt kwBase (if ¬ joinSeen then false else fromSeen) false ts
    else extract_tables_stmt kwBase fromSeen joinSeen ts

/-- `SQLAnalyzer._extract_aliases_from_statement` (source lines 383-399):
an `AS` keyword followed immediately by a `Name` token yields that name
without a keyword check; a `Name` followed immediately by a non-keyword
`Name` yields the second name. -/
def extract_aliases_stmt (kwBase : List Str) : List CToken → List Str
  | [] => []
  | t :: ts =>
    let contrib :=
      if t.ttype = CTType.keywordT ∧ upperS t.tstr = ("AS").data then
        match ts.head? with
        | some n => if n.ttype = CTType.nameT then [n.tstr] else []
        | none => []
      else if t.ttype = CTType.nameT then
        match ts.head? with
        | some n =>
          if n.ttype = CTType.nameT ∧ ¬ is_sql_keyword_or_function kwBase n.tstr then
            [n.tstr]
          else []
        | none => []
      else []
    contrib ++ extract_aliases_stmt kwBase ts

/-- `SQLAnalyzer.extract_functions` token loop (source lines 347-365):
a `Name` token whose value ends in `(` yields the value without the
parenthesis, if it is not a keyword or builtin. -/
def extract_functions_stmt (kwBase : List Str) (ts : List CToken) : List Str :=
  ts.filterMap fun t =>
    if t.ttype = CTType.nameT ∧ t.tstr.getLast? = some '(' then
      let fn := t.tstr.dropLast
      if ¬ is_sql_keyword_or_function kwBase fn then some fn else none
    else none

end Core

/-!  ## Lemmas: prefixes, occurrences and boundary facts -/

/-- All characters of `s` are word characters. -/
def allWord (s : Str) : Bool := s.all isWordChar

/-- Quote-delimited shape of a generated string placeholder:
a quote, a nonempty word-character interior, a quote. -/
def strShape (s : Str) : Bool :=
  3 ≤ s.length &&
    isQuote (s.headD ' ') && isQuote (s.getLastD ' ') &&
    allWord ((s.drop 1).dropLast)

/-- The end of `a` does not carry a word character (`a` may be empty). -/
def endOKb (a : Str) : Bool := !(isWordChar (a.getLastD ' '))

/-- The head of `b` does not carry a word character (`b` may be empty). -/
def headOKb (b : Str) : Bool := !(isWordChar (b.headD ' '))

/-- The previous-character state of a scanner after passing `s`. -/
def prevAfter (prev : Option Char) (s : Str) : Option Char :=
  match s.getLast? with
  | some c => some c
  | none => prev

/-- Numeric value of a decimal digit character (unspecified off digits). -/
def dVal (c : Char) : Nat :=
  if c = '0' then 0 else if c = '1' then 1 else if c = '2' then 2
  else if c = '3' then 3 else if c = '4' then 4 else if c = '5' then 5
  else if c = '6' then 6 else if c = '7' then 7 else if c = '8' then 8 else 9

/-- Decimal value of a digit string (a left inverse of `pyNat`). -/
def vNat (s : Str) : Nat := s.foldl (fun a c => a * 10 + dVal c) 0

/-- Value of a little-endian digit list read big-endian. -/
def vNatD (l : List Nat) : Nat := l.foldl (fun a d => a * 10 + d) 0

/-- Decoder of the placeholders `generate_placeholders` builds in generic
mode: an optional `safe_` marker, one of the six identifier stems or the
quoted string shape, and the trailing counter value. -/
def gMaskVal (s : Str) : Option (Gui.GCat × Nat) :=
  let core := if pfxOf (("safe_").data) s then s.drop 5 else s
  if pfxOf (("catalog_").data) core then some (Gui.GCat.catalog, vNat (core.drop 8))
  else if pfxOf (("schema_").data) core then some (Gui.GCat.schema, vNat (core.drop 7))
  else if pfxOf (("table_").data) core then some (Gui.GCat.table, vNat (core.drop 6))
  else if pfxOf (("column_").data) core then some (Gui.GCat.column, vNat (core.drop 7))
  else if pfxOf (("function_").data) core then some (Gui.GCat.func, vNat (core.drop 9))
  else if pfxOf (("alias_").data) core then some (Gui.GCat.alias, vNat (core.drop 6))
  else if core.head? = some qS then some (Gui.GCat.strng, vNat ((core.drop 7).dropLast))
  else none

/-- The categories whose generic counters share the first cell. -/
def isCnt1Cat : Gui.GCat → Bool
  | Gui.GCat.func => false
  | Gui.GCat.alias => false
  | _ => true

/-- The placeholders of one category map, in insertion order. -/
def catMasks (m : Gui.Maps) (c : Gui.GCat) : List Str :=
  (Gui.getMap m c).map fun kv => kv.2.mask

/-- All placeholders of the store, category by category. -/
def allMasks (m : Gui.Maps) : List Str :=
  catMasks m Gui.GCat.catalog ++ catMasks m Gui.GCat.schema ++
  catMasks m Gui.GCat.table ++ catMasks m Gui.GCat.column ++
  catMasks m Gui.GCat.strng ++ catMasks m Gui.GCat.func ++
  catMasks m Gui.GCat.alias

/-- Invariant of generic-mode placeholder generation: every placeholder
decodes to its own category with a counter value below the owning shared
cell, and all placeholders are distinct. -/
def GenInv (m : Gui.Maps) (cnt1 cnt2 : Nat) : Prop :=
  (∀ c, isCnt1Cat c = true → ∀ mk ∈ catMasks m c,
    ∃ n, gMaskVal mk = some (c, n) ∧ n < cnt1) ∧
  (∀ c, isCnt1Cat c = false → ∀ mk ∈ catMasks m c,
    ∃ n, gMaskVal mk = some (c, n) ∧ n < cnt2) ∧
  (allMasks m).Nodup

/-!  ### Chunk decomposition of a masked text (for C1)

A masked text is a sequence of literal runs (token text the masker emitted
unchanged) and holes (tokens replaced by a placeholder).  Unmasking fills
the holes back; the round-trip argument tracks this per chunk. -/

/-- One chunk of a masked text: a literal run, or a hole standing for the
original text `o` masked by `mask` of category `cat` (`filled` selects
which of the two the chunk currently renders). -/
inductive Chunk where
  | lit (s : Str)
  | hole (cat : Gui.GCat) (o mask : Str) (filled : Bool)
deriving DecidableEq

/-- The text a chunk currently renders. -/
def chText : Chunk → Str
  | Chunk.lit s => s
  | Chunk.hole _ o mk f => if f then o else mk

/-- The rendered text of a chunk sequence. -/
def render (cs : List Chunk) : Str := (cs.map chText).flatten

/-- Fill the holes of category `c` masked by `mk`. -/
def fillC (c : Gui.GCat) (mk : Str) : Chunk → Chunk
  | Chunk.hole c' o m f => Chunk.hole c' o m (f || (c' = c ∧ m = mk))
  | ch => ch

/-- Fill the holes of every category selected by `P`. -/
def fillIf (P : Gui.GCat → Bool) : Chunk → Chunk
  | Chunk.hole c' o m f => Chunk.hole c' o m (f || P c')
  | ch => ch

/-- The unquoted interior of a quote-delimited string. -/
def strBody (s : Str) : Str := (s.drop 1).dropLast

/-- Shape of a well-formed string-literal original: single-quoted with a
quote-free interior. -/
def strOrig (s : Str) : Bool :=
  2 ≤ s.length && s.headD ' ' = qS && s.getLastD ' ' = qS && decide (qS ∉ strBody s)

/-- Shape of a generated single-quoted string placeholder: a quote, a
nonempty word-character interior, a quote. -/
def strMask (s : Str) : Bool :=
  3 ≤ s.length && s.headD ' ' = qS && s.getLastD ' ' = qS &&
    allWord (strBody s)

/-- All entries of the store, tagged by category, in the category order of
`allMasks`. -/
def allEntries (m : Gui.Maps) : List (Gui.GCat × Str × Gui.Entry) :=
  ((Gui.getMap m Gui.GCat.catalog).map fun kv => (Gui.GCat.catalog, kv)) ++
  ((Gui.getMap m Gui.GCat.schema).map fun kv => (Gui.GCat.schema, kv)) ++
  ((Gui.getMap m Gui.GCat.table).map fun kv => (Gui.GCat.table, kv)) ++
  ((Gui.getMap m Gui.GCat.column).map fun kv => (Gui.GCat.column, kv)) ++
  ((Gui.getMap m Gui.GCat.strng).map fun kv => (Gui.GCat.strng, kv)) ++
  ((Gui.getMap m Gui.GCat.func).map fun kv => (Gui.GCat.func, kv)) ++
  ((Gui.getMap m Gui.GCat.alias).map fun kv => (Gui.GCat.alias, kv))

/-- Well-formedness of a mapping store for the round trip: every entry is
enabled; identifier entries carry nonempty word-shaped originals and
placeholders; string entries carry quote-delimited ones; all placeholders
are distinct; no identifier placeholder equals the interior of a string
placeholder; keys are unique per category. -/
def MapsOK (m : Gui.Maps) : Bool :=
  (allEntries m).all (fun ce =>
    ce.2.2.enabled &&
    (if ce.1 = Gui.GCat.strng then
      strMask ce.2.2.mask && strOrig ce.2.1
    else
      (decide (ce.2.2.mask ≠ []) && allWord ce.2.2.mask &&
       decide (ce.2.1 ≠ []) && allWord ce.2.1))) &&
  (allMasks m).Nodup &&
  (allEntries m).all (fun ce =>
    decide (ce.1 = Gui.GCat.strng) ||
    (allEntries m).all (fun ce' =>
      decide (ce'.1 ≠ Gui.GCat.strng) || decide (ce.2.2.mask ≠ strBody ce'.2.2.mask))) &&
  [Gui.GCat.catalog, Gui.GCat.schema, Gui.GCat.table, Gui.GCat.column,
   Gui.GCat.strng, Gui.GCat.func, Gui.GCat.alias].all fun c =>
    ((Gui.getMap m c).map Prod.fst).Nodup

/-- Per-chunk well-formedness against the store `m`: literal runs are
nonempty, quote-free and contain no placeholder; holes are backed by an
enabled entry of their category and their original contains no
placeholder; contents have the category's shape. -/
def chOK (m : Gui.Maps) : Chunk → Bool
  | Chunk.lit s =>
    decide (s ≠ []) && decide (qS ∉ s) &&
    (allMasks m).all fun mk => !occursB mk s
  | Chunk.hole c o mk _ =>
    decide (List.lookup o (Gui.getMap m c) = some ⟨mk, true⟩) &&
    ((allMasks m).all fun mk' => !occursB mk' o) &&
    (if c = Gui.GCat.strng then strMask mk && strOrig o
     else allWord mk && decide (mk ≠ []) && allWord o && decide (o ≠ []))

/-- Adjacency discipline: no two holes and no two literal runs touch, and
a literal run touching a hole has a separator character on that edge. -/
def adjOK : Chunk → Chunk → Bool
  | Chunk.lit _, Chunk.lit _ => false
  | Chunk.hole .., Chunk.hole .. => false
  | Chunk.lit s, Chunk.hole .. => sepChar (s.getLastD ' ')
  | Chunk.hole .., Chunk.lit t => sepChar (t.headD ' ')

/-- The chunk-sequence invariant. -/
def chunksOK (m : Gui.Maps) : List Chunk → Bool
  | [] => true
  | [ch] => chOK m ch
  | c1 :: c2 :: t => chOK m c1 && adjOK c1 c2 && chunksOK m (c2 :: t)

/-- Does the scanner's previous-character state matter for this chunk
(it does exactly for the word-shaped contents of identifier holes)? -/
def needPrev : Chunk → Bool
  | Chunk.hole c _ _ _ => decide (c ≠ Gui.GCat.strng)
  | Chunk.lit _ => false

/-- `identLookup` over a category-tagged map list, keeping the category of
the hit. -/
def identLookupT : List (Gui.GCat × Gui.CatMap) → Str → Option (Gui.GCat × Str)
  | [], _ => none
  | (c, d) :: rest, k =>
    match List.lookup k d with
    | some e => if e.enabled then some (c, e.mask) else identLookupT rest k
    | none => identLookupT rest k

/-- The tagged category maps, in `_mask_token`'s lookup order. -/
def identMapsT (m : Gui.Maps) : List (Gui.GCat × Gui.CatMap) :=
  [(Gui.GCat.catalog, m.catalog_map), (Gui.GCat.schema, m.schema_map),
   (Gui.GCat.table, m.table_map), (Gui.GCat.column, m.column_map),
   (Gui.GCat.func, m.function_map), (Gui.GCat.alias, m.alias_map)]

/-- The chunk a single token contributes, mirroring `_mask_token`'s
branching. -/
def tokChunk (kwBase : List Str) (m : Gui.Maps) (t : Gui.Token) : Chunk :=
  if Gui.skipType t.ttype ∨ Gui.is_sql_keyword_or_function kwBase (pyStrip t.tstr) then
    Chunk.lit t.tstr
  else if t.ttype = Gui.TType.stringSingleT ∨ t.tstr.head? = some qS ∨
      t.tstr.head? = some qD then
    match Gui.findStringEntry m.string_map t.tstr with
    | some e => Chunk.hole Gui.GCat.strng t.tstr e.mask false
    | none => Chunk.lit t.tstr
  else if t.ttype = Gui.TType.nameT ∨ t.ttype = Gui.TType.noneT then
    match identLookupT (identMapsT m) t.tstr with
    | some ce => Chunk.hole ce.1 t.tstr ce.2 false
    | none => Chunk.lit t.tstr
  else Chunk.lit t.tstr

/-- The chunk decomposition of a token stream: per-token chunks with
adjacent literal runs merged. -/
def chunksOf (kwBase : List Str) (m : Gui.Maps) : List Gui.Token → List Chunk
  | [] => []
  | t :: ts =>
    match tokChunk kwBase m t, chunksOf kwBase m ts with
    | Chunk.lit s, Chunk.lit s' :: r => Chunk.lit (s ++ s') :: r
    | ch, r => ch :: r

theorem prevAfter_cons (prev : Option Char) (c : Char) (s : Str) :
    prevAfter prev (c :: s) = prevAfter (some c) s := by
  cases h : s.getLast? with
  | none =>
    have : s = [] := by cases s with
      | nil => rfl
      | cons d t => simp [List.getLast?] at h
    subst this
    simp [prevAfter]
  | some d =>
    have hs : s ≠ [] := by
      intro he; subst he; simp at h
    simp [prevAfter, List.getLast?_cons, h]

theorem pfxOf_iff (p s : Str) : pfxOf p s = true ↔ ∃ t, s = p ++ t := by
  induction p generalizing s with
  | nil => simp [pfxOf]
  | cons a p ih =>
    cases s with
    | nil =>
      simp only [pfxOf, List.cons_append]
      constructor
      · intro h; exact absurd h (by simp)
      · rintro ⟨t, ht⟩; exact absurd ht (by simp)
    | cons b t =>
      simp only [pfxOf, Bool.and_eq_true, beq_iff_eq, ih]
      constructor
      · rintro ⟨rfl, u, rfl⟩
        exact ⟨u, rfl⟩
      · rintro ⟨u, hu⟩
        simp only [List.cons_append] at hu
        injection hu with h1 h2
        exact ⟨h1.symm, u, h2⟩

theorem toNat_ofNatAux (n : Nat) (h : n.isValidChar) : (Char.ofNatAux n h).toNat = n := by
  simp [Char.ofNatAux, Char.toNat, UInt32.toNat]

theorem alnum_iff (x : Char) : x.isAlphanum = true ↔
    (65 ≤ x.toNat ∧ x.toNat ≤ 90) ∨ (97 ≤ x.toNat ∧ x.toNat ≤ 122) ∨
    (48 ≤ x.toNat ∧ x.toNat ≤ 57) := by
  have e : ∀ n : Nat, (UInt32.toBitVec (OfNat.ofNat n)).toNat = OfNat.ofNat n % 2 ^ 32 := by
    intro n; rfl
  simp only [Char.isAlphanum, Char.isAlpha, Char.isLower, Char.isUpper, Char.isDigit,
    Bool.or_eq_true, Bool.and_eq_true, decide_eq_true_eq, ge_iff_le,
    UInt32.le_def, BitVec.le_def, Char.toNat, UInt32.toNat, e]
  omega

theorem eq_underscore_iff (c : Char) : (c == '_') = true ↔ c.toNat = 95 := by
  rw [beq_iff_eq]
  constructor
  · rintro rfl; rfl
  · intro h
    apply Char.ext
    apply UInt32.ext
    exact h

theorem isWordChar_iff (c : Char) : isWordChar c = true ↔
    (65 ≤ c.toNat ∧ c.toNat ≤ 90) ∨ (97 ≤ c.toNat ∧ c.toNat ≤ 122) ∨
    (48 ≤ c.toNat ∧ c.toNat ≤ 57) ∨ c.toNat = 95 := by
  unfold isWordChar
  rw [Bool.or_eq_true, alnum_iff, eq_underscore_iff]
  tauto

theorem isWordChar_toLower (c : Char) : isWordChar c.toLower = isWordChar c := by
  unfold Char.toLower
  by_cases h : c.toNat ≥ 65 ∧ c.toNat ≤ 90
  · simp only [if_pos h]
    have hval : (c.toNat + 32).isValidChar := Or.inl (by omega)
    rw [Char.ofNat, dif_pos hval]
    have hv : (Char.ofNatAux (c.toNat + 32) hval).toNat = c.toNat + 32 :=
      toNat_ofNatAux _ _
    have h1 : isWordChar (Char.ofNatAux (c.toNat + 32) hval) = true := by
      rw [isWordChar_iff, hv]; omega
    have h2 : isWordChar c = true := by
      rw [isWordChar_iff]; omega
    rw [h1, h2]
  · simp only [if_neg h]

theorem isWordChar_of_toLower_eq {a b : Char} (h : a.toLower = b.toLower) :
    isWordChar a = isWordChar b := by
  rw [← isWordChar_toLower a, ← isWordChar_toLower b, h]

theorem occursB_iff (p s : Str) :
    occursB p s = true ↔ ∃ a b, s = a ++ p ++ b := by
  unfold occursB
  rw [List.any_eq_true]
  constructor
  · rintro ⟨i, _, hp⟩
    obtain ⟨t, ht⟩ := (pfxOf_iff _ _).mp hp
    exact ⟨s.take i, t, by rw [List.append_assoc, ← ht, List.take_append_drop]⟩
  · rintro ⟨a, b, rfl⟩
    refine ⟨a.length, ?_, ?_⟩
    · simp [List.mem_range]
      omega
    · rw [List.append_assoc, List.drop_left]
      exact (pfxOf_iff _ _).mpr ⟨b, rfl⟩

theorem pfxOfX_le_length {ci : Bool} {p s : Str} (h : pfxOfX ci p s = true) :
    p.length ≤ s.length := by
  cases ci <;> (
    simp only [pfxOfX, if_true, if_false, Bool.false_eq_true] at h
    induction p generalizing s with
    | nil => simp
    | cons a p ih =>
      cases s with
      | nil => simp [pfxOf, pfxOfCI] at h
      | cons b t =>
        simp only [pfxOf, pfxOfCI, Bool.and_eq_true] at h
        simpa using ih h.2)

theorem pfxOf_getD : ∀ (p s : Str), pfxOf p s = true →
    ∀ j, j < p.length → ∀ d, s.getD j d = p.getD j d := by
  intro p
  induction p with
  | nil => simp
  | cons a p ih =>
    intro s h
    cases s with
    | nil => simp [pfxOf] at h
    | cons b t =>
      simp only [pfxOf, Bool.and_eq_true, beq_iff_eq] at h
      intro j hj d
      cases j with
      | zero => simpa using h.1.symm
      | succ j => simpa using ih t h.2 j (by simpa using hj) d

theorem pfxOfCI_getD : ∀ (p s : Str), pfxOfCI p s = true →
    ∀ j, j < p.length → ∀ d, (s.getD j d).toLower = (p.getD j d).toLower := by
  intro p
  induction p with
  | nil => simp
  | cons a p ih =>
    intro s h
    cases s with
    | nil => simp [pfxOfCI] at h
    | cons b t =>
      simp only [pfxOfCI, Bool.and_eq_true, beq_iff_eq] at h
      intro j hj d
      cases j with
      | zero => simpa using h.1.symm
      | succ j => simpa using ih t h.2 j (by simpa using hj) d

theorem allWord_getD {p : Str} (hw : allWord p = true) :
    ∀ j, j < p.length → isWordChar (p.getD j ' ') = true := by
  induction p with
  | nil => simp
  | cons a p ih =>
    simp only [allWord, List.all_cons, Bool.and_eq_true] at hw
    intro j hj
    cases j with
    | zero => simpa using hw.1
    | succ j => simpa using ih hw.2 j (by simpa using hj)

theorem pfxOfX_word_getD {ci : Bool} {p s : Str} (h : pfxOfX ci p s = true)
    (hw : allWord p = true) :
    ∀ j, j < p.length → isWordChar (s.getD j ' ') = true := by
  intro j hj
  cases ci with
  | false =>
    rw [pfxOf_getD p s (by simpa [pfxOfX] using h) j hj ' ']
    exact allWord_getD hw j hj
  | true =>
    have hc := pfxOfCI_getD p s (by simpa [pfxOfX] using h) j hj ' '
    rw [isWordChar_of_toLower_eq hc]
    exact allWord_getD hw j hj

theorem pfxOfX_append_left {ci : Bool} : ∀ {p u : Str} (v : Str),
    pfxOfX ci p (u ++ v) = true → p.length ≤ u.length →
    pfxOfX ci p u = true := by
  intro p
  induction p with
  | nil => intro u v _ _; cases ci <;> simp [pfxOfX, pfxOf, pfxOfCI]
  | cons a p ih =>
    intro u v h hl
    cases u with
    | nil => simp at hl
    | cons b t =>
      cases ci <;> (
        simp only [pfxOfX, if_true, if_false, Bool.false_eq_true,
          List.cons_append, pfxOf, pfxOfCI, Bool.and_eq_true] at h ⊢
        refine ⟨h.1, ?_⟩
        have := ih (u := t) v (by simpa [pfxOfX] using h.2) (by simpa using hl)
        simpa [pfxOfX] using this)

theorem getD_irrel : ∀ (s : Str) (j : Nat), j < s.length →
    ∀ d d', s.getD j d = s.getD j d' := by
  intro s
  induction s with
  | nil => simp
  | cons c t ih =>
    intro j hj d d'
    cases j with
    | zero => simp
    | succ j => simpa using ih j (by simpa using hj) d d'

theorem take_getLastD : ∀ (s : Str) (n : Nat), 0 < n → n ≤ s.length →
    ∀ d, (s.take n).getLastD d = s.getD (n - 1) d := by
  intro s
  induction s with
  | nil => intro n h1 h2; simp at h2; omega
  | cons c t ih =>
    intro n h1 h2 d
    cases n with
    | zero => omega
    | succ n =>
      cases n with
      | zero => simp [List.getLastD]
      | succ m =>
        have ht : m + 1 ≤ t.length := by simpa using h2
        have h3 := ih (m + 1) (by omega) ht c
        simp only [List.take_succ_cons, Nat.succ_sub_one, List.getLastD_cons]
        rw [h3]
        simp only [Nat.add_sub_cancel]
        exact getD_irrel t m (by omega) c d

theorem prevAfter_ne_nil {l : Str} (h : l ≠ []) (pv : Option Char) :
    prevAfter pv l = some (l.getLastD ' ') := by
  unfold prevAfter
  cases hl : l.getLast? with
  | none =>
    exact absurd (List.getLast?_eq_none_iff.mp hl) h
  | some c =>
    simp [List.getLastD_eq_getLast?, hl]

theorem prevAfter_some_take (c : Char) (t : Str) (k : Nat) (hk : k ≤ t.length) :
    prevAfter (some c) (t.take k) = some ((c :: t).getD k ' ') := by
  cases k with
  | zero => simp [prevAfter]
  | succ m =>
    have hne : t.take (m + 1) ≠ [] := by
      have hlen : (t.take (m + 1)).length = m + 1 := by
        rw [List.length_take]; omega
      intro he
      rw [he] at hlen
      simp at hlen
    rw [prevAfter_ne_nil hne]
    rw [take_getLastD t (m + 1) (by omega) hk ' ']
    simp

/-!  ### Scanner stepping lemmas -/

/-- The match condition of `wbGo` at the current position. -/
def wbHit (ci : Bool) (p : Str) (prev : Option Char) (s : Str) : Prop :=
  match s with
  | [] => False
  | c :: t =>
    pfxOfX ci p (c :: t) = true ∧ bdryBefore prev c = true ∧
    bdryAfter (((c :: t).take p.length).getLastD c) ((c :: t).drop p.length) = true

instance (ci p prev s) : Decidable (wbHit ci p prev s) := by
  unfold wbHit
  cases s <;> infer_instance

theorem wbGo_skip_append (ci : Bool) (p r : Str) :
    ∀ (u : Str) (prev : Option Char) (k : Nat) (v : Str),
    wbGo ci p r prev (u.length + k) (u ++ v) = wbGo ci p r (prevAfter prev u) k v := by
  intro u
  induction u with
  | nil => intro prev k v; simp [prevAfter]
  | cons c u ih =>
    intro prev k v
    have hn : (c :: u).length + k = (u.length + k) + 1 := by simp; omega
    rw [hn]
    show wbGo ci p r prev ((u.length + k) + 1) (c :: (u ++ v)) = _
    rw [wbGo, ih (some c) k v, prevAfter_cons]

theorem wbGo_cons_hit {ci : Bool} {p r : Str} {prev : Option Char} {c : Char}
    {t : Str} (h : wbHit ci p prev (c :: t)) :
    wbGo ci p r prev 0 (c :: t) = r ++ wbGo ci p r (some c) (p.length - 1) t := by
  obtain ⟨h1, h2, h3⟩ := h
  rw [wbGo, if_pos ⟨h1, h2, h3⟩]

theorem wbGo_cons_nohit {ci : Bool} {p r : Str} {prev : Option Char} {c : Char}
    {t : Str} (h : ¬ wbHit ci p prev (c :: t)) :
    wbGo ci p r prev 0 (c :: t) = c :: wbGo ci p r (some c) 0 t := by
  have h' : ¬ (pfxOfX ci p (c :: t) = true ∧ bdryBefore prev c = true ∧
      bdryAfter (((c :: t).take p.length).getLastD c)
        ((c :: t).drop p.length) = true) := by
    simpa [wbHit] using h
  rw [wbGo, if_neg h']

theorem wbGo_nil (ci : Bool) (p r : Str) (prev : Option Char) (k : Nat) :
    wbGo ci p r prev k [] = [] := by
  cases k <;> rw [wbGo]

theorem getD_last {a : Str} (h : a ≠ []) (d : Char) :
    a.getD (a.length - 1) d = a.getLastD d := by
  have h0 : 0 < a.length := List.length_pos.mpr h
  have := take_getLastD a a.length h0 le_rfl d
  rw [List.take_length] at this
  exact this.symm

theorem head?_drop_getD {s : Str} {n : Nat} (h : n < s.length) :
    (s.drop n).head? = some (s.getD n ' ') := by
  induction s generalizing n with
  | nil => simp at h
  | cons c t ih =>
    cases n with
    | zero => simp
    | succ m => simpa using ih (by simpa using h)

theorem getLast?_cons_ne {c : Char} {t : Str} (h : t ≠ []) :
    (c :: t).getLast? = t.getLast? := by
  have : c :: t = [c] ++ t := rfl
  rw [this, List.getLast?_append_of_ne_nil _ h]

theorem drop_getLast? {l : Str} {n : Nat} (h : l.drop n ≠ []) :
    (l.drop n).getLast? = l.getLast? := by
  conv_rhs => rw [← List.take_append_drop n l]
  rw [List.getLast?_append_of_ne_nil _ h]

/-- Inside a word run: a hit is impossible when the previous character is a
word character and so is the current one. -/
theorem no_wbHit_inner {ci : Bool} {p : Str} {prev : Option Char} {c : Char}
    {t : Str} (hprev : wordOpt prev = true) (hc : isWordChar c = true) :
    ¬ wbHit ci p prev (c :: t) := by
  rintro ⟨-, h2, -⟩
  rw [bdryBefore, hprev, hc] at h2
  simp at h2

/-- At the start of the protected word `w` (followed by `b`): no hit. -/
theorem no_wbHit_word_start {ci : Bool} {p w b : Str} {prev : Option Char}
    (hpne : p ≠ []) (hpw : allWord p = true)
    (hwne : w ≠ []) (hww : allWord w = true)
    (hne : ¬ (p.length = w.length ∧ pfxOfX ci p w = true))
    (hb : headOKb b = true) :
    ¬ wbHit ci p prev (w ++ b) := by
  intro hhit
  cases w with
  | nil => exact hwne rfl
  | cons c t =>
    rw [List.cons_append] at hhit
    obtain ⟨h1, -, h3⟩ := hhit
    have hlen := pfxOfX_le_length h1
    simp only [List.length_append, List.length_cons] at hlen
    rcases Nat.lt_trichotomy p.length (t.length + 1) with hlt | heq | hgt
    · -- `p` shorter than `w`: the character after the match is inside `w`.
      have hpl : 0 < p.length := List.length_pos.mpr hpne
      have hlen1 : p.length ≤ (c :: (t ++ b)).length := by simp; omega
      have hd : ((c :: (t ++ b)).take p.length).getLastD c =
          (c :: (t ++ b)).getD (p.length - 1) ' ' := by
        rw [take_getLastD _ _ hpl hlen1 c]
        exact getD_irrel _ _ (by simp; omega) c ' '
      have hlast : isWordChar (((c :: (t ++ b)).take p.length).getLastD c) = true := by
        rw [hd]
        have := pfxOfX_word_getD h1 hpw (p.length - 1) (by omega)
        simpa using this
      have hnext : ((c :: (t ++ b)).drop p.length).head? =
          some ((c :: (t ++ b)).getD p.length ' ') :=
        head?_drop_getD (by simp; omega)
      have hnextw : isWordChar ((c :: (t ++ b)).getD p.length ' ') = true := by
        have hcw : (c :: (t ++ b)).getD p.length ' ' = (c :: t).getD p.length ' ' := by
          have he : c :: (t ++ b) = (c :: t) ++ b := rfl
          rw [he, List.getD_append _ _ _ _ (by simp; omega)]
        rw [hcw]
        exact allWord_getD hww p.length (by simp; omega)
      rw [bdryAfter] at h3
      rw [hlast, hnext] at h3
      simp only [wordOpt] at h3
      rw [hnextw] at h3
      simp at h3
    · -- equal length: `p` would have to match `w` itself.
      refine hne ⟨by simpa using heq, ?_⟩
      have he : c :: (t ++ b) = (c :: t) ++ b := rfl
      rw [he] at h1
      exact pfxOfX_append_left b h1 (by simp; omega)
    · -- `p` longer than `w`: the match would cover the non-word head of `b`.
      cases hbb : b with
      | nil =>
        rw [hbb] at hlen
        simp at hlen
        omega
      | cons d u =>
        have hdpos : (c :: (t ++ b)).getD (t.length + 1) ' ' = d := by
          have he : c :: (t ++ b) = (c :: t) ++ b := rfl
          rw [he, List.getD_append_right _ _ _ _ (by simp)]
          rw [hbb]
          simp
        have hw := pfxOfX_word_getD h1 hpw (t.length + 1) (by omega)
        rw [hdpos] at hw
        rw [hbb] at hb
        simp [headOKb, hw] at hb

theorem getLastD_irrel {l : Str} (h : l ≠ []) (d d' : Char) :
    l.getLastD d = l.getLastD d' := by
  rw [List.getLastD_eq_getLast?, List.getLastD_eq_getLast?]
  cases hl : l.getLast? with
  | none => exact absurd (List.getLast?_eq_none_iff.mp hl) h
  | some x => rfl

theorem getLastD_cons_ne {c : Char} {t : Str} (h : t ≠ []) (d : Char) :
    (c :: t).getLastD d = t.getLastD d := by
  rw [List.getLastD_cons]
  exact getLastD_irrel h c d

/-- Scanning a word run with a word character behind the cursor: every
position is emitted verbatim. -/
theorem wbGo_word_aux (ci : Bool) (p r : Str) (b : Str) :
    ∀ (w2 : Str) (prev : Option Char), w2 ≠ [] → allWord w2 = true →
    wordOpt prev = true →
    wbGo ci p r prev 0 (w2 ++ b) = w2 ++ wbGo ci p r (some (w2.getLastD ' ')) 0 b := by
  intro w2
  induction w2 with
  | nil => intro prev h; exact absurd rfl h
  | cons c t ih =>
    intro prev _ hall hprev
    simp only [allWord, List.all_cons, Bool.and_eq_true] at hall
    rw [List.cons_append, wbGo_cons_nohit (no_wbHit_inner hprev hall.1)]
    cases t with
    | nil => simp [List.getLastD]
    | cons d u =>
      rw [ih (some c) (by simp) (by simpa [allWord] using hall.2)
        (by simpa [wordOpt] using hall.1)]
      rw [getLastD_cons_ne (c := c) (t := d :: u) (by simp) ' ']
      rfl

/-- Scanning the protected word `w` from a non-word cursor position:
`w` is emitted verbatim. -/
theorem wbGo_word_pass {ci : Bool} {p r w b : Str}
    (hpne : p ≠ []) (hpw : allWord p = true)
    (hwne : w ≠ []) (hww : allWord w = true)
    (hne : ¬ (p.length = w.length ∧ pfxOfX ci p w = true))
    (hb : headOKb b = true) :
    ∀ (prev : Option Char), wordOpt prev = false →
    wbGo ci p r prev 0 (w ++ b) = w ++ wbGo ci p r (some (w.getLastD ' ')) 0 b := by
  intro prev hprev
  cases w with
  | nil => exact absurd rfl hwne
  | cons c t =>
    have hnohit := @no_wbHit_word_start ci p (c :: t) b prev hpne hpw hwne hww hne hb
    rw [List.cons_append] at hnohit ⊢
    rw [wbGo_cons_nohit hnohit]
    simp only [allWord, List.all_cons, Bool.and_eq_true] at hww
    cases t with
    | nil => simp [List.getLastD]
    | cons d u =>
      rw [wbGo_word_aux ci p r b (d :: u) (some c) (by simp)
        (by simpa [allWord] using hww.2) (by simpa [wordOpt] using hww.1)]
      rw [getLastD_cons_ne (c := c) (t := d :: u) (by simp) ' ']
      rfl

/-- Scanning `b` from a word cursor position preserves a non-word (or
empty) head. -/
theorem wbGo_headOK {ci : Bool} {p r b : Str} {prev : Option Char}
    (hpne : p ≠ []) (hpw : allWord p = true)
    (hb : headOKb b = true) :
    headOKb (wbGo ci p r prev 0 b) = true := by
  cases b with
  | nil => rw [wbGo_nil]; rfl
  | cons c t =>
    have hcw : isWordChar c = false := by simpa [headOKb] using hb
    have : ¬ wbHit ci p prev (c :: t) := by
      rintro ⟨h1, -, -⟩
      have := pfxOfX_word_getD h1 hpw 0 (List.length_pos.mpr hpne)
      simp [hcw] at this
    rw [wbGo_cons_nohit this]
    simpa [headOKb] using hb

/-- Word survival under one whole-word substitution pass: a word-delimited
occurrence of `w` that the pattern cannot equal is left intact, along with
its delimitation. -/
theorem wbGo_survives {ci : Bool} (p r w b : Str)
    (hpne : p ≠ []) (hpw : allWord p = true)
    (hwne : w ≠ []) (hww : allWord w = true)
    (hne : ¬ (p.length = w.length ∧ pfxOfX ci p w = true))
    (hb : headOKb b = true) :
    ∀ (a : Str) (prev : Option Char),
    wordOpt (prevAfter prev a) = false →
    ∃ a', wbGo ci p r prev 0 (a ++ w ++ b) =
        a' ++ w ++ wbGo ci p r (some (w.getLastD ' ')) 0 b ∧
      a'.getLast? = a.getLast? ∧ (a = [] → a' = []) := by
  suffices H : ∀ (n : Nat) (a : Str), a.length = n → ∀ (prev : Option Char),
      wordOpt (prevAfter prev a) = false →
      ∃ a', wbGo ci p r prev 0 (a ++ w ++ b) =
          a' ++ w ++ wbGo ci p r (some (w.getLastD ' ')) 0 b ∧
        a'.getLast? = a.getLast? ∧ (a = [] → a' = []) by
    exact fun a prev h => H a.length a rfl prev h
  intro n
  induction n using Nat.strong_induction_on with
  | _ n ih =>
  intro a hn prev hprev
  cases a with
  | nil =>
    simp only [prevAfter] at hprev
    refine ⟨[], ?_, rfl, fun _ => rfl⟩
    simpa using wbGo_word_pass hpne hpw hwne hww hne hb prev hprev
  | cons c t =>
    have hn' : t.length + 1 = n := by simpa using hn
    have hlast : isWordChar ((c :: t).getLastD ' ') = false := by
      rw [prevAfter_ne_nil (by simp) prev] at hprev
      simpa [wordOpt] using hprev
    by_cases hhit : wbHit ci p prev ((c :: t) ++ (w ++ b))
    · -- a hit inside `a`; it cannot reach the end of `a`.
      have h1 : pfxOfX ci p ((c :: t) ++ (w ++ b)) = true := by
        cases hh : (c :: t) ++ (w ++ b) with
        | nil => simp at hh
        | cons x y =>
          rw [hh] at hhit
          exact hhit.1
      have hplt : p.length < t.length + 1 := by
        by_contra hge
        push_neg at hge
        have hj : t.length < p.length := by omega
        have hword := pfxOfX_word_getD h1 hpw ((c :: t).length - 1) (by simpa using hj)
        rw [List.getD_append _ _ _ _ (by simp)] at hword
        rw [getD_last (by simp) ' '] at hword
        rw [hword] at hlast
        simp at hlast
      have hppos : 0 < p.length := List.length_pos.mpr hpne
      have hcons : (c :: t) ++ (w ++ b) = c :: (t ++ (w ++ b)) := rfl
      rw [hcons] at hhit
      rw [List.append_assoc, hcons, wbGo_cons_hit hhit]
      have hsplit : t ++ (w ++ b) =
          (t.take (p.length - 1)) ++ ((t.drop (p.length - 1)) ++ (w ++ b)) := by
        conv_rhs => rw [← List.append_assoc, List.take_append_drop]
      have hlen1 : (t.take (p.length - 1)).length = p.length - 1 := by
        rw [List.length_take]
        omega
      rw [hsplit]
      have hskip := wbGo_skip_append ci p r (t.take (p.length - 1)) (some c) 0
        ((t.drop (p.length - 1)) ++ (w ++ b))
      rw [hlen1, Nat.add_zero] at hskip
      rw [hskip]
      have ha2len : (t.drop (p.length - 1)).length < n := by
        rw [List.length_drop]
        omega
      have ha2ne : t.drop (p.length - 1) ≠ [] := by
        apply List.ne_nil_of_length_pos
        rw [List.length_drop]
        omega
      have htne : t ≠ [] := by
        apply List.ne_nil_of_length_pos
        omega
      have ha2last : (t.drop (p.length - 1)).getLast? = (c :: t).getLast? := by
        rw [drop_getLast? ha2ne, getLast?_cons_ne htne]
      have hprev2 : wordOpt (prevAfter
          (prevAfter (some c) (t.take (p.length - 1))) (t.drop (p.length - 1))) = false := by
        rw [prevAfter_ne_nil ha2ne]
        rw [List.getLastD_eq_getLast?, ha2last, ← List.getLastD_eq_getLast?]
        simpa [wordOpt] using hlast
      obtain ⟨a2', heq, hl2, -⟩ := ih (t.drop (p.length - 1)).length ha2len _ rfl _ hprev2
      rw [List.append_assoc] at heq
      refine ⟨r ++ a2', ?_, ?_, by simp⟩
      · rw [heq]
        simp [List.append_assoc]
      · have ha2'ne : a2' ≠ [] := by
          intro he
          rw [he, ha2last] at hl2
          have h2 : (c :: t).getLast?.isSome := List.getLast?_isSome.mpr (by simp)
          rw [← hl2] at h2
          simp at h2
        rw [List.getLast?_append_of_ne_nil _ ha2'ne, hl2, ha2last]
    · -- no hit: emit the character and continue.
      have hcons : (c :: t) ++ (w ++ b) = c :: (t ++ (w ++ b)) := rfl
      rw [List.append_assoc, hcons]
      rw [hcons] at hhit
      rw [wbGo_cons_nohit hhit]
      cases ht : t with
      | nil =>
        have hcl : isWordChar c = false := by
          rw [ht] at hlast
          simpa [List.getLastD] using hlast
        have hwp := wbGo_word_pass (r := r) hpne hpw hwne hww hne hb (some c)
          (by simpa [wordOpt] using hcl)
        simp only [List.nil_append]
        refine ⟨[c], ?_, by simp, by simp⟩
        rw [hwp]
        simp
      | cons d u =>
        have htne : t ≠ [] := by rw [ht]; simp
        have hprev2 : wordOpt (prevAfter (some c) t) = false := by
          rw [prevAfter_ne_nil htne]
          rw [← getLastD_cons_ne (c := c) htne ' ']
          simpa [wordOpt] using hlast
        obtain ⟨a2', heq, hl2, -⟩ := ih t.length (by omega) t rfl (some c) hprev2
        rw [List.append_assoc] at heq
        refine ⟨c :: a2', ?_, ?_, by simp⟩
        · rw [← ht, heq]
          simp
        · have ha2'ne : a2' ≠ [] := by
            intro he
            rw [he, ht] at hl2
            have h2 : (d :: u).getLast?.isSome := List.getLast?_isSome.mpr (by simp)
            rw [← hl2] at h2
            simp at h2
          rw [getLast?_cons_ne ha2'ne, hl2, ht,
            getLast?_cons_ne (show d :: u ≠ [] by simp)]

/-!  ## Helper lemmas shared by the claim theorems -/

theorem endOKb_prevAfter {a : Str} (h : endOKb a = true) :
    wordOpt (prevAfter none a) = false := by
  cases ha : a.getLast? with
  | none => simp [prevAfter, ha, wordOpt]
  | some c =>
    rw [prevAfter, ha]
    rw [endOKb, List.getLastD_eq_getLast?, ha] at h
    simpa [wordOpt] using h

/-- Survival of a word-delimited word under one whole-word substitution
pass, at the `wbSub` interface. -/
theorem wbSub_survives {ci : Bool} (p r w a b : Str)
    (hpne : p ≠ []) (hpw : allWord p = true)
    (hwne : w ≠ []) (hww : allWord w = true)
    (hne : ¬ (p.length = w.length ∧ pfxOfX ci p w = true))
    (ha : endOKb a = true) (hb : headOKb b = true) :
    ∃ a' b', wbSub ci p r (a ++ w ++ b) = a' ++ w ++ b' ∧
      endOKb a' = true ∧ headOKb b' = true := by
  obtain ⟨a', heq, hl, -⟩ := wbGo_survives p r w b hpne hpw hwne hww hne hb a none
    (endOKb_prevAfter ha)
  refine ⟨a', wbGo ci p r (some (w.getLastD ' ')) 0 b, ?_, ?_, ?_⟩
  · rw [wbSub, if_neg hpne]
    exact heq
  · rw [endOKb, List.getLastD_eq_getLast?, hl, ← List.getLastD_eq_getLast?]
    exact ha
  · exact wbGo_headOK hpne hpw hb

theorem dropLeading_idem (set : List Char) :
    ∀ s, dropLeading set (dropLeading set s) = dropLeading set s := by
  intro s
  induction s with
  | nil => rfl
  | cons c t ih =>
    by_cases h : memChars set c = true
    · rw [dropLeading, if_pos h, ih]
    · rw [dropLeading, if_neg h, dropLeading, if_neg h]

theorem dropLeading_head_not_mem (set : List Char) :
    ∀ s c t, dropLeading set s = c :: t → memChars set c = false := by
  intro s
  induction s with
  | nil => intro c t h; simp [dropLeading] at h
  | cons d u ih =>
    intro c t h
    by_cases hd : memChars set d = true
    · rw [dropLeading, if_pos hd] at h
      exact ih c t h
    · rw [dropLeading, if_neg hd] at h
      obtain ⟨h1, -⟩ := List.cons.inj h
      rw [← h1]
      simpa using hd

theorem dropLeading_eq_drop (set : List Char) :
    ∀ s, ∃ k, dropLeading set s = s.drop k := by
  intro s
  induction s with
  | nil => exact ⟨0, rfl⟩
  | cons c t ih =>
    by_cases h : memChars set c = true
    · obtain ⟨k, hk⟩ := ih
      exact ⟨k + 1, by rw [dropLeading, if_pos h, hk]; rfl⟩
    · exact ⟨0, by rw [dropLeading, if_neg h]; rfl⟩

theorem dropLeading_of_head_not_mem {set : List Char} :
    ∀ {s}, (∀ c t, s = c :: t → memChars set c = false) → dropLeading set s = s := by
  intro s h
  cases s with
  | nil => rfl
  | cons c t => rw [dropLeading, if_neg (by simp [h c t rfl])]

/-- `str.strip(chars)` is idempotent. -/
theorem pyStripChars_idem (set : List Char) (s : Str) :
    pyStripChars set (pyStripChars set s) = pyStripChars set s := by
  rw [pyStripChars, pyStripChars]
  set u := dropLeading set s with hu
  set w := dropLeading set u.reverse with hw
  have hinner : dropLeading set w.reverse = w.reverse := by
    apply dropLeading_of_head_not_mem
    intro c t hct
    -- the head of `w.reverse` is the last of `w`, a suffix of `u.reverse`,
    -- whose last is the head of `u`, itself a `dropLeading` result
    have hwne : w ≠ [] := by
      intro he
      rw [he] at hct
      simp at hct
    obtain ⟨k, hk⟩ := dropLeading_eq_drop set u.reverse
    have hlast : w.getLast? = u.reverse.getLast? := by
      rw [hw, hk]
      exact drop_getLast? (by rw [← hk, ← hw]; exact hwne)
    have hhead : w.reverse.head? = u.head? := by
      rw [List.head?_reverse, hlast, List.getLast?_reverse]
    rw [hct] at hhead
    cases hue : u with
    | nil =>
      rw [hue] at hhead
      simp at hhead
    | cons d v =>
      rw [hue] at hhead
      simp at hhead
      rw [hhead]
      exact dropLeading_head_not_mem set s d v (by rw [← hue, hu])
  rw [hinner]
  simp only [List.reverse_reverse]
  rw [hw, dropLeading_idem]

/-- Drawing `n` oracle characters yields `n` characters. -/
theorem drawChars_length : ∀ (n : Nat) (g : Core.Rng),
    (Core.drawChars n g).1.length = n := by
  intro n
  induction n with
  | zero => intro g; rfl
  | succ k ih =>
    intro g
    simp [Core.drawChars, ih]

/-- Serialized entries always carry both fields, so validation passes. -/
theorem firstInvalid_rawOfCat (d : Gui.CatMap) :
    Gui.firstInvalid (Gui.rawOfCat d) = none := by
  induction d with
  | nil => rfl
  | cons kv t ih =>
    simp only [Gui.rawOfCat, List.map_cons, Gui.firstInvalid, List.find?] at ih ⊢
    simp [Gui.rawOfEntry, Gui.rawValid, ih]

theorem sfxOf_iff (sfx s : Str) : Gui.sfxOf sfx s = true ↔ ∃ u, s = u ++ sfx := by
  rw [Gui.sfxOf, pfxOf_iff]
  constructor
  · rintro ⟨t, ht⟩
    refine ⟨t.reverse, ?_⟩
    have := congrArg List.reverse ht
    simpa using this
  · rintro ⟨u, hu⟩
    exact ⟨u.reverse, by simp [hu]⟩

/-- Whole-word survival through a fold of case-insensitive whole-word
substitution passes whose patterns cannot equal the protected word. -/
theorem wbFold_survives (w : Str) (hwne : w ≠ []) (hww : allWord w = true) :
    ∀ (l : List (Str × Str)),
    (∀ o ∈ l.map Prod.fst, o ≠ [] ∧ allWord o = true ∧
      ¬ (o.length = w.length ∧ pfxOfCI o w = true)) →
    ∀ a b, endOKb a = true → headOKb b = true →
    ∃ a' b', l.foldl (fun acc om => wbSub true om.1 om.2 acc) (a ++ w ++ b) =
        a' ++ w ++ b' ∧ endOKb a' = true ∧ headOKb b' = true := by
  intro l
  induction l with
  | nil =>
    intro _ a b ha hb
    exact ⟨a, b, rfl, ha, hb⟩
  | cons om rest ih =>
    intro hl a b ha hb
    obtain ⟨h1, h2, h3⟩ := hl om.1 (by simp)
    obtain ⟨a2, b2, heq, ha2, hb2⟩ := @wbSub_survives true om.1 om.2 w a b h1 h2 hwne hww
      (by simpa [pfxOfX] using h3) ha hb
    obtain ⟨a3, b3, heq3, ha3, hb3⟩ := ih (fun o ho => hl o (by simp [ho])) a2 b2 ha2 hb2
    refine ⟨a3, b3, ?_, ha3, hb3⟩
    rw [List.foldl_cons, heq, heq3]

/-!  ### Decoding generically generated placeholders (for C2) -/

theorem pfxOf_self_append : ∀ (p v : Str), pfxOf p (p ++ v) = true := by
  intro p v
  induction p with
  | nil => rfl
  | cons a t ih => simp [pfxOf, ih]

theorem pfxOf_false_at (p u v : Str) (i : Nat) (hip : i < p.length)
    (hiu : i < u.length) (hne : p.getD i ' ' ≠ u.getD i ' ') :
    pfxOf p (u ++ v) = false := by
  cases h : pfxOf p (u ++ v) with
  | false => rfl
  | true =>
    have := pfxOf_getD p (u ++ v) h i hip ' '
    rw [List.getD_append _ _ _ _ hiu] at this
    exact absurd this.symm hne

theorem pyDigits_lt : ∀ (fuel n : Nat), ∀ d ∈ pyDigits fuel n, d < 10 := by
  intro fuel
  induction fuel with
  | zero => intro n d hd; simp [pyDigits] at hd
  | succ k ih =>
    intro n d hd
    rw [pyDigits] at hd
    by_cases hn : n = 0
    · rw [if_pos hn] at hd
      simp at hd
    · rw [if_neg hn] at hd
      rcases List.mem_cons.mp hd with he | hm
      · rw [he]
        exact Nat.mod_lt n (by omega)
      · exact ih (n / 10) d hm

theorem vNatD_pyDigits : ∀ (fuel n : Nat), n ≤ fuel →
    vNatD ((pyDigits fuel n).reverse) = n := by
  intro fuel
  induction fuel with
  | zero =>
    intro n hn
    have : n = 0 := by omega
    simp [this, pyDigits, vNatD]
  | succ k ih =>
    intro n hn
    rw [pyDigits]
    by_cases hz : n = 0
    · simp [hz, vNatD]
    · rw [if_neg hz]
      rw [List.reverse_cons, vNatD, List.foldl_append]
      have hrec : List.foldl (fun a d => a * 10 + d) 0 ((pyDigits k (n / 10)).reverse) =
          n / 10 := by
        have hle : n / 10 ≤ k := by
          have hlt : n / 10 < n := Nat.div_lt_self (Nat.pos_of_ne_zero hz) (by norm_num)
          omega
        exact ih (n / 10) hle
      rw [hrec]
      simp only [List.foldl_cons, List.foldl_nil]
      omega

theorem dVal_digitChar : ∀ d, d < 10 → dVal (digitChar d) = d := by decide

theorem foldl_dVal_map : ∀ (l : List Nat) (a : Nat), (∀ d ∈ l, d < 10) →
    List.foldl (fun x c => x * 10 + dVal c) a (l.map digitChar) =
      List.foldl (fun x d => x * 10 + d) a l := by
  intro l
  induction l with
  | nil => intro a _; rfl
  | cons d t ih =>
    intro a hl
    rw [List.map_cons, List.foldl_cons, List.foldl_cons,
      dVal_digitChar d (hl d (by simp))]
    exact ih _ fun e he => hl e (by simp [he])

theorem vNat_pyNat (n : Nat) : vNat (pyNat n) = n := by
  rw [pyNat]
  by_cases hz : n = 0
  · simp [hz, vNat, dVal]
  · rw [if_neg hz, vNat, foldl_dVal_map _ _
      (fun d hd => pyDigits_lt n n d (List.mem_reverse.mp hd))]
    exact vNatD_pyDigits n n le_rfl

theorem gMaskVal_catalog (f : Bool) (n : Nat) :
    gMaskVal ((if f then ("safe_").data else []) ++ (("catalog").data ++ '_' :: pyNat n)) =
      some (Gui.GCat.catalog, n) := by
  have hsp : (("catalog").data ++ '_' :: pyNat n : Str) = ("catalog_").data ++ pyNat n :=
    rfl
  cases f with
  | false =>
    rw [if_neg (by simp), List.nil_append, hsp, gMaskVal]
    rw [pfxOf_false_at _ (("catalog_").data) _ 0 (by decide) (by decide) (by decide)]
    simp only [Bool.false_eq_true, if_false, pfxOf_self_append, if_true]
    rw [show (8 : Nat) = (("catalog_").data).length from rfl, List.drop_left,
      vNat_pyNat]
  | true =>
    rw [if_pos rfl, hsp, gMaskVal]
    rw [show ((("safe_").data ++ (("catalog_").data ++ pyNat n)).drop 5 : Str) =
      ("catalog_").data ++ pyNat n from rfl]
    simp only [pfxOf_self_append, if_true]
    rw [show (8 : Nat) = (("catalog_").data).length from rfl, List.drop_left,
      vNat_pyNat]

theorem gMaskVal_schema (f : Bool) (n : Nat) :
    gMaskVal ((if f then ("safe_").data else []) ++ (("schema").data ++ '_' :: pyNat n)) =
      some (Gui.GCat.schema, n) := by
  have hsp : (("schema").data ++ '_' :: pyNat n : Str) = ("schema_").data ++ pyNat n :=
    rfl
  have hca : pfxOf (("catalog_").data) ((("schema_").data : Str) ++ pyNat n) = false :=
    pfxOf_false_at _ (("schema_").data) _ 0 (by decide) (by decide) (by decide)
  cases f with
  | false =>
    rw [if_neg (by simp), List.nil_append, hsp, gMaskVal]
    simp only [pfxOf_false_at (("safe_").data) (("schema_").data) (pyNat n) 1 (by decide) (by decide)
        (by decide), hca, Bool.false_eq_true, if_false, pfxOf_self_append, if_true]
    rw [show (7 : Nat) = (("schema_").data).length from rfl, List.drop_left,
      vNat_pyNat]
  | true =>
    rw [if_pos rfl, hsp, gMaskVal]
    rw [show ((("safe_").data ++ (("schema_").data ++ pyNat n)).drop 5 : Str) =
      ("schema_").data ++ pyNat n from rfl]
    simp only [hca, pfxOf_self_append, if_true, Bool.false_eq_true, if_false]
    rw [show (7 : Nat) = (("schema_").data).length from rfl, List.drop_left,
      vNat_pyNat]

theorem gMaskVal_table (f : Bool) (n : Nat) :
    gMaskVal ((if f then ("safe_").data else []) ++ (("table").data ++ '_' :: pyNat n)) =
      some (Gui.GCat.table, n) := by
  have hsp : (("table").data ++ '_' :: pyNat n : Str) = ("table_").data ++ pyNat n :=
    rfl
  have hca : pfxOf (("catalog_").data) ((("table_").data : Str) ++ pyNat n) = false :=
    pfxOf_false_at _ (("table_").data) _ 0 (by decide) (by decide) (by decide)
  have hsc : pfxOf (("schema_").data) ((("table_").data : Str) ++ pyNat n) = false :=
    pfxOf_false_at _ (("table_").data) _ 0 (by decide) (by decide) (by decide)
  cases f with
  | false =>
    rw [if_neg (by simp), List.nil_append, hsp, gMaskVal]
    simp only [pfxOf_false_at (("safe_").data) (("table_").data) (pyNat n) 0 (by decide) (by decide)
        (by decide), hca, hsc, Bool.false_eq_true, if_false, pfxOf_self_append, if_true]
    rw [show (6 : Nat) = (("table_").data).length from rfl, List.drop_left,
      vNat_pyNat]
  | true =>
    rw [if_pos rfl, hsp, gMaskVal]
    rw [show ((("safe_").data ++ (("table_").data ++ pyNat n)).drop 5 : Str) =
      ("table_").data ++ pyNat n from rfl]
    simp only [hca, hsc, pfxOf_self_append, if_true, Bool.false_eq_true, if_false]
    rw [show (6 : Nat) = (("table_").data).length from rfl, List.drop_left,
      vNat_pyNat]

theorem gMaskVal_column (f : Bool) (n : Nat) :
    gMaskVal ((if f then ("safe_").data else []) ++ (("column").data ++ '_' :: pyNat n)) =
      some (Gui.GCat.column, n) := by
  have hsp : (("column").data ++ '_' :: pyNat n : Str) = ("column_").data ++ pyNat n :=
    rfl
  have hca : pfxOf (("catalog_").data) ((("column_").data : Str) ++ pyNat n) = false :=
    pfxOf_false_at _ (("column_").data) _ 1 (by decide) (by decide) (by decide)
  have hsc : pfxOf (("schema_").data) ((("column_").data : Str) ++ pyNat n) = false :=
    pfxOf_false_at _ (("column_").data) _ 0 (by decide) (by decide) (by decide)
  have hta : pfxOf (("table_").data) ((("column_").data : Str) ++ pyNat n) = false :=
    pfxOf_false_at _ (("column_").data) _ 0 (by decide) (by decide) (by decide)
  cases f with
  | false =>
    rw [if_neg (by simp), List.nil_append, hsp, gMaskVal]
    simp only [pfxOf_false_at (("safe_").data) (("column_").data) (pyNat n) 0 (by decide) (by decide)
        (by decide), hca, hsc, hta, Bool.false_eq_true, if_false, pfxOf_self_append,
      if_true]
    rw [show (7 : Nat) = (("column_").data).length from rfl, List.drop_left,
      vNat_pyNat]
  | true =>
    rw [if_pos rfl, hsp, gMaskVal]
    rw [show ((("safe_").data ++ (("column_").data ++ pyNat n)).drop 5 : Str) =
      ("column_").data ++ pyNat n from rfl]
    simp only [hca, hsc, hta, pfxOf_self_append, if_true, Bool.false_eq_true, if_false]
    rw [show (7 : Nat) = (("column_").data).length from rfl, List.drop_left,
      vNat_pyNat]

theorem gMaskVal_function (f : Bool) (n : Nat) :
    gMaskVal ((if f then ("safe_").data else []) ++ (("function").data ++ '_' :: pyNat n)) =
      some (Gui.GCat.func, n) := by
  have hsp : (("function").data ++ '_' :: pyNat n : Str) =
      ("function_").data ++ pyNat n := rfl
  have hca : pfxOf (("catalog_").data) ((("function_").data : Str) ++ pyNat n) = false :=
    pfxOf_false_at _ (("function_").data) _ 0 (by decide) (by decide) (by decide)
  have hsc : pfxOf (("schema_").data) ((("function_").data : Str) ++ pyNat n) = false :=
    pfxOf_false_at _ (("function_").data) _ 0 (by decide) (by decide) (by decide)
  have hta : pfxOf (("table_").data) ((("function_").data : Str) ++ pyNat n) = false :=
    pfxOf_false_at _ (("function_").data) _ 0 (by decide) (by decide) (by decide)
  have hco : pfxOf (("column_").data) ((("function_").data : Str) ++ pyNat n) = false :=
    pfxOf_false_at _ (("function_").data) _ 1 (by decide) (by decide) (by decide)
  cases f with
  | false =>
    rw [if_neg (by simp), List.nil_append, hsp, gMaskVal]
    simp only [pfxOf_false_at (("safe_").data) (("function_").data) (pyNat n) 0 (by decide) (by decide)
        (by decide), hca, hsc, hta, hco, Bool.false_eq_true, if_false, pfxOf_self_append,
      if_true]
    rw [show (9 : Nat) = (("function_").data).length from rfl, List.drop_left,
      vNat_pyNat]
  | true =>
    rw [if_pos rfl, hsp, gMaskVal]
    rw [show ((("safe_").data ++ (("function_").data ++ pyNat n)).drop 5 : Str) =
      ("function_").data ++ pyNat n from rfl]
    simp only [hca, hsc, hta, hco, pfxOf_self_append, if_true, Bool.false_eq_true,
      if_false]
    rw [show (9 : Nat) = (("function_").data).length from rfl, List.drop_left,
      vNat_pyNat]

theorem gMaskVal_alias (n : Nat) :
    gMaskVal ((("alias_").data : Str) ++ pyNat n) = some (Gui.GCat.alias, n) := by
  rw [gMaskVal]
  simp only [pfxOf_false_at (("safe_").data) (("alias_").data) (pyNat n) 0
      (by decide) (by decide) (by decide),
    pfxOf_false_at (("catalog_").data) (("alias_").data) (pyNat n) 0
      (by decide) (by decide) (by decide),
    pfxOf_false_at (("schema_").data) (("alias_").data) (pyNat n) 0
      (by decide) (by decide) (by decide),
    pfxOf_false_at (("table_").data) (("alias_").data) (pyNat n) 0
      (by decide) (by decide) (by decide),
    pfxOf_false_at (("column_").data) (("alias_").data) (pyNat n) 0
      (by decide) (by decide) (by decide),
    pfxOf_false_at (("function_").data) (("alias_").data) (pyNat n) 0
      (by decide) (by decide) (by decide),
    Bool.false_eq_true, if_false, pfxOf_self_append, if_true]
  rw [show (6 : Nat) = (("alias_").data).length from rfl, List.drop_left, vNat_pyNat]

theorem gMaskVal_string (n : Nat) :
    gMaskVal (qS :: ("string").data ++ pyNat n ++ [qS]) =
      some (Gui.GCat.strng, n) := by
  have h : gMaskVal (qS :: ("string").data ++ pyNat n ++ [qS]) =
      some (Gui.GCat.strng, vNat ((([] ++ pyNat n) ++ [qS]).dropLast)) := rfl
  rw [h, List.nil_append, List.dropLast_concat, vNat_pyNat]

theorem catMasks_setMap_same (m : Gui.Maps) (c : Gui.GCat) (d : Gui.CatMap) :
    catMasks (Gui.setMap m c d) c = d.map fun kv => kv.2.mask := by
  cases c <;> rfl

theorem catMasks_setMap_other (m : Gui.Maps) (c c' : Gui.GCat) (d : Gui.CatMap)
    (hne : c' ≠ c) : catMasks (Gui.setMap m c d) c' = catMasks m c' := by
  cases c <;> cases c' <;> first | rfl | exact absurd rfl hne

theorem nodup_insert_mid (U V : List Str) (x : Str) (h : (U ++ V).Nodup)
    (hx : x ∉ U ++ V) : (U ++ x :: V).Nodup := by
  rw [List.nodup_middle]
  exact List.nodup_cons.mpr ⟨hx, h⟩

theorem allMasks_insert (m : Gui.Maps) (c : Gui.GCat) (k : Str) (e : Gui.Entry) :
    ∃ U V, allMasks m = U ++ V ∧
      allMasks (Gui.setMap m c (Gui.getMap m c ++ [(k, e)])) = U ++ e.mask :: V := by
  cases c with
  | catalog =>
    refine ⟨catMasks m Gui.GCat.catalog,
      catMasks m Gui.GCat.schema ++ catMasks m Gui.GCat.table ++
      catMasks m Gui.GCat.column ++ catMasks m Gui.GCat.strng ++
      catMasks m Gui.GCat.func ++ catMasks m Gui.GCat.alias, ?_, ?_⟩ <;>
      simp [allMasks, catMasks, Gui.getMap, Gui.setMap]
  | schema =>
    refine ⟨catMasks m Gui.GCat.catalog ++ catMasks m Gui.GCat.schema,
      catMasks m Gui.GCat.table ++ catMasks m Gui.GCat.column ++
      catMasks m Gui.GCat.strng ++ catMasks m Gui.GCat.func ++
      catMasks m Gui.GCat.alias, ?_, ?_⟩ <;>
      simp [allMasks, catMasks, Gui.getMap, Gui.setMap]
  | table =>
    refine ⟨catMasks m Gui.GCat.catalog ++ catMasks m Gui.GCat.schema ++
      catMasks m Gui.GCat.table,
      catMasks m Gui.GCat.column ++ catMasks m Gui.GCat.strng ++
      catMasks m Gui.GCat.func ++ catMasks m Gui.GCat.alias, ?_, ?_⟩ <;>
      simp [allMasks, catMasks, Gui.getMap, Gui.setMap]
  | column =>
    refine ⟨catMasks m Gui.GCat.catalog ++ catMasks m Gui.GCat.schema ++
      catMasks m Gui.GCat.table ++ catMasks m Gui.GCat.column,
      catMasks m Gui.GCat.strng ++ catMasks m Gui.GCat.func ++
      catMasks m Gui.GCat.alias, ?_, ?_⟩ <;>
      simp [allMasks, catMasks, Gui.getMap, Gui.setMap]
  | strng =>
    refine ⟨catMasks m Gui.GCat.catalog ++ catMasks m Gui.GCat.schema ++
      catMasks m Gui.GCat.table ++ catMasks m Gui.GCat.column ++
      catMasks m Gui.GCat.strng,
      catMasks m Gui.GCat.func ++ catMasks m Gui.GCat.alias, ?_, ?_⟩ <;>
      simp [allMasks, catMasks, Gui.getMap, Gui.setMap]
  | func =>
    refine ⟨catMasks m Gui.GCat.catalog ++ catMasks m Gui.GCat.schema ++
      catMasks m Gui.GCat.table ++ catMasks m Gui.GCat.column ++
      catMasks m Gui.GCat.strng ++ catMasks m Gui.GCat.func,
      catMasks m Gui.GCat.alias, ?_, ?_⟩ <;>
      simp [allMasks, catMasks, Gui.getMap, Gui.setMap]
  | «alias» =>
    refine ⟨allMasks m, [], ?_, ?_⟩ <;>
      simp [allMasks, catMasks, Gui.getMap, Gui.setMap]

theorem mem_allMasks {m : Gui.Maps} {mk : Str} (h : mk ∈ allMasks m) :
    ∃ c, mk ∈ catMasks m c := by
  rw [allMasks] at h
  simp only [List.mem_append] at h
  rcases h with ((((((h | h) | h) | h) | h) | h) | h)
  · exact ⟨Gui.GCat.catalog, h⟩
  · exact ⟨Gui.GCat.schema, h⟩
  · exact ⟨Gui.GCat.table, h⟩
  · exact ⟨Gui.GCat.column, h⟩
  · exact ⟨Gui.GCat.strng, h⟩
  · exact ⟨Gui.GCat.func, h⟩
  · exact ⟨Gui.GCat.alias, h⟩

/-- One registration of a fresh generically shaped placeholder preserves
the generation invariant. -/
theorem GenInv_add {m : Gui.Maps} {cnt1 cnt2 : Nat} (c : Gui.GCat) (k : Str)
    (e : Gui.Entry) (hINV : GenInv m cnt1 cnt2)
    (hdec : gMaskVal e.mask = some (c, if isCnt1Cat c then cnt1 else cnt2)) :
    GenInv (Gui.setMap m c (Gui.getMap m c ++ [(k, e)]))
      (if isCnt1Cat c then cnt1 + 1 else cnt1)
      (if isCnt1Cat c then cnt2 else cnt2 + 1) := by
  obtain ⟨h1, h2, h3⟩ := hINV
  have hfresh : e.mask ∉ allMasks m := by
    intro hmem
    obtain ⟨c', hc'⟩ := mem_allMasks hmem
    cases hg : isCnt1Cat c' with
    | true =>
      obtain ⟨n, hn, hb⟩ := h1 c' hg e.mask hc'
      rw [hdec] at hn
      obtain ⟨hcc, hnn⟩ := Prod.mk.injEq .. ▸ Option.some.inj hn
      rw [← hcc] at hg
      rw [hg, if_pos rfl] at hnn
      omega
    | false =>
      obtain ⟨n, hn, hb⟩ := h2 c' hg e.mask hc'
      rw [hdec] at hn
      obtain ⟨hcc, hnn⟩ := Prod.mk.injEq .. ▸ Option.some.inj hn
      rw [← hcc] at hg
      rw [hg, if_neg (by simp)] at hnn
      omega
  refine ⟨?_, ?_, ?_⟩
  · intro c' hg mk hmk
    by_cases hcc : c' = c
    · subst hcc
      rw [catMasks_setMap_same, List.map_append] at hmk
      rcases List.mem_append.mp hmk with hold | hnew
      · obtain ⟨n, hn, hb⟩ := h1 c' hg mk (by rwa [catMasks])
        exact ⟨n, hn, by rw [hg, if_pos rfl]; omega⟩
      · simp only [List.map_cons, List.map_nil, List.mem_singleton] at hnew
        refine ⟨cnt1, by rw [hnew, hdec, hg, if_pos rfl], ?_⟩
        rw [hg, if_pos rfl]
        omega
    · rw [catMasks_setMap_other _ _ _ _ hcc] at hmk
      obtain ⟨n, hn, hb⟩ := h1 c' hg mk hmk
      refine ⟨n, hn, ?_⟩
      split <;> omega
  · intro c' hg mk hmk
    by_cases hcc : c' = c
    · subst hcc
      rw [catMasks_setMap_same, List.map_append] at hmk
      rcases List.mem_append.mp hmk with hold | hnew
      · obtain ⟨n, hn, hb⟩ := h2 c' hg mk (by rwa [catMasks])
        exact ⟨n, hn, by rw [hg, if_neg (by simp)]; omega⟩
      · simp only [List.map_cons, List.map_nil, List.mem_singleton] at hnew
        refine ⟨cnt2, by rw [hnew, hdec, hg, if_neg (by simp)], ?_⟩
        rw [hg, if_neg (by simp)]
        omega
    · rw [catMasks_setMap_other _ _ _ _ hcc] at hmk
      obtain ⟨n, hn, hb⟩ := h2 c' hg mk hmk
      refine ⟨n, hn, ?_⟩
      split <;> omega
  · obtain ⟨U, V, hUV, hIns⟩ := allMasks_insert m c k e
    rw [hIns]
    rw [hUV] at h3 hfresh
    exact nodup_insert_mid U V e.mask h3 hfresh

/-- `add_map` in generic mode targeting a first-cell category preserves
the invariant (counter cell passed and returned as `cnt1`). -/
theorem GenInv_add_map1 {m : Gui.Maps} {cnt1 cnt2 : Nat} (kw : List Str)
    (cur : Gui.GCat) (key stem : Str) (gf : Gui.RGen → Str → Str × Gui.RGen)
    (rg : Gui.RGen) (hg : isCnt1Cat cur = true)
    (hdec : ∀ f : Bool, gMaskVal ((if f then ("safe_").data else []) ++
      (stem ++ '_' :: pyNat cnt1)) = some (cur, cnt1))
    (hINV : GenInv m cnt1 cnt2) :
    GenInv (Gui.add_map kw false m cur key stem gf rg cnt1).1
      (Gui.add_map kw false m cur key stem gf rg cnt1).2.2 cnt2 := by
  rw [Gui.add_map]
  by_cases hc : key ≠ [] ∧ ¬ Gui.hasKeyE (Gui.getMap m cur) key = true ∧
      ¬ Gui.is_sql_keyword_or_function kw key = true ∧ 0 < (pyStrip key).length
  · rw [if_pos hc]
    simp only [Bool.false_eq_true, if_false]
    have h := GenInv_add cur key
      ⟨if Gui.hasNamingConflict m cur key then
          ("safe_").data ++ (stem ++ '_' :: pyNat cnt1)
        else stem ++ '_' :: pyNat cnt1, true⟩ hINV ?_
    · rw [hg, if_pos rfl] at h
      exact h
    · rw [hg, if_pos rfl]
      cases hcf : Gui.hasNamingConflict m cur key with
      | true => simpa using hdec true
      | false => simpa using hdec false
  · rw [if_neg hc]
    exact hINV

/-- `add_map` in generic mode targeting the function category preserves
the invariant (counter cell passed and returned as `cnt2`). -/
theorem GenInv_add_map2 {m : Gui.Maps} {cnt1 cnt2 : Nat} (kw : List Str)
    (key stem : Str) (gf : Gui.RGen → Str → Str × Gui.RGen)
    (rg : Gui.RGen)
    (hdec : ∀ f : Bool, gMaskVal ((if f then ("safe_").data else []) ++
      (stem ++ '_' :: pyNat cnt2)) = some (Gui.GCat.func, cnt2))
    (hINV : GenInv m cnt1 cnt2) :
    GenInv (Gui.add_map kw false m Gui.GCat.func key stem gf rg cnt2).1 cnt1
      (Gui.add_map kw false m Gui.GCat.func key stem gf rg cnt2).2.2 := by
  rw [Gui.add_map]
  by_cases hc : key ≠ [] ∧ ¬ Gui.hasKeyE (Gui.getMap m Gui.GCat.func) key = true ∧
      ¬ Gui.is_sql_keyword_or_function kw key = true ∧ 0 < (pyStrip key).length
  · rw [if_pos hc]
    simp only [Bool.false_eq_true, if_false]
    have h := GenInv_add Gui.GCat.func key
      ⟨if Gui.hasNamingConflict m Gui.GCat.func key then
          ("safe_").data ++ (stem ++ '_' :: pyNat cnt2)
        else stem ++ '_' :: pyNat cnt2, true⟩ hINV ?_
    · simpa using h
    · cases hcf : Gui.hasNamingConflict m Gui.GCat.func key with
      | true => simpa using hdec true
      | false => simpa using hdec false
  · rw [if_neg hc]
    exact hINV

/-- One guarded registration step of the table loop (shared by the three
dotted-name parts). -/
theorem GenInv_step1 (kw : List Str) (st : Gui.PSt) (cur : Gui.GCat)
    (x stem : Str) (gf : Gui.RGen → Str → Str × Gui.RGen) (P : List Str)
    (hg : isCnt1Cat cur = true)
    (hdec : ∀ (n : Nat) (f : Bool), gMaskVal ((if f then ("safe_").data else []) ++
      (stem ++ '_' :: pyNat n)) = some (cur, n))
    (h : GenInv st.maps st.cnt1 st.cnt2) :
    GenInv
      (if x ∉ st.processed then
        { st with
          maps := (Gui.add_map kw false st.maps cur x stem gf st.rg st.cnt1).1,
          rg := (Gui.add_map kw false st.maps cur x stem gf st.rg st.cnt1).2.1,
          cnt1 := (Gui.add_map kw false st.maps cur x stem gf st.rg st.cnt1).2.2,
          processed := P }
      else st).maps
      (if x ∉ st.processed then
        { st with
          maps := (Gui.add_map kw false st.maps cur x stem gf st.rg st.cnt1).1,
          rg := (Gui.add_map kw false st.maps cur x stem gf st.rg st.cnt1).2.1,
          cnt1 := (Gui.add_map kw false st.maps cur x stem gf st.rg st.cnt1).2.2,
          processed := P }
      else st).cnt1
      (if x ∉ st.processed then
        { st with
          maps := (Gui.add_map kw false st.maps cur x stem gf st.rg st.cnt1).1,
          rg := (Gui.add_map kw false st.maps cur x stem gf st.rg st.cnt1).2.1,
          cnt1 := (Gui.add_map kw false st.maps cur x stem gf st.rg st.cnt1).2.2,
          processed := P }
      else st).cnt2 := by
  by_cases hm : x ∉ st.processed
  · rw [if_pos hm]
    exact GenInv_add_map1 kw cur x stem gf st.rg hg (fun f => hdec st.cnt1 f) h
  · rw [if_neg hm]
    exact h

theorem procTable_inv (kw : List Str) (st : Gui.PSt) (tbl : Str)
    (h : GenInv st.maps st.cnt1 st.cnt2) :
    GenInv (Gui.procTable kw false st tbl).maps
      (Gui.procTable kw false st tbl).cnt1 (Gui.procTable kw false st tbl).cnt2 := by
  have hdecC : ∀ (n : Nat) (f : Bool),
      gMaskVal ((if f then ("safe_").data else []) ++
        (("catalog").data ++ '_' :: pyNat n)) = some (Gui.GCat.catalog, n) :=
    fun n f => gMaskVal_catalog f n
  have hdecS : ∀ (n : Nat) (f : Bool),
      gMaskVal ((if f then ("safe_").data else []) ++
        (("schema").data ++ '_' :: pyNat n)) = some (Gui.GCat.schema, n) :=
    fun n f => gMaskVal_schema f n
  have hdecT : ∀ (n : Nat) (f : Bool),
      gMaskVal ((if f then ("safe_").data else []) ++
        (("table").data ++ '_' :: pyNat n)) = some (Gui.GCat.table, n) :=
    fun n f => gMaskVal_table f n
  rw [Gui.procTable]
  by_cases h0 : tbl = [] ∨ Gui.is_sql_keyword_or_function kw tbl = true
  · rw [if_pos h0]
    exact h
  · rw [if_neg h0]
    by_cases h3 : (tbl.splitOn '.').length = 3
    · rw [if_pos h3]
      dsimp only
      apply GenInv_step1 kw _ Gui.GCat.table _ _ _ _ rfl hdecT
      apply GenInv_step1 kw _ Gui.GCat.schema _ _ _ _ rfl hdecS
      apply GenInv_step1 kw _ Gui.GCat.catalog _ _ _ _ rfl hdecC
      exact h
    · rw [if_neg h3]
      by_cases h2 : (tbl.splitOn '.').length = 2
      · rw [if_pos h2]
        dsimp only
        apply GenInv_step1 kw _ Gui.GCat.table _ _ _ _ rfl hdecT
        apply GenInv_step1 kw _ Gui.GCat.schema _ _ _ _ rfl hdecS
        exact h
      · rw [if_neg h2]
        dsimp only
        apply GenInv_step1 kw _ Gui.GCat.table _ _ _ _ rfl hdecT
        exact h

theorem procColumn_inv (kw : List Str) (st : Gui.PSt) (col : Str)
    (h : GenInv st.maps st.cnt1 st.cnt2) :
    GenInv (Gui.procColumn kw false st col).maps
      (Gui.procColumn kw false st col).cnt1 (Gui.procColumn kw false st col).cnt2 := by
  rw [Gui.procColumn]
  by_cases hc : col ≠ [] ∧ col ≠ ['*'] ∧ col ∉ st.processed ∧
      ¬ Gui.is_sql_keyword_or_function kw col = true
  · rw [if_pos hc]
    exact GenInv_add_map1 kw Gui.GCat.column col (("column").data)
      Gui.rGenColumnName st.rg rfl (fun f => gMaskVal_column f st.cnt1) h
  · rw [if_neg hc]
    exact h

theorem procString_inv (st : Gui.PSt) (s : Str)
    (h : GenInv st.maps st.cnt1 st.cnt2) :
    GenInv (Gui.procString false st s).maps
      (Gui.procString false st s).cnt1 (Gui.procString false st s).cnt2 := by
  rw [Gui.procString]
  by_cases hc : s ≠ [] ∧ s ∉ st.processed
  · rw [if_pos hc]
    have hadd := GenInv_add Gui.GCat.strng s
      ⟨qS :: ("string").data ++ pyNat st.cnt1 ++ [qS], true⟩ h
      (by simpa using gMaskVal_string st.cnt1)
    simpa using hadd
  · rw [if_neg hc]
    exact h

theorem procFunction_inv (kw : List Str) (st : Gui.PSt) (f : Str)
    (h : GenInv st.maps st.cnt1 st.cnt2) :
    GenInv (Gui.procFunction kw false st f).maps
      (Gui.procFunction kw false st f).cnt1 (Gui.procFunction kw false st f).cnt2 := by
  rw [Gui.procFunction]
  by_cases hc : f ≠ [] ∧ f ∉ st.processed ∧
      ¬ Gui.is_sql_keyword_or_function kw f = true
  · rw [if_pos hc]
    exact GenInv_add_map2 kw f (("function").data) Gui.rGenFunctionName st.rg
      (fun fl => gMaskVal_function fl st.cnt2) h
  · rw [if_neg hc]
    exact h

theorem procAlias_inv (kw : List Str) (st : Gui.PSt) (a : Str)
    (h : GenInv st.maps st.cnt1 st.cnt2) :
    GenInv (Gui.procAlias kw false st a).maps
      (Gui.procAlias kw false st a).cnt1 (Gui.procAlias kw false st a).cnt2 := by
  rw [Gui.procAlias]
  by_cases hc : a ≠ [] ∧ a ∉ st.processed ∧
      ¬ Gui.is_sql_keyword_or_function kw a = true ∧ 3 < a.length
  · rw [if_pos hc]
    have hadd := GenInv_add Gui.GCat.alias a
      ⟨("alias_").data ++ pyNat st.cnt2, true⟩ h
      (by simpa using gMaskVal_alias st.cnt2)
    simpa using hadd
  · rw [if_neg hc]
    exact h

theorem foldl_GenInv {f : Gui.PSt → Str → Gui.PSt}
    (hf : ∀ st x, GenInv st.maps st.cnt1 st.cnt2 →
      GenInv (f st x).maps (f st x).cnt1 (f st x).cnt2) :
    ∀ (l : List Str) (st : Gui.PSt), GenInv st.maps st.cnt1 st.cnt2 →
      GenInv (l.foldl f st).maps (l.foldl f st).cnt1 (l.foldl f st).cnt2 := by
  intro l
  induction l with
  | nil => intro st h; exact h
  | cons x t ih =>
    intro st h
    rw [List.foldl_cons]
    exact ih _ (hf st x h)

/-!  ### Plain-replacement scanner lemmas (for C1) -/

theorem pfxOf_refl (p : Str) : pfxOf p p = true := by
  induction p with
  | nil => rfl
  | cons a t ih => simp [pfxOf, ih]

theorem pfxOf_eq_of_length {p s : Str} (h : pfxOf p s = true)
    (hl : p.length = s.length) : p = s := by
  obtain ⟨t, ht⟩ := (pfxOf_iff p s).mp h
  have hlt : t.length = 0 := by
    have := congrArg List.length ht
    simp at this
    omega
  rw [ht, List.eq_nil_of_length_eq_zero hlt, List.append_nil]

theorem replGo_cons_nohit {p r : Str} {c : Char} {t : Str}
    (h : pfxOf p (c :: t) = false) :
    replGo p r 0 (c :: t) = c :: replGo p r 0 t := by
  rw [replGo, if_neg (by simp [h])]

theorem replGo_cons_hit {p r : Str} {c : Char} {t : Str}
    (h : pfxOf p (c :: t) = true) :
    replGo p r 0 (c :: t) = r ++ replGo p r (p.length - 1) t := by
  rw [replGo, if_pos h]

theorem replGo_skip_append (p r : Str) :
    ∀ (u v : Str) (k : Nat), replGo p r (u.length + k) (u ++ v) = replGo p r k v := by
  intro u
  induction u with
  | nil => intro v k; simp
  | cons c u ih =>
    intro v k
    have hn : (c :: u).length + k = (u.length + k) + 1 := by simp; omega
    rw [hn]
    show replGo p r ((u.length + k) + 1) (c :: (u ++ v)) = _
    rw [replGo, ih v k]

/-- An exact occurrence of the pattern at the cursor is replaced. -/
theorem replGo_exact (p r : Str) (hpne : p ≠ []) (rest : Str) :
    replGo p r 0 (p ++ rest) = r ++ replGo p r 0 rest := by
  cases hp : p with
  | nil => exact absurd hp hpne
  | cons c t =>
    have hpfx : pfxOf (c :: t) ((c :: t) ++ rest) = true := pfxOf_self_append _ _
    rw [List.cons_append] at hpfx
    rw [List.cons_append, replGo_cons_hit hpfx]
    have hl : (c :: t).length - 1 = t.length + 0 := by simp
    rw [hl, replGo_skip_append _ r t rest 0]

/-- A quote-headed pattern passes over a quote-free stretch. -/
theorem replGo_qfree_pass (p r : Str) (pb : Str) (hp : p = qS :: pb) :
    ∀ s rest, qS ∉ s → replGo p r 0 (s ++ rest) = s ++ replGo p r 0 rest := by
  intro s
  induction s with
  | nil => intro rest _; simp
  | cons c t ih =>
    intro rest hq
    rw [List.cons_append, replGo_cons_nohit (by
      rw [hp, pfxOf]
      have hcq : c ≠ qS := by
        intro he
        exact hq (by rw [he]; exact List.mem_cons_self _ _)
      simp [Ne.symm hcq])]
    rw [ih rest fun hm => hq (List.mem_cons_of_mem _ hm)]
    rfl

/-- A string-shaped pattern passes over a different string-shaped stretch
whose interior is quote-free, provided what follows is empty or starts
with a separator. -/
theorem replGo_strpass (p r : Str) (pb : Str) (hp : p = qS :: pb ++ [qS])
    (hpb : allWord pb = true) (hpbne : pb ≠ [])
    (mid : Str) (hmid : qS ∉ mid)
    (rest : Str) (hrest : rest = [] ∨ sepChar (rest.headD ' ') = true)
    (hne : p ≠ qS :: mid ++ [qS]) :
    replGo p r 0 ((qS :: mid ++ [qS]) ++ rest) =
      (qS :: mid ++ [qS]) ++ replGo p r 0 rest := by
  have hplen : p.length = pb.length + 2 := by rw [hp]; simp
  have h0 : pfxOf p ((qS :: mid ++ [qS]) ++ rest) = false := by
    cases hpf : pfxOf p ((qS :: mid ++ [qS]) ++ rest) with
    | false => rfl
    | true =>
      exfalso
      rcases Nat.lt_trichotomy pb.length mid.length with hlt | heq | hgt
      · have hgd := pfxOf_getD p _ hpf (p.length - 1) (by omega) ' '
        rw [List.getD_append _ _ _ _ (by simp; omega)] at hgd
        have hpq : p.getD (p.length - 1) ' ' = qS := by
          rw [hp]
          rw [show ((qS :: pb ++ [qS]) : Str).length - 1 = (qS :: pb).length by simp]
          rw [List.getD_append_right _ _ _ _ (le_refl _)]
          simp
        rw [hpq] at hgd
        have hin : ((qS :: mid ++ [qS]) : Str).getD (p.length - 1) ' ' =
            mid.getD (p.length - 2) ' ' := by
          rw [List.getD_append _ _ _ _ (by simp; omega)]
          rw [show p.length - 1 = (p.length - 2) + 1 by omega]
          rfl
        rw [hin] at hgd
        have hmem : qS ∈ mid := by
          rw [← hgd]
          have hidx : p.length - 2 < mid.length := by omega
          rw [List.getD_eq_getElem _ _ hidx]
          exact List.getElem_mem _
        exact hmid hmem
      · have hpc : p = qS :: mid ++ [qS] := by
          apply pfxOf_eq_of_length (@pfxOfX_append_left false _ _ rest
            (by simpa [pfxOfX] using hpf) (by simp; omega))
          simp
          omega
        exact hne hpc
      · have hgd := pfxOf_getD p _ hpf (mid.length + 1) (by omega) ' '
        rw [List.getD_append _ _ _ _ (by simp)] at hgd
        have hcq : ((qS :: mid ++ [qS]) : Str).getD (mid.length + 1) ' ' = qS := by
          rw [List.getD_append_right _ _ _ _ (by simp)]
          simp
        rw [hcq] at hgd
        have hpw : isWordChar (p.getD (mid.length + 1) ' ') = true := by
          rw [hp]
          show isWordChar ((pb ++ [qS]).getD mid.length ' ') = true
          rw [List.getD_append _ _ _ _ (by omega)]
          exact allWord_getD hpb mid.length (by omega)
        rw [← hgd] at hpw
        simp [isWordChar, qS] at hpw
  have hstep1 : replGo p r 0 ((qS :: mid ++ [qS]) ++ rest) =
      qS :: replGo p r 0 ((mid ++ [qS]) ++ rest) := by
    rw [show (((qS :: mid ++ [qS]) ++ rest) : Str) = qS :: ((mid ++ [qS]) ++ rest)
      from by simp]
    rw [replGo_cons_nohit (by
      rw [show ((qS :: ((mid ++ [qS]) ++ rest)) : Str) = (qS :: mid ++ [qS]) ++ rest
        from by simp]
      exact h0)]
  have hstep2 : replGo p r 0 ((mid ++ [qS]) ++ rest) =
      mid ++ replGo p r 0 ([qS] ++ rest) := by
    rw [List.append_assoc]
    exact replGo_qfree_pass p r (pb ++ [qS]) (by rw [hp]; rfl) mid ([qS] ++ rest) hmid
  have hstep3 : replGo p r 0 ([qS] ++ rest) = qS :: replGo p r 0 rest := by
    rw [show (([qS] ++ rest) : Str) = qS :: rest from rfl]
    cases hpb2 : pb with
    | nil => exact absurd hpb2 hpbne
    | cons d pb2 =>
      rw [replGo_cons_nohit ?_]
      rw [hp, hpb2]
      cases hr : rest with
      | nil => simp [pfxOf]
      | cons h2 t2 =>
        have hd : isWordChar d = true := by
          rw [hpb2] at hpb
          simp only [allWord, List.all_cons, Bool.and_eq_true] at hpb
          exact hpb.1
        have hh2 : isWordChar h2 = false := by
          rcases hrest with he | hs
          · rw [he] at hr; cases hr
          · rw [hr] at hs
            simp only [List.headD_cons, sepChar, Bool.and_eq_true,
              Bool.not_eq_true'] at hs
            exact hs.1
        have hdh : d ≠ h2 := by
          intro he
          rw [he, hh2] at hd
          cases hd
        simp [pfxOf, hdh]
  rw [hstep1, hstep2, hstep3]
  simp

/-!  ### Additional whole-word scanner lemmas (for C1) -/

theorem prevAfter_some (c : Char) (t : Str) :
    prevAfter (some c) t = some ((c :: t).getLastD ' ') := by
  cases t with
  | nil => simp [prevAfter, List.getLastD]
  | cons d u =>
    rw [getLastD_cons_ne (by simp) ' ']
    rw [prevAfter]
    cases hl : (d :: u).getLast? with
    | none => simp at hl
    | some y =>
      simp only [List.getLastD_eq_getLast?, hl]
      rfl

/-- A whole-word hit: the pattern sits word-delimited at the cursor and is
replaced. -/
theorem wbGo_word_hit (p r : Str) (hpne : p ≠ []) (hpw : allWord p = true)
    (prev : Option Char) (hprev : wordOpt prev = false)
    (rest : Str) (hrest : headOKb rest = true) :
    wbGo false p r prev 0 (p ++ rest) =
      r ++ wbGo false p r (some (p.getLastD ' ')) 0 rest := by
  cases p with
  | nil => exact absurd rfl hpne
  | cons c t =>
    have hcw : isWordChar c = true := by
      simp only [allWord, List.all_cons, Bool.and_eq_true] at hpw
      exact hpw.1
    have hpfx : pfxOfX false (c :: t) (c :: (t ++ rest)) = true := by
      rw [← List.cons_append]
      simpa [pfxOfX] using pfxOf_self_append (c :: t) rest
    have htake : (c :: (t ++ rest)).take (c :: t).length = c :: t := by
      rw [← List.cons_append]
      exact List.take_left _ _
    have hdrop : (c :: (t ++ rest)).drop (c :: t).length = rest := by
      rw [← List.cons_append]
      exact List.drop_left _ _
    have hlw : isWordChar ((c :: t).getLastD ' ') = true := by
      rw [← getD_last (by simp) ' ']
      exact allWord_getD (by simpa [allWord] using hpw) ((c :: t).length - 1) (by simp)
    have hba : bdryAfter (((c :: (t ++ rest)).take (c :: t).length).getLastD c)
        ((c :: (t ++ rest)).drop (c :: t).length) = true := by
      rw [htake, hdrop, bdryAfter]
      rw [getLastD_irrel (by simp) c ' ', hlw]
      cases rest with
      | nil => rfl
      | cons h2 t2 =>
        have hh : isWordChar h2 = false := by simpa [headOKb] using hrest
        simp [wordOpt, hh]
    have hhit : wbHit false (c :: t) prev (c :: (t ++ rest)) := by
      refine ⟨hpfx, ?_, hba⟩
      rw [bdryBefore, hprev, hcw]
      rfl
    rw [List.cons_append, wbGo_cons_hit hhit]
    have hl : (c :: t).length - 1 = t.length + 0 := by simp
    rw [hl, wbGo_skip_append false (c :: t) r t (some c) 0 rest, prevAfter_some]

theorem occursB_head {p : Str} {c : Char} {t : Str}
    (h : occursB p (c :: t) = false) : pfxOf p (c :: t) = false := by
  rw [occursB, List.any_eq_false] at h
  simpa using h 0 (by simp)

theorem occursB_tail {p : Str} {c : Char} {t : Str}
    (h : occursB p (c :: t) = false) : occursB p t = false := by
  rw [occursB, List.any_eq_false] at h
  rw [occursB, List.any_eq_false]
  intro i hi
  have := h (i + 1) (by simp only [List.mem_range] at hi ⊢; simpa using hi)
  simpa using this

/-- A word pattern passes over a stretch it does not occur in, when the
stretch ends in a non-word character (or nothing follows). -/
theorem wbGo_nooccB_pass (p r : Str) (hpne : p ≠ []) (hpw : allWord p = true) :
    ∀ (s rest : Str) (prev : Option Char), occursB p s = false →
    (isWordChar (s.getLastD ' ') = false ∨ rest = []) →
    wbGo false p r prev 0 (s ++ rest) = s ++ wbGo false p r (prevAfter prev s) 0 rest := by
  intro s
  induction s with
  | nil => intro rest prev _ _; simp [prevAfter]
  | cons c t ih =>
    intro rest prev hocc hside
    have hnohit : ¬ wbHit false p prev (c :: (t ++ rest)) := by
      rintro ⟨h1, -, -⟩
      by_cases hl : p.length ≤ (c :: t).length
      · have hpfx : pfxOfX false p (c :: t) = true := by
          rw [show (c :: (t ++ rest) : Str) = (c :: t) ++ rest from rfl] at h1
          exact pfxOfX_append_left rest h1 hl
        have hp2 : pfxOf p (c :: t) = true := by simpa [pfxOfX] using hpfx
        rw [occursB_head hocc] at hp2
        cases hp2
      · push_neg at hl
        rcases hside with hw | he
        · have hword := pfxOfX_word_getD h1 hpw ((c :: t).length - 1)
            (by simp only [List.length_cons] at hl ⊢; omega)
          rw [show (c :: (t ++ rest) : Str) = (c :: t) ++ rest from rfl,
            List.getD_append _ _ _ _ (by simp)] at hword
          rw [getD_last (by simp) ' '] at hword
          rw [hword] at hw
          cases hw
        · rw [he] at h1
          rw [show (c :: (t ++ [] : Str)) = c :: t from by simp] at h1
          have := pfxOfX_le_length h1
          simp only [List.length_cons] at hl this
          omega
    rw [List.cons_append, wbGo_cons_nohit hnohit, prevAfter_cons]
    rw [ih rest (some c) (occursB_tail hocc) ?_]
    · rfl
    rcases hside with hw | he
    · cases ht : t with
      | nil =>
        left
        decide
      | cons d u =>
        left
        rw [ht] at hw
        rw [← getLastD_cons_ne (c := c) (by simp) ' ']
        exact hw
    · right; exact he

theorem wbGo_quote_nohit (p r : Str) (hpne : p ≠ []) (hpw : allWord p = true)
    (prev : Option Char) (x : Str) :
    wbGo false p r prev 0 (qS :: x) = qS :: wbGo false p r (some qS) 0 x := by
  apply wbGo_cons_nohit
  rintro ⟨h1, -, -⟩
  cases p with
  | nil => exact absurd rfl hpne
  | cons d p2 =>
    simp only [pfxOfX, Bool.false_eq_true, if_false, pfxOf,
      Bool.and_eq_true, beq_iff_eq] at h1
    have hd : isWordChar d = true := by
      simp only [allWord, List.all_cons, Bool.and_eq_true] at hpw
      exact hpw.1
    rw [h1.1] at hd
    simp [isWordChar, qS] at hd

/-- A word pattern passes over an unfilled string placeholder (quote,
word-shaped interior it does not equal, quote). -/
theorem wbGo_strmask_pass (p r : Str) (hpne : p ≠ []) (hpw : allWord p = true)
    (mid : Str) (hmid : allWord mid = true) (hmidne : mid ≠ [])
    (hne : p ≠ mid) (rest : Str) (prev : Option Char) :
    wbGo false p r prev 0 ((qS :: mid ++ [qS]) ++ rest) =
      (qS :: mid ++ [qS]) ++ wbGo false p r (some qS) 0 rest := by
  rw [show (((qS :: mid ++ [qS]) ++ rest) : Str) = qS :: (mid ++ (qS :: rest))
    from by simp]
  rw [wbGo_quote_nohit p r hpne hpw prev _]
  rw [wbGo_word_pass hpne hpw hmidne hmid ?_ ?_ (some qS) ?_]
  · rw [wbGo_quote_nohit p r hpne hpw _ rest]
    simp
  · rintro ⟨hl, hpfx⟩
    exact hne (pfxOf_eq_of_length (by simpa [pfxOfX] using hpfx) hl)
  · cases rest <;> simp [headOKb, isWordChar, qS]
  · simp [wordOpt, isWordChar, qS]

/-!  ### Chunk-level lemmas (for C1) -/

theorem lookup_mem {k : Str} {d : Gui.CatMap} {v : Gui.Entry}
    (h : List.lookup k d = some v) : (k, v) ∈ d := by
  induction d with
  | nil => simp [List.lookup] at h
  | cons kv t ih =>
    rw [List.lookup] at h
    cases he : (k == kv.1) with
    | true =>
      rw [he] at h
      have hk : k = kv.1 := by simpa using he
      have hv : v = kv.2 := by
        injection h with h2
        exact h2.symm
      rw [hk, hv]
      exact List.mem_cons_self _ _
    | false =>
      rw [he] at h
      exact List.mem_cons_of_mem _ (ih h)

theorem mem_allEntries {m : Gui.Maps} {c : Gui.GCat} {o : Str} {e : Gui.Entry}
    (h : (o, e) ∈ Gui.getMap m c) : (c, o, e) ∈ allEntries m := by
  rw [allEntries]
  cases c <;>
    simp only [List.mem_append, List.mem_map] <;>
    [skip; skip; skip; skip; skip; skip; skip] <;>
    first
    | exact Or.inl (Or.inl (Or.inl (Or.inl (Or.inl (Or.inl ⟨(o, e), h, rfl⟩)))))
    | exact Or.inl (Or.inl (Or.inl (Or.inl (Or.inl (Or.inr ⟨(o, e), h, rfl⟩)))))
    | exact Or.inl (Or.inl (Or.inl (Or.inl (Or.inr ⟨(o, e), h, rfl⟩))))
    | exact Or.inl (Or.inl (Or.inl (Or.inr ⟨(o, e), h, rfl⟩)))
    | exact Or.inl (Or.inl (Or.inr ⟨(o, e), h, rfl⟩))
    | exact Or.inl (Or.inr ⟨(o, e), h, rfl⟩)
    | exact Or.inr ⟨(o, e), h, rfl⟩

theorem allMasks_eq_map (m : Gui.Maps) :
    allMasks m = (allEntries m).map fun ce => ce.2.2.mask := by
  rw [allMasks, allEntries]
  simp [catMasks, List.map_map]
  rfl

theorem mask_mem_allMasks {m : Gui.Maps} {c : Gui.GCat} {o : Str} {e : Gui.Entry}
    (h : (o, e) ∈ Gui.getMap m c) : e.mask ∈ allMasks m := by
  rw [allMasks_eq_map]
  exact List.mem_map.mpr ⟨(c, o, e), mem_allEntries h, rfl⟩

/-- With distinct placeholders, an entry is determined by its placeholder,
across all seven category maps. -/
theorem entry_unique {m : Gui.Maps} (hnd : (allMasks m).Nodup)
    {c1 c2 : Gui.GCat} {o1 o2 : Str} {e1 e2 : Gui.Entry}
    (h1 : List.lookup o1 (Gui.getMap m c1) = some e1)
    (h2 : List.lookup o2 (Gui.getMap m c2) = some e2)
    (hm : e1.mask = e2.mask) : c1 = c2 ∧ o1 = o2 := by
  have hmem1 := mem_allEntries (lookup_mem h1)
  have hmem2 := mem_allEntries (lookup_mem h2)
  rw [allMasks_eq_map] at hnd
  have := List.inj_on_of_nodup_map hnd hmem1 hmem2 hm
  refine ⟨congrArg Prod.fst this, ?_⟩
  have h2nd := congrArg Prod.snd this
  exact congrArg Prod.fst h2nd

theorem occursB_self {p : Str} (h : p ≠ []) : occursB p p = true := by
  rw [occursB_iff]
  exact ⟨[], [], by simp⟩

theorem allWord_qS_not_mem {s : Str} (h : allWord s = true) : qS ∉ s := by
  intro hm
  have := List.all_eq_true.mp h qS hm
  simp [isWordChar, qS] at this

theorem strMask_decomp {s : Str} (h : strMask s = true) :
    s = qS :: strBody s ++ [qS] ∧ allWord (strBody s) = true ∧ strBody s ≠ [] := by
  simp only [strMask, Bool.and_eq_true, decide_eq_true_eq] at h
  obtain ⟨⟨⟨hlen, hhead⟩, hlast⟩, hword⟩ := h
  cases hs : s with
  | nil => rw [hs] at hlen; simp at hlen
  | cons c t =>
    rw [hs] at hlen hhead hlast hword
    have hc : c = qS := by simpa using hhead
    have htne : t ≠ [] := by
      intro he
      rw [he] at hlen
      simp at hlen
    have htd : t.dropLast ++ [t.getLast htne] = t := List.dropLast_append_getLast htne
    have hlq : t.getLast htne = qS := by
      rw [getLastD_cons_ne htne ' '] at hlast
      rw [List.getLastD_eq_getLast?, List.getLast?_eq_getLast _ htne] at hlast
      simpa using hlast
    have hbody : strBody (c :: t) = t.dropLast := rfl
    rw [hbody] at hword ⊢
    refine ⟨?_, hword, ?_⟩
    · rw [hc]
      conv_lhs => rw [← htd]
      rw [hlq]
      simp
    · intro he
      have hl2 := congrArg List.length htd
      rw [he] at hl2
      simp at hl2
      simp only [List.length_cons] at hlen
      omega

theorem strOrig_decomp {s : Str} (h : strOrig s = true) :
    s = qS :: strBody s ++ [qS] ∧ qS ∉ strBody s := by
  simp only [strOrig, Bool.and_eq_true, decide_eq_true_eq] at h
  obtain ⟨⟨⟨hlen, hhead⟩, hlast⟩, hq⟩ := h
  cases hs : s with
  | nil => rw [hs] at hlen; simp at hlen
  | cons c t =>
    rw [hs] at hlen hhead hlast hq
    have hc : c = qS := by simpa using hhead
    have htne : t ≠ [] := by
      intro he
      rw [he] at hlen
      simp at hlen
    have htd : t.dropLast ++ [t.getLast htne] = t := List.dropLast_append_getLast htne
    have hlq : t.getLast htne = qS := by
      rw [getLastD_cons_ne htne ' '] at hlast
      rw [List.getLastD_eq_getLast?, List.getLast?_eq_getLast _ htne] at hlast
      simpa using hlast
    have hbody : strBody (c :: t) = t.dropLast := rfl
    rw [hbody] at hq ⊢
    refine ⟨?_, hq⟩
    rw [hc]
    conv_lhs => rw [← htd]
    rw [hlq]
    simp

theorem render_cons (ch : Chunk) (cs : List Chunk) :
    render (ch :: cs) = chText ch ++ render cs := by
  simp [render]

theorem chunksOK_head {m : Gui.Maps} {ch : Chunk} {cs : List Chunk}
    (h : chunksOK m (ch :: cs) = true) : chOK m ch = true := by
  cases cs with
  | nil => exact h
  | cons c2 t =>
    rw [chunksOK] at h
    simp only [Bool.and_eq_true] at h
    exact h.1.1

theorem chunksOK_tail {m : Gui.Maps} {ch : Chunk} {cs : List Chunk}
    (h : chunksOK m (ch :: cs) = true) : chunksOK m cs = true := by
  cases cs with
  | nil => rfl
  | cons c2 t =>
    rw [chunksOK] at h
    simp only [Bool.and_eq_true] at h
    exact h.2

theorem chunksOK_adj {m : Gui.Maps} {c1 c2 : Chunk} {t : List Chunk}
    (h : chunksOK m (c1 :: c2 :: t) = true) : adjOK c1 c2 = true := by
  rw [chunksOK] at h
  simp only [Bool.and_eq_true] at h
  exact h.1.2

theorem chOK_fillC (m : Gui.Maps) (c : Gui.GCat) (mk : Str) (ch : Chunk) :
    chOK m (fillC c mk ch) = chOK m ch := by
  cases ch <;> rfl

theorem adjOK_fillC (c : Gui.GCat) (mk : Str) (a b : Chunk) :
    adjOK (fillC c mk a) (fillC c mk b) = adjOK a b := by
  cases a <;> cases b <;> rfl

theorem chunksOK_map_fillC (m : Gui.Maps) (c : Gui.GCat) (mk : Str) :
    ∀ cs, chunksOK m (cs.map (fillC c mk)) = chunksOK m cs := by
  intro cs
  induction cs with
  | nil => rfl
  | cons ch cs ih =>
    cases cs with
    | nil =>
      show chunksOK m [fillC c mk ch] = chunksOK m [ch]
      show chOK m (fillC c mk ch) = chOK m ch
      exact chOK_fillC m c mk ch
    | cons c2 t =>
      show chunksOK m (fillC c mk ch :: fillC c mk c2 :: t.map (fillC c mk)) = _
      rw [chunksOK, chunksOK]
      rw [chOK_fillC, adjOK_fillC]
      rw [show (fillC c mk c2 :: t.map (fillC c mk)) = (c2 :: t).map (fillC c mk)
        from rfl, ih]

theorem rest_head_sep {m : Gui.Maps} {ca : Gui.GCat} {o mk : Str} {f : Bool}
    {cs' : List Chunk} (h : chunksOK m (Chunk.hole ca o mk f :: cs') = true) :
    render cs' = [] ∨ sepChar ((render cs').headD ' ') = true := by
  cases cs' with
  | nil => left; rfl
  | cons ch2 t =>
    right
    have hadj := chunksOK_adj h
    cases ch2 with
    | hole c2 o2 m2 f2 => simp [adjOK] at hadj
    | lit s =>
      have hs : sepChar (s.headD ' ') = true := by simpa [adjOK] using hadj
      have hsne : s ≠ [] := by
        have hok := chunksOK_head (chunksOK_tail h)
        simp only [chOK, Bool.and_eq_true, decide_eq_true_eq] at hok
        exact hok.1.1
      rw [render_cons]
      cases hs2 : s with
      | nil => exact absurd hs2 hsne
      | cons d u =>
        rw [hs2] at hs
        simpa using hs

theorem rest_headOK {m : Gui.Maps} {ca : Gui.GCat} {o mk : Str} {f : Bool}
    {cs' : List Chunk} (h : chunksOK m (Chunk.hole ca o mk f :: cs') = true) :
    headOKb (render cs') = true := by
  rcases rest_head_sep h with he | hs
  · rw [he]; rfl
  · cases hr : render cs' with
    | nil => rfl
    | cons d u =>
      rw [hr] at hs
      simp only [List.headD_cons, sepChar, Bool.and_eq_true, Bool.not_eq_true'] at hs
      simp [headOKb, hs.1]

theorem chOK_lit_dest {m : Gui.Maps} {s : Str} (h : chOK m (Chunk.lit s) = true) :
    s ≠ [] ∧ qS ∉ s ∧ ∀ mk' ∈ allMasks m, occursB mk' s = false := by
  simp only [chOK, Bool.and_eq_true, decide_eq_true_eq, List.all_eq_true,
    Bool.not_eq_true'] at h
  exact ⟨h.1.1, h.1.2, h.2⟩

theorem chOK_hole_dest {m : Gui.Maps} {ca : Gui.GCat} {o mk : Str} {f : Bool}
    (h : chOK m (Chunk.hole ca o mk f) = true) :
    List.lookup o (Gui.getMap m ca) = some ⟨mk, true⟩ ∧
    (∀ mk' ∈ allMasks m, occursB mk' o = false) ∧
    (ca = Gui.GCat.strng → strMask mk = true ∧ strOrig o = true) ∧
    (ca ≠ Gui.GCat.strng → allWord mk = true ∧ mk ≠ [] ∧
      allWord o = true ∧ o ≠ []) := by
  simp only [chOK, Bool.and_eq_true, decide_eq_true_eq, List.all_eq_true,
    Bool.not_eq_true'] at h
  obtain ⟨⟨h1, h2⟩, h3⟩ := h
  refine ⟨h1, h2, ?_, ?_⟩
  · intro hc
    rw [if_pos hc] at h3
    simpa using h3
  · intro hc
    rw [if_neg hc] at h3
    simp only [Bool.and_eq_true, decide_eq_true_eq] at h3
    exact ⟨h3.1.1.1, h3.1.1.2, h3.1.2, h3.2⟩

theorem MapsOK_nodup {m : Gui.Maps} (h : MapsOK m = true) :
    (allMasks m).Nodup := by
  simp only [MapsOK, Bool.and_eq_true, decide_eq_true_eq] at h
  exact h.1.1.2

theorem MapsOK_entry {m : Gui.Maps} (h : MapsOK m = true) {c : Gui.GCat}
    {o : Str} {e : Gui.Entry} (hmem : (o, e) ∈ Gui.getMap m c) :
    e.enabled = true ∧
    (c = Gui.GCat.strng → strMask e.mask = true ∧ strOrig o = true) ∧
    (c ≠ Gui.GCat.strng → e.mask ≠ [] ∧ allWord e.mask = true ∧
      o ≠ [] ∧ allWord o = true) := by
  simp only [MapsOK, Bool.and_eq_true, List.all_eq_true] at h
  have he := h.1.1.1 (c, o, e) (mem_allEntries hmem)
  simp only [Bool.and_eq_true] at he
  refine ⟨he.1, ?_, ?_⟩
  · intro hc
    rw [if_pos hc] at he
    have := he.2
    simp only [Bool.and_eq_true] at this
    exact this
  · intro hc
    rw [if_neg hc] at he
    have := he.2
    simp only [Bool.and_eq_true, decide_eq_true_eq] at this
    exact ⟨this.1.1.1, this.1.1.2, this.1.2, this.2⟩

theorem MapsOK_bodydisj {m : Gui.Maps} (h : MapsOK m = true) {c : Gui.GCat}
    {o : Str} {e : Gui.Entry} (hc : c ≠ Gui.GCat.strng)
    (hmem : (o, e) ∈ Gui.getMap m c) {o' : Str} {e' : Gui.Entry}
    (hmem' : (o', e') ∈ Gui.getMap m Gui.GCat.strng) :
    e.mask ≠ strBody e'.mask := by
  simp only [MapsOK, Bool.and_eq_true, List.all_eq_true] at h
  have hd := h.1.2 (c, o, e) (mem_allEntries hmem)
  simp only [Bool.or_eq_true, decide_eq_true_eq, List.all_eq_true] at hd
  rcases hd with hd | hd
  · exact absurd hd hc
  · have := hd (Gui.GCat.strng, o', e') (mem_allEntries hmem')
    simp only [Bool.or_eq_true, decide_eq_true_eq] at this
    rcases this with hne | hne
    · exact absurd rfl hne
    · exact hne

theorem MapsOK_keysNodup {m : Gui.Maps} (h : MapsOK m = true) (c : Gui.GCat) :
    ((Gui.getMap m c).map Prod.fst).Nodup := by
  simp only [MapsOK, Bool.and_eq_true, List.all_eq_true] at h
  have := h.2 c (by cases c <;> simp)
  simpa using this

theorem mem_lookup_of_keysNodup {d : Gui.CatMap}
    (hnd : (d.map Prod.fst).Nodup) {k : Str} {v : Gui.Entry}
    (hmem : (k, v) ∈ d) : List.lookup k d = some v := by
  induction d with
  | nil => simp at hmem
  | cons kv t ih =>
    simp only [List.map_cons, List.nodup_cons] at hnd
    rcases List.mem_cons.mp hmem with he | hm
    · rw [← he, List.lookup]
      simp
    · rw [List.lookup]
      cases hb : (k == kv.1) with
      | true =>
        exfalso
        have hk : k = kv.1 := by simpa using hb
        exact hnd.1 (List.mem_map.mpr ⟨(k, v), hm, hk⟩)
      | false => exact ih hnd.2 hm

/-- The previous-character obligation a whole-word pass owes the chunk
sequence it is about to scan: a leading identifier hole must be entered
from a non-word position. -/
def wbPrevOK (prev : Option Char) : List Chunk → Prop
  | Chunk.hole c _ _ _ :: _ => c = Gui.GCat.strng ∨ wordOpt prev = false
  | _ => True

/-- Fill every hole of category `c`. -/
def fillCat (c : Gui.GCat) : Chunk → Chunk
  | Chunk.hole ca o mk f => Chunk.hole ca o mk (f || (ca = c))
  | ch => ch

/-- Fill every hole. -/
def fillAll : Chunk → Chunk
  | Chunk.hole ca o mk _ => Chunk.hole ca o mk true
  | ch => ch

/-- The fill a fold over a category map's entries performs on one chunk. -/
def fillFold (c : Gui.GCat) (d : Gui.CatMap) (ch : Chunk) : Chunk :=
  d.foldl (fun a kv => fillC c kv.2.mask a) ch

/-- The seven category fills in `unmask_sql`'s pass order. -/
def fillSeq (ch : Chunk) : Chunk :=
  fillCat Gui.GCat.catalog (fillCat Gui.GCat.schema (fillCat Gui.GCat.table
    (fillCat Gui.GCat.column (fillCat Gui.GCat.func (fillCat Gui.GCat.alias
      (fillCat Gui.GCat.strng ch))))))

theorem wbPrevOK_none : ∀ cs, wbPrevOK none cs := by
  intro cs
  cases cs with
  | nil => trivial
  | cons ch t =>
    cases ch with
    | lit s => trivial
    | hole ca o mk f => exact Or.inr rfl

theorem after_hole_prevOK {m : Gui.Maps} {ca : Gui.GCat} {o mk : Str} {f : Bool}
    {cs : List Chunk} (h : chunksOK m (Chunk.hole ca o mk f :: cs) = true)
    (prev : Option Char) : wbPrevOK prev cs := by
  cases cs with
  | nil => trivial
  | cons c2 t =>
    cases c2 with
    | lit s => trivial
    | hole ca2 o2 mk2 f2 =>
      have := chunksOK_adj h
      simp [adjOK] at this

theorem chunksOK_all {m : Gui.Maps} :
    ∀ {cs : List Chunk}, chunksOK m cs = true → ∀ ch ∈ cs, chOK m ch = true := by
  intro cs
  induction cs with
  | nil => intro _ ch hm; simp at hm
  | cons c t ih =>
    intro h ch hm
    rcases List.mem_cons.mp hm with he | hm2
    · rw [he]; exact chunksOK_head h
    · exact ih (chunksOK_tail h) ch hm2

theorem fillFold_lit (c : Gui.GCat) (s : Str) :
    ∀ d, fillFold c d (Chunk.lit s) = Chunk.lit s := by
  intro d
  induction d with
  | nil => rfl
  | cons kv d ih =>
    show fillFold c d (fillC c kv.2.mask (Chunk.lit s)) = Chunk.lit s
    exact ih

theorem fillFold_hole (c : Gui.GCat) (ca : Gui.GCat) (o mk : Str) :
    ∀ (d : Gui.CatMap) (f : Bool), fillFold c d (Chunk.hole ca o mk f) =
      Chunk.hole ca o mk
        (f || d.any fun kv => decide (ca = c ∧ mk = kv.2.mask)) := by
  intro d
  induction d with
  | nil => intro f; simp [fillFold]
  | cons kv d ih =>
    intro f
    show fillFold c d (fillC c kv.2.mask (Chunk.hole ca o mk f)) = _
    show fillFold c d (Chunk.hole ca o mk (f || decide (ca = c ∧ mk = kv.2.mask))) = _
    rw [ih]
    congr 1
    simp [List.any_cons, Bool.or_assoc]

theorem chOK_fillCat (m : Gui.Maps) (c : Gui.GCat) (ch : Chunk) :
    chOK m (fillCat c ch) = chOK m ch := by
  cases ch <;> rfl

theorem adjOK_fillCat (c : Gui.GCat) (a b : Chunk) :
    adjOK (fillCat c a) (fillCat c b) = adjOK a b := by
  cases a <;> cases b <;> rfl

theorem chunksOK_map_fillCat (m : Gui.Maps) (c : Gui.GCat) :
    ∀ cs, chunksOK m (cs.map (fillCat c)) = chunksOK m cs := by
  intro cs
  induction cs with
  | nil => rfl
  | cons ch cs ih =>
    cases cs with
    | nil =>
      show chOK m (fillCat c ch) = chOK m ch
      exact chOK_fillCat m c ch
    | cons c2 t =>
      show chunksOK m (fillCat c ch :: fillCat c c2 :: t.map (fillCat c)) = _
      rw [chunksOK, chunksOK]
      rw [chOK_fillCat, adjOK_fillCat]
      rw [show (fillCat c c2 :: t.map (fillCat c)) = (c2 :: t).map (fillCat c)
        from rfl, ih]

theorem fillSeq_eq_fillAll (ch : Chunk) : fillSeq ch = fillAll ch := by
  cases ch with
  | lit s => rfl
  | hole ca o mk f => cases ca <;> cases f <;> rfl

/-- One string-map entry's `str.replace` pass over a chunk rendering fills
exactly the holes carrying that entry's placeholder and touches nothing
else. -/
theorem strEntry_chunks {m : Gui.Maps} (hOK : MapsOK m = true) {o : Str}
    {e : Gui.Entry} (hmem : (o, e) ∈ m.string_map) :
    ∀ cs, chunksOK m cs = true →
    pyReplace e.mask o (render cs) =
      render (cs.map (fillC Gui.GCat.strng e.mask)) := by
  have hsm : (o, e) ∈ Gui.getMap m Gui.GCat.strng := hmem
  have hent := MapsOK_entry hOK hsm
  have hshape := hent.2.1 rfl
  obtain ⟨hdec, hword, hbne⟩ := strMask_decomp hshape.1
  have hmne : e.mask ≠ [] := by rw [hdec]; simp
  have hp2 : e.mask = qS :: (strBody e.mask ++ [qS]) := by
    conv_lhs => rw [hdec]
    rw [List.cons_append]
  have hlookup : List.lookup o (Gui.getMap m Gui.GCat.strng) = some e :=
    mem_lookup_of_keysNodup (MapsOK_keysNodup hOK _) hsm
  have hnd := MapsOK_nodup hOK
  intro cs
  induction cs with
  | nil =>
    intro _
    rw [pyReplace, if_neg hmne]
    rfl
  | cons ch cs ih =>
    intro h
    have hch := chunksOK_head h
    have htl := chunksOK_tail h
    have ihr : replGo e.mask o 0 (render cs) =
        render (cs.map (fillC Gui.GCat.strng e.mask)) := by
      have := ih htl
      rwa [pyReplace, if_neg hmne] at this
    rw [pyReplace, if_neg hmne]
    rw [show render (ch :: cs) = chText ch ++ render cs from render_cons _ _,
      List.map_cons, render_cons]
    cases ch with
    | lit s =>
      obtain ⟨hsne, hq, hno⟩ := chOK_lit_dest hch
      show replGo e.mask o 0 (s ++ render cs) =
        s ++ render (cs.map (fillC Gui.GCat.strng e.mask))
      rw [replGo_qfree_pass e.mask o (strBody e.mask ++ [qS]) hp2 s
        (render cs) hq, ihr]
    | hole ca o2 mk2 f =>
      obtain ⟨hlk, hnoocc, hstrS, hidS⟩ := chOK_hole_dest hch
      by_cases hca : ca = Gui.GCat.strng
      · subst hca
        have hsh := hstrS rfl
        have hrest := rest_head_sep h
        by_cases hf : f = true
        · subst hf
          obtain ⟨ho2dec, ho2q⟩ := strOrig_decomp hsh.2
          have ho2ne : o2 ≠ [] := by rw [ho2dec]; simp
          have hpneq : e.mask ≠ o2 := by
            intro he
            have hx := hnoocc e.mask (mask_mem_allMasks hsm)
            rw [he, occursB_self ho2ne] at hx
            cases hx
          have hfill : fillC Gui.GCat.strng e.mask
              (Chunk.hole Gui.GCat.strng o2 mk2 true) =
              Chunk.hole Gui.GCat.strng o2 mk2 true := by
            simp [fillC]
          rw [hfill]
          show replGo e.mask o 0 (o2 ++ render cs) =
            o2 ++ render (cs.map (fillC Gui.GCat.strng e.mask))
          have hne2 : e.mask ≠ qS :: strBody o2 ++ [qS] := by
            intro hx
            exact hpneq (hx.trans ho2dec.symm)
          conv_lhs => rw [ho2dec]
          rw [replGo_strpass e.mask o (strBody e.mask) hdec hword hbne
            (strBody o2) ho2q (render cs) hrest hne2]
          rw [ihr, ← ho2dec]
        · have hfalse : f = false := by
            cases f
            · rfl
            · exact absurd rfl hf
          subst hfalse
          by_cases hmk : mk2 = e.mask
          · have h1 : List.lookup o2 (Gui.getMap m Gui.GCat.strng) =
                some ⟨mk2, true⟩ := hlk
            have ho2o : o2 = o :=
              (entry_unique hnd h1 hlookup (by simpa using hmk)).2
            have hfill : fillC Gui.GCat.strng e.mask
                (Chunk.hole Gui.GCat.strng o2 mk2 false) =
                Chunk.hole Gui.GCat.strng o2 mk2 true := by
              simp [fillC, hmk]
            rw [hfill]
            show replGo e.mask o 0 (mk2 ++ render cs) =
              o2 ++ render (cs.map (fillC Gui.GCat.strng e.mask))
            rw [hmk, replGo_exact e.mask o hmne (render cs), ihr, ho2o]
          · obtain ⟨hm2dec, hm2word, hm2ne⟩ := strMask_decomp hsh.1
            have hfill : fillC Gui.GCat.strng e.mask
                (Chunk.hole Gui.GCat.strng o2 mk2 false) =
                Chunk.hole Gui.GCat.strng o2 mk2 false := by
              simp [fillC, hmk]
            rw [hfill]
            show replGo e.mask o 0 (mk2 ++ render cs) =
              mk2 ++ render (cs.map (fillC Gui.GCat.strng e.mask))
            have hne2 : e.mask ≠ qS :: strBody mk2 ++ [qS] := by
              intro hx
              exact hmk (hm2dec.trans hx.symm)
            conv_lhs => rw [hm2dec]
            rw [replGo_strpass e.mask o (strBody e.mask) hdec hword hbne
              (strBody mk2) (allWord_qS_not_mem hm2word) (render cs) hrest hne2]
            rw [ihr, ← hm2dec]
      · have hid := hidS hca
        have hfill : fillC Gui.GCat.strng e.mask (Chunk.hole ca o2 mk2 f) =
            Chunk.hole ca o2 mk2 f := by
          simp [fillC, hca]
        rw [hfill]
        have hw : allWord (chText (Chunk.hole ca o2 mk2 f)) = true := by
          cases f
          · exact hid.1
          · exact hid.2.2.1
        rw [replGo_qfree_pass e.mask o (strBody e.mask ++ [qS]) hp2
          (chText (Chunk.hole ca o2 mk2 f)) (render cs)
          (allWord_qS_not_mem hw), ihr]

/-- One identifier-map entry's whole-word pass over a chunk rendering fills
exactly the holes carrying that entry's placeholder and touches nothing
else. -/
theorem wbEntry_chunks {m : Gui.Maps} (hOK : MapsOK m = true) {ca : Gui.GCat}
    (hca : ca ≠ Gui.GCat.strng) {o : Str} {e : Gui.Entry}
    (hmem : (o, e) ∈ Gui.getMap m ca) :
    ∀ cs, chunksOK m cs = true → ∀ prev, wbPrevOK prev cs →
    wbGo false e.mask o prev 0 (render cs) =
      render (cs.map (fillC ca e.mask)) := by
  have hent := MapsOK_entry hOK hmem
  obtain ⟨hmne, hmw, hone, how⟩ := hent.2.2 hca
  have hlookup : List.lookup o (Gui.getMap m ca) = some e :=
    mem_lookup_of_keysNodup (MapsOK_keysNodup hOK _) hmem
  have hnd := MapsOK_nodup hOK
  intro cs
  induction cs with
  | nil => intro _ prev _; rfl
  | cons ch cs ih =>
    intro h prev hprev
    have hch := chunksOK_head h
    have htl := chunksOK_tail h
    rw [show render (ch :: cs) = chText ch ++ render cs from render_cons _ _,
      List.map_cons, render_cons]
    cases ch with
    | lit s =>
      obtain ⟨hsne, hq, hno⟩ := chOK_lit_dest hch
      have hside : isWordChar (s.getLastD ' ') = false ∨ render cs = [] := by
        cases cs with
        | nil => right; rfl
        | cons c2 t =>
          left
          have hadj := chunksOK_adj h
          cases c2 with
          | lit s2 => simp [adjOK] at hadj
          | hole ca2 o2 mk2 f2 =>
            have hs : sepChar (s.getLastD ' ') = true := by simpa [adjOK] using hadj
            simp only [sepChar, Bool.and_eq_true, Bool.not_eq_true'] at hs
            exact hs.1
      have hnext : wbPrevOK (prevAfter prev s) cs := by
        cases cs with
        | nil => trivial
        | cons c2 t =>
          cases c2 with
          | lit s2 => trivial
          | hole ca2 o2 mk2 f2 =>
            right
            have hadj := chunksOK_adj h
            have hsep : sepChar (s.getLastD ' ') = true := by
              simpa [adjOK] using hadj
            rw [prevAfter_ne_nil hsne]
            simp only [sepChar, Bool.and_eq_true, Bool.not_eq_true'] at hsep
            simpa [wordOpt] using hsep.1
      show wbGo false e.mask o prev 0 (s ++ render cs) =
        s ++ render (cs.map (fillC ca e.mask))
      rw [wbGo_nooccB_pass e.mask o hmne hmw s (render cs) prev
        (hno e.mask (mask_mem_allMasks hmem)) hside]
      rw [ih htl _ hnext]
    | hole ca2 o2 mk2 f =>
      obtain ⟨hlk, hnoocc, hstrS, hidS⟩ := chOK_hole_dest hch
      have hnext := after_hole_prevOK h
      by_cases hca2 : ca2 = Gui.GCat.strng
      · subst hca2
        have hsh := hstrS rfl
        have hcc : ¬ (Gui.GCat.strng = ca ∧ mk2 = e.mask) :=
          fun hx => hca hx.1.symm
        cases f with
        | true =>
          obtain ⟨ho2dec, ho2q⟩ := strOrig_decomp hsh.2
          have hocc : occursB e.mask o2 = false :=
            hnoocc e.mask (mask_mem_allMasks hmem)
          have hlastw : isWordChar (o2.getLastD ' ') = false := by
            rw [ho2dec, List.getLastD_concat]
            decide
          have hfill : fillC ca e.mask (Chunk.hole Gui.GCat.strng o2 mk2 true) =
              Chunk.hole Gui.GCat.strng o2 mk2 true := by
            simp [fillC, hcc]
          rw [hfill]
          show wbGo false e.mask o prev 0 (o2 ++ render cs) =
            o2 ++ render (cs.map (fillC ca e.mask))
          rw [wbGo_nooccB_pass e.mask o hmne hmw o2 (render cs) prev hocc
            (Or.inl hlastw)]
          rw [ih htl _ (hnext _)]
        | false =>
          obtain ⟨hm2dec, hm2word, hm2ne⟩ := strMask_decomp hsh.1
          have hbody : e.mask ≠ strBody mk2 :=
            MapsOK_bodydisj hOK hca hmem (lookup_mem hlk)
          have hfill : fillC ca e.mask (Chunk.hole Gui.GCat.strng o2 mk2 false) =
              Chunk.hole Gui.GCat.strng o2 mk2 false := by
            simp [fillC, hcc]
          rw [hfill]
          show wbGo false e.mask o prev 0 (mk2 ++ render cs) =
            mk2 ++ render (cs.map (fillC ca e.mask))
          conv_lhs => rw [hm2dec]
          rw [wbGo_strmask_pass e.mask o hmne hmw (strBody mk2) hm2word hm2ne
            hbody (render cs) prev]
          rw [ih htl _ (hnext _), ← hm2dec]
      · have hid := hidS hca2
        have hprev' : ca2 = Gui.GCat.strng ∨ wordOpt prev = false := hprev
        have hwprev : wordOpt prev = false := hprev'.resolve_left hca2
        have hb : headOKb (render cs) = true := rest_headOK h
        cases f with
        | true =>
          have hneq : e.mask ≠ o2 := by
            intro he
            have hx := hnoocc e.mask (mask_mem_allMasks hmem)
            rw [he, occursB_self hid.2.2.2] at hx
            cases hx
          have hfill : fillC ca e.mask (Chunk.hole ca2 o2 mk2 true) =
              Chunk.hole ca2 o2 mk2 true := by
            simp [fillC]
          rw [hfill]
          show wbGo false e.mask o prev 0 (o2 ++ render cs) =
            o2 ++ render (cs.map (fillC ca e.mask))
          rw [wbGo_word_pass hmne hmw hid.2.2.2 hid.2.2.1
            (fun hx => hneq (pfxOf_eq_of_length
              (by simpa [pfxOfX] using hx.2) hx.1)) hb prev hwprev]
          rw [ih htl _ (hnext _)]
        | false =>
          by_cases hmk : mk2 = e.mask
          · have ho2o := entry_unique hnd hlk hlookup hmk
            have hfill : fillC ca e.mask (Chunk.hole ca2 o2 mk2 false) =
                Chunk.hole ca2 o2 mk2 true := by
              simp [fillC, ho2o.1, hmk]
            rw [hfill]
            show wbGo false e.mask o prev 0 (mk2 ++ render cs) =
              o2 ++ render (cs.map (fillC ca e.mask))
            rw [hmk, wbGo_word_hit e.mask o hmne hmw prev hwprev (render cs) hb]
            rw [ih htl _ (hnext _), ho2o.2]
          · have hfill : fillC ca e.mask (Chunk.hole ca2 o2 mk2 false) =
                Chunk.hole ca2 o2 mk2 false := by
              simp [fillC, hmk]
            rw [hfill]
            show wbGo false e.mask o prev 0 (mk2 ++ render cs) =
              mk2 ++ render (cs.map (fillC ca e.mask))
            rw [wbGo_word_pass hmne hmw hid.2.1 hid.1
              (fun hx => hmk (pfxOf_eq_of_length
                (by simpa [pfxOfX] using hx.2) hx.1).symm) hb prev hwprev]
            rw [ih htl _ (hnext _)]

/-- The string pass of `unmask_sql`, restricted to a sublist of the string
map, performs exactly that sublist's fold of fills on the chunks. -/
theorem strPass_fold {m : Gui.Maps} (hOK : MapsOK m = true) :
    ∀ (d : Gui.CatMap), (∀ kv ∈ d, kv ∈ m.string_map) →
    ∀ cs, chunksOK m cs = true →
    List.foldl (fun acc oe =>
        if oe.2.enabled then pyReplace oe.2.mask oe.1 acc else acc)
      (render cs) d = render (cs.map (fillFold Gui.GCat.strng d)) := by
  intro d
  induction d with
  | nil =>
    intro _ cs _
    rw [List.foldl_nil]
    rw [show cs.map (fillFold Gui.GCat.strng []) = cs.map id from
      List.map_congr_left fun ch _ => rfl, List.map_id]
  | cons kv d ih =>
    intro hsub cs hcs
    rw [List.foldl_cons]
    have hkv : (kv.1, kv.2) ∈ m.string_map := hsub kv (List.mem_cons_self _ _)
    have hkv2 : ((kv.1, kv.2) : Str × Gui.Entry) ∈
      Gui.getMap m Gui.GCat.strng := hkv
    have hen : kv.2.enabled = true := (MapsOK_entry hOK hkv2).1
    rw [if_pos hen]
    rw [strEntry_chunks hOK hkv cs hcs]
    rw [ih (fun x hx => hsub x (List.mem_cons_of_mem _ hx)) _
      ((chunksOK_map_fillC m Gui.GCat.strng kv.2.mask cs).trans hcs)]
    rw [List.map_map]
    rfl

/-- An identifier pass of `unmask_sql`, restricted to a sublist of its
category map, performs exactly that sublist's fold of fills. -/
theorem wbPass_fold {m : Gui.Maps} (hOK : MapsOK m = true) {ca : Gui.GCat}
    (hca : ca ≠ Gui.GCat.strng) :
    ∀ (d : Gui.CatMap), (∀ kv ∈ d, kv ∈ Gui.getMap m ca) →
    ∀ cs, chunksOK m cs = true →
    List.foldl (fun acc oe =>
        if oe.2.enabled then wbSub false oe.2.mask oe.1 acc else acc)
      (render cs) d = render (cs.map (fillFold ca d)) := by
  intro d
  induction d with
  | nil =>
    intro _ cs _
    rw [List.foldl_nil]
    rw [show cs.map (fillFold ca []) = cs.map id from
      List.map_congr_left fun ch _ => rfl, List.map_id]
  | cons kv d ih =>
    intro hsub cs hcs
    rw [List.foldl_cons]
    have hkv : (kv.1, kv.2) ∈ Gui.getMap m ca := hsub kv (List.mem_cons_self _ _)
    have hent := MapsOK_entry hOK hkv
    have hen : kv.2.enabled = true := hent.1
    have hmne : kv.2.mask ≠ [] := (hent.2.2 hca).1
    rw [if_pos hen, wbSub, if_neg hmne]
    rw [wbEntry_chunks hOK hca hkv cs hcs none (wbPrevOK_none cs)]
    rw [ih (fun x hx => hsub x (List.mem_cons_of_mem _ hx)) _
      ((chunksOK_map_fillC m ca kv.2.mask cs).trans hcs)]
    rw [List.map_map]
    rfl

/-- Folding a full category map's fills over a well-formed chunk fills
exactly that category's holes. -/
theorem fillFold_full {m : Gui.Maps} (c : Gui.GCat) {ch : Chunk}
    (hch : chOK m ch = true) :
    fillFold c (Gui.getMap m c) ch = fillCat c ch := by
  cases ch with
  | lit s => rw [fillFold_lit]; rfl
  | hole ca o mk f =>
    rw [fillFold_hole]
    by_cases hc : ca = c
    · subst hc
      have hlk := (chOK_hole_dest hch).1
      have hany : ((Gui.getMap m ca).any fun kv =>
          decide (ca = ca ∧ mk = kv.2.mask)) = true := by
        rw [List.any_eq_true]
        exact ⟨(o, ⟨mk, true⟩), lookup_mem hlk, by simp⟩
      rw [hany]
      simp [fillCat]
    · have hany : ((Gui.getMap m c).any fun kv =>
          decide (ca = c ∧ mk = kv.2.mask)) = false := by
        rw [List.any_eq_false]
        intro kv _
        simp [hc]
      rw [hany]
      simp [fillCat, hc]

theorem map_fillFold_full {m : Gui.Maps} (c : Gui.GCat) {cs : List Chunk}
    (hcs : chunksOK m cs = true) :
    cs.map (fillFold c (Gui.getMap m c)) = cs.map (fillCat c) :=
  List.map_congr_left fun ch hm => fillFold_full c (chunksOK_all hcs ch hm)

/-- `unmask_sql` on the rendering of a well-formed chunk sequence fills
every hole: each placeholder is put back to its original. -/
theorem unmask_render {m : Gui.Maps} (hOK : MapsOK m = true) {cs : List Chunk}
    (hcs : chunksOK m cs = true) :
    Gui.unmask_sql m (render cs) = render (cs.map fillAll) := by
  have hstep : ∀ (ca : Gui.GCat), ca ≠ Gui.GCat.strng →
      ∀ (cs' : List Chunk), chunksOK m cs' = true →
      Gui.wbPass (Gui.getMap m ca) (render cs') =
        render (cs'.map (fillCat ca)) := by
    intro ca hca cs' hcs'
    have ha := wbPass_fold hOK hca (Gui.getMap m ca) (fun kv hk => hk) cs' hcs'
    have hb := map_fillFold_full ca hcs'
    exact ha.trans (congrArg render hb)
  have hk1 : chunksOK m (cs.map (fillCat Gui.GCat.strng)) = true :=
    (chunksOK_map_fillCat m Gui.GCat.strng cs).trans hcs
  have hk2 : chunksOK m ((cs.map (fillCat Gui.GCat.strng)).map
      (fillCat Gui.GCat.alias)) = true :=
    (chunksOK_map_fillCat m Gui.GCat.alias _).trans hk1
  have hk3 : chunksOK m (((cs.map (fillCat Gui.GCat.strng)).map
      (fillCat Gui.GCat.alias)).map (fillCat Gui.GCat.func)) = true :=
    (chunksOK_map_fillCat m Gui.GCat.func _).trans hk2
  have hk4 : chunksOK m ((((cs.map (fillCat Gui.GCat.strng)).map
      (fillCat Gui.GCat.alias)).map (fillCat Gui.GCat.func)).map
      (fillCat Gui.GCat.column)) = true :=
    (chunksOK_map_fillCat m Gui.GCat.column _).trans hk3
  have hk5 : chunksOK m (((((cs.map (fillCat Gui.GCat.strng)).map
      (fillCat Gui.GCat.alias)).map (fillCat Gui.GCat.func)).map
      (fillCat Gui.GCat.column)).map (fillCat Gui.GCat.table)) = true :=
    (chunksOK_map_fillCat m Gui.GCat.table _).trans hk4
  have hk6 : chunksOK m ((((((cs.map (fillCat Gui.GCat.strng)).map
      (fillCat Gui.GCat.alias)).map (fillCat Gui.GCat.func)).map
      (fillCat Gui.GCat.column)).map (fillCat Gui.GCat.table)).map
      (fillCat Gui.GCat.schema)) = true :=
    (chunksOK_map_fillCat m Gui.GCat.schema _).trans hk5
  have h1 : Gui.strPass m.string_map (render cs) =
      render (cs.map (fillCat Gui.GCat.strng)) := by
    have ha := strPass_fold hOK m.string_map (fun kv hk => hk) cs hcs
    have hb : cs.map (fillFold Gui.GCat.strng m.string_map) =
        cs.map (fillCat Gui.GCat.strng) := map_fillFold_full Gui.GCat.strng hcs
    exact ha.trans (congrArg render hb)
  have h2 : Gui.wbPass m.alias_map (render (cs.map (fillCat Gui.GCat.strng))) =
      render ((cs.map (fillCat Gui.GCat.strng)).map (fillCat Gui.GCat.alias)) :=
    hstep Gui.GCat.alias (by decide) _ hk1
  have h3 : Gui.wbPass m.function_map (render ((cs.map
      (fillCat Gui.GCat.strng)).map (fillCat Gui.GCat.alias))) =
      render (((cs.map (fillCat Gui.GCat.strng)).map
        (fillCat Gui.GCat.alias)).map (fillCat Gui.GCat.func)) :=
    hstep Gui.GCat.func (by decide) _ hk2
  have h4 : Gui.wbPass m.column_map (render (((cs.map
      (fillCat Gui.GCat.strng)).map (fillCat Gui.GCat.alias)).map
      (fillCat Gui.GCat.func))) =
      render ((((cs.map (fillCat Gui.GCat.strng)).map
        (fillCat Gui.GCat.alias)).map (fillCat Gui.GCat.func)).map
        (fillCat Gui.GCat.column)) :=
    hstep Gui.GCat.column (by decide) _ hk3
  have h5 : Gui.wbPass m.table_map (render ((((cs.map
      (fillCat Gui.GCat.strng)).map (fillCat Gui.GCat.alias)).map
      (fillCat Gui.GCat.func)).map (fillCat Gui.GCat.column))) =
      render (((((cs.map (fillCat Gui.GCat.strng)).map
        (fillCat Gui.GCat.alias)).map (fillCat Gui.GCat.func)).map
        (fillCat Gui.GCat.column)).map (fillCat Gui.GCat.table)) :=
    hstep Gui.GCat.table (by decide) _ hk4
  have h6 : Gui.wbPass m.schema_map (render (((((cs.map
      (fillCat Gui.GCat.strng)).map (fillCat Gui.GCat.alias)).map
      (fillCat Gui.GCat.func)).map (fillCat Gui.GCat.column)).map
      (fillCat Gui.GCat.table))) =
      render ((((((cs.map (fillCat Gui.GCat.strng)).map
        (fillCat Gui.GCat.alias)).map (fillCat Gui.GCat.func)).map
        (fillCat Gui.GCat.column)).map (fillCat Gui.GCat.table)).map
        (fillCat Gui.GCat.schema)) :=
    hstep Gui.GCat.schema (by decide) _ hk5
  have h7 : Gui.wbPass m.catalog_map (render ((((((cs.map
      (fillCat Gui.GCat.strng)).map (fillCat Gui.GCat.alias)).map
      (fillCat Gui.GCat.func)).map (fillCat Gui.GCat.column)).map
      (fillCat Gui.GCat.table)).map (fillCat Gui.GCat.schema))) =
      render (((((((cs.map (fillCat Gui.GCat.strng)).map
        (fillCat Gui.GCat.alias)).map (fillCat Gui.GCat.func)).map
        (fillCat Gui.GCat.column)).map (fillCat Gui.GCat.table)).map
        (fillCat Gui.GCat.schema)).map (fillCat Gui.GCat.catalog)) :=
    hstep Gui.GCat.catalog (by decide) _ hk6
  have hfin : (((((((cs.map (fillCat Gui.GCat.strng)).map
      (fillCat Gui.GCat.alias)).map (fillCat Gui.GCat.func)).map
      (fillCat Gui.GCat.column)).map (fillCat Gui.GCat.table)).map
      (fillCat Gui.GCat.schema)).map (fillCat Gui.GCat.catalog)) =
      cs.map fillAll := by
    simp only [List.map_map]
    exact List.map_congr_left fun ch _ => fillSeq_eq_fillAll ch
  rw [show Gui.unmask_sql m (render cs) = Gui.wbPass m.catalog_map
      (Gui.wbPass m.schema_map (Gui.wbPass m.table_map (Gui.wbPass m.column_map
        (Gui.wbPass m.function_map (Gui.wbPass m.alias_map
          (Gui.strPass m.string_map (render cs))))))) from rfl]
  rw [h1, h2, h3, h4, h5, h6, h7, hfin]

theorem identLookupT_snd : ∀ (l : List (Gui.GCat × Gui.CatMap)) (k : Str),
    Gui.identLookup (l.map Prod.snd) k = (identLookupT l k).map Prod.snd := by
  intro l
  induction l with
  | nil => intro k; rfl
  | cons cd rest ih =>
    intro k
    obtain ⟨c, d⟩ := cd
    show Gui.identLookup (d :: rest.map Prod.snd) k = _
    rw [Gui.identLookup, identLookupT]
    cases hlk : List.lookup k d with
    | none => exact ih k
    | some e =>
      show (if e.enabled = true then some e.mask
          else Gui.identLookup (rest.map Prod.snd) k) =
        Option.map Prod.snd (if e.enabled = true then some (c, e.mask)
          else identLookupT rest k)
      by_cases he : e.enabled = true
      · rw [if_pos he, if_pos he]
        rfl
      · rw [if_neg he, if_neg he]
        exact ih k

/-- `_mask_token` emits exactly the current text of the token's chunk. -/
theorem mask_token_tokChunk (kwBase : List Str) (m : Gui.Maps) (t : Gui.Token) :
    Gui.mask_token kwBase m t = chText (tokChunk kwBase m t) := by
  rw [Gui.mask_token, tokChunk]
  by_cases h1 : Gui.skipType t.ttype ∨
      Gui.is_sql_keyword_or_function kwBase (pyStrip t.tstr)
  · rw [if_pos h1, if_pos h1]
    rfl
  · rw [if_neg h1, if_neg h1]
    by_cases h2 : t.ttype = Gui.TType.stringSingleT ∨ t.tstr.head? = some qS ∨
        t.tstr.head? = some qD
    · rw [if_pos h2, if_pos h2]
      cases hfs : Gui.findStringEntry m.string_map t.tstr with
      | none => rfl
      | some e => rfl
    · rw [if_neg h2, if_neg h2]
      by_cases h3 : t.ttype = Gui.TType.nameT ∨ t.ttype = Gui.TType.noneT
      · rw [if_pos h3, if_pos h3]
        rw [show Gui.identMaps m = (identMapsT m).map Prod.snd from rfl,
          identLookupT_snd]
        cases hi : identLookupT (identMapsT m) t.tstr with
        | none => rfl
        | some ce => rfl
      · rw [if_neg h3, if_neg h3]
        rfl

theorem render_chunksOf_cons (kwBase : List Str) (m : Gui.Maps)
    (t : Gui.Token) (ts : List Gui.Token) :
    render (chunksOf kwBase m (t :: ts)) =
      chText (tokChunk kwBase m t) ++ render (chunksOf kwBase m ts) := by
  rw [chunksOf]
  cases hc : tokChunk kwBase m t with
  | hole ca o mk f =>
    show render (Chunk.hole ca o mk f :: chunksOf kwBase m ts) = _
    rw [render_cons]
  | lit s =>
    cases hr : chunksOf kwBase m ts with
    | nil =>
      show render [Chunk.lit s] = chText (Chunk.lit s) ++ render []
      simp [render]
    | cons c2 r =>
      cases c2 with
      | lit s2 =>
        show render (Chunk.lit (s ++ s2) :: r) =
          chText (Chunk.lit s) ++ render (Chunk.lit s2 :: r)
        rw [render_cons, render_cons]
        show (s ++ s2) ++ render r = s ++ (s2 ++ render r)
        rw [List.append_assoc]
      | hole ca o mk f =>
        show render (Chunk.lit s :: Chunk.hole ca o mk f :: r) =
          chText (Chunk.lit s) ++ render (Chunk.hole ca o mk f :: r)
        rw [render_cons]

/-- The masked text is the rendering of the chunk decomposition. -/
theorem render_chunksOf (kwBase : List Str) (m : Gui.Maps) :
    ∀ ts, render (chunksOf kwBase m ts) = Gui.mask_stream kwBase m ts := by
  intro ts
  induction ts with
  | nil => rfl
  | cons t ts ih =>
    rw [render_chunksOf_cons, ih, ← mask_token_tokChunk]
    rw [Gui.mask_stream, Gui.mask_stream, List.map_cons, List.flatten_cons]

theorem chText_fillAll_tokChunk (kwBase : List Str) (m : Gui.Maps)
    (t : Gui.Token) : chText (fillAll (tokChunk kwBase m t)) = t.tstr := by
  rw [tokChunk]
  by_cases h1 : Gui.skipType t.ttype ∨
      Gui.is_sql_keyword_or_function kwBase (pyStrip t.tstr)
  · rw [if_pos h1]
    rfl
  · rw [if_neg h1]
    by_cases h2 : t.ttype = Gui.TType.stringSingleT ∨ t.tstr.head? = some qS ∨
        t.tstr.head? = some qD
    · rw [if_pos h2]
      cases hfs : Gui.findStringEntry m.string_map t.tstr with
      | none => rfl
      | some e => rfl
    · rw [if_neg h2]
      by_cases h3 : t.ttype = Gui.TType.nameT ∨ t.ttype = Gui.TType.noneT
      · rw [if_pos h3]
        cases hi : identLookupT (identMapsT m) t.tstr with
        | none => rfl
        | some ce => rfl
      · rw [if_neg h3]
        rfl

theorem render_fillAll_cons (kwBase : List Str) (m : Gui.Maps)
    (t : Gui.Token) (ts : List Gui.Token) :
    render ((chunksOf kwBase m (t :: ts)).map fillAll) =
      chText (fillAll (tokChunk kwBase m t)) ++
        render ((chunksOf kwBase m ts).map fillAll) := by
  rw [chunksOf]
  cases hc : tokChunk kwBase m t with
  | hole ca o mk f =>
    show render ((Chunk.hole ca o mk f :: chunksOf kwBase m ts).map fillAll) = _
    rw [List.map_cons, render_cons]
  | lit s =>
    cases hr : chunksOf kwBase m ts with
    | nil =>
      show render [fillAll (Chunk.lit s)] =
        chText (fillAll (Chunk.lit s)) ++ render ([].map fillAll)
      simp [render, fillAll]
    | cons c2 r =>
      cases c2 with
      | lit s2 =>
        show render ((Chunk.lit (s ++ s2) :: r).map fillAll) =
          chText (fillAll (Chunk.lit s)) ++
            render ((Chunk.lit s2 :: r).map fillAll)
        rw [List.map_cons, render_cons, List.map_cons, render_cons]
        show (s ++ s2) ++ render (r.map fillAll) =
          s ++ (s2 ++ render (r.map fillAll))
        rw [List.append_assoc]
      | hole ca o mk f =>
        show render ((Chunk.lit s :: Chunk.hole ca o mk f :: r).map fillAll) =
          chText (fillAll (Chunk.lit s)) ++
            render ((Chunk.hole ca o mk f :: r).map fillAll)
        rw [List.map_cons, render_cons]

/-- Filling every hole of the chunk decomposition renders the original
token stream's text. -/
theorem render_fillAll_chunksOf (kwBase : List Str) (m : Gui.Maps) :
    ∀ ts, render ((chunksOf kwBase m ts).map fillAll) = Gui.streamStr ts := by
  intro ts
  induction ts with
  | nil => rfl
  | cons t ts ih =>
    rw [render_fillAll_cons, ih, chText_fillAll_tokChunk]
    rw [Gui.streamStr, Gui.streamStr, List.map_cons, List.flatten_cons]

/-!  ## Claim theorems -/

/-- C3: a token recognized by `is_sql_keyword_or_function` is emitted
unchanged by `_mask_token`, whatever the mapping table holds for it, and
therefore appears unchanged, at its place, in the masked output of any
token stream containing it. -/
theorem C3_keywords_never_masked (kwBase : List Str) (m : Gui.Maps)
    (t : Gui.Token) (ts1 ts2 : List Gui.Token)
    (h : Gui.is_sql_keyword_or_function kwBase (pyStrip t.tstr) = true) :
    Gui.mask_token kwBase m t = t.tstr ∧
    Gui.mask_stream kwBase m (ts1 ++ t :: ts2) =
      Gui.mask_stream kwBase m ts1 ++ t.tstr ++ Gui.mask_stream kwBase m ts2 := by
  have h1 : Gui.mask_token kwBase m t = t.tstr := by
    unfold Gui.mask_token
    rw [if_pos (Or.inr h)]
  refine ⟨h1, ?_⟩
  simp [Gui.mask_stream, h1]

/-- C3 witness: the mapping table holds an enabled entry for `count`, yet
the keyword predicate recognizes `count` and the token passes unchanged. -/
theorem C3_keywords_never_masked_witness :
    Gui.mask_token [] ⟨[], [], [], [(("count").data, ⟨("x").data, true⟩)], [], [], []⟩
        ⟨Gui.TType.nameT, ("count").data⟩ = ("count").data ∧
    Gui.mask_stream [] ⟨[], [], [], [(("count").data, ⟨("x").data, true⟩)], [], [], []⟩
        ([] ++ ⟨Gui.TType.nameT, ("count").data⟩ :: []) =
      Gui.mask_stream [] ⟨[], [], [], [(("count").data, ⟨("x").data, true⟩)], [], [], []⟩ [] ++
        ("count").data ++
        Gui.mask_stream [] ⟨[], [], [], [(("count").data, ⟨("x").data, true⟩)], [], [], []⟩ [] :=
  C3_keywords_never_masked [] _ _ [] [] (by decide)

/-- C5: `unmask_sql` substitutes exactly as §4.6 orders it — string
placeholders first by plain replacement, then the identifier maps by
whole-word matching in the order alias, function, column, table, schema,
catalog — and a whole-word pass for a placeholder `p` never partially
replaces a word-delimited occurrence of a longer placeholder `w`. -/
theorem C5_unmask_order :
    (∀ (m : Gui.Maps) (s : Str), Gui.unmask_sql m s = Gui.unmaskSpecOrder m s) ∧
    (∀ (p r w a b : Str), p ≠ [] → allWord p = true →
      w ≠ [] → allWord w = true → p.length < w.length →
      endOKb a = true → headOKb b = true →
      ∃ a' b', wbSub false p r (a ++ w ++ b) = a' ++ w ++ b') := by
  constructor
  · intro m s
    rfl
  · intro p r w a b hpne hpw hwne hww hlt ha hb
    obtain ⟨a', b', heq, -, -⟩ := wbSub_survives p r w a b hpne hpw hwne hww
      (by rintro ⟨hl, -⟩; omega) ha hb
    exact ⟨a', b', heq⟩

/-- C6 counterexample: calling `mask_sql` with all five mapping dicts empty
mutates the masker state (it analyzes the input and installs generated
mappings), so masking is not a pure function of `(sqlText, mappingTable)`
with the store left unchanged for every input. -/
theorem C6_empty_mappings_mutation :
    (Core.mask_sql_noparse [] (Core.MaskerSt.init ⟨[0, 0, 0, 0]⟩)
        [qS, 'x', qS]).1.string_mapping ≠
      (Core.MaskerSt.init ⟨[0, 0, 0, 0]⟩).string_mapping := by decide

/-- C6 (amended): with at least one mapping already present, `mask_sql`
is pure — it returns the state unchanged and the output is the
substitution `_simple_mask_sql` performs with the held mappings. -/
theorem C6_nonempty_mask_sql_pure (kwBase : List Str) (st : Core.MaskerSt)
    (sql : Str) (h : Core.mappingsEmpty st = false) :
    Core.mask_sql_noparse kwBase st sql = (st, Core.simple_mask_text st sql) := by
  unfold Core.mask_sql_noparse Core.simple_mask_sql
  simp [h]

/-- C6 witness: a state holding one table mapping passes through
`mask_sql` unchanged. -/
theorem C6_nonempty_mask_sql_pure_witness :
    Core.mask_sql_noparse []
        { Core.MaskerSt.init ⟨[]⟩ with table_mapping := [(("t").data, ("tbl_x").data)] }
        (("select 1").data) =
      ({ Core.MaskerSt.init ⟨[]⟩ with table_mapping := [(("t").data, ("tbl_x").data)] },
        Core.simple_mask_text
          { Core.MaskerSt.init ⟨[]⟩ with table_mapping := [(("t").data, ("tbl_x").data)] }
          (("select 1").data)) :=
  C6_nonempty_mask_sql_pure [] _ _ (by decide)

/-- C4: when the loaded file's first invalid entry is at key `k`, the load
reports the validation error for `k` — but the store's seven category maps
have already been overwritten with the file's contents, so the invalid
load is applied, not aborted with the previous table left in place. -/
theorem C4_invalid_load_applied (st : Gui.GuiSt) (file : Gui.MapFile)
    (r : Gui.RawMaps) (k : Str)
    (hm : file.mappings? = some r) (hmeta : file.metadata? = none)
    (hinv : Gui.firstInvalidAll r = some k) :
    (Gui.load_mapping st file true).2 = Gui.LoadOutcome.invalidStructure k ∧
    Gui.stRawMaps (Gui.load_mapping st file true).1 =
      [r.catalogs, r.schemas, r.tables, r.columns, r.strings, r.functions,
       r.aliases] := by
  unfold Gui.load_mapping
  rw [hm, hmeta]
  simp only [hinv]
  refine ⟨?_, ?_⟩ <;> first | rfl | trivial

/-- C4 witness: a store holding a table entry, loaded with a file whose
table entry at key `t` lacks the required fields, keeps the file's maps
while reporting the structure error for `t`. -/
theorem C4_invalid_load_applied_witness :
    ((Gui.load_mapping
        ⟨[], [], [((("old").data), Gui.RawVal.nonObj)], [], [], [], [], false⟩
        ⟨none, some ⟨[], [], [((("t").data), Gui.RawVal.obj none none)], [], [], [], []⟩⟩
        true).2 = Gui.LoadOutcome.invalidStructure (("t").data)) ∧
    Gui.stRawMaps (Gui.load_mapping
        ⟨[], [], [((("old").data), Gui.RawVal.nonObj)], [], [], [], [], false⟩
        ⟨none, some ⟨[], [], [((("t").data), Gui.RawVal.obj none none)], [], [], [], []⟩⟩
        true).1 =
      [[], [], [((("t").data), Gui.RawVal.obj none none)], [], [], [], []] :=
  C4_invalid_load_applied _ _ _ _ rfl rfl (by decide)

/-- C8: deserializing the file produced by serializing a mapping store
succeeds and restores, for each of the seven categories, exactly the
serialized originals with their placeholders and enabled flags. -/
theorem C8_save_load_roundtrip (m : Gui.Maps) (realistic : Bool) (st : Gui.GuiSt) :
    (Gui.load_mapping st (Gui.save_mapping realistic m) true).2 =
      Gui.LoadOutcome.success ∧
    Gui.stRawMaps (Gui.load_mapping st (Gui.save_mapping realistic m) true).1 =
      [Gui.rawOfCat m.catalog_map, Gui.rawOfCat m.schema_map,
       Gui.rawOfCat m.table_map, Gui.rawOfCat m.column_map,
       Gui.rawOfCat m.string_map, Gui.rawOfCat m.function_map,
       Gui.rawOfCat m.alias_map] := by
  have hval : Gui.firstInvalidAll
      ⟨Gui.rawOfCat m.catalog_map, Gui.rawOfCat m.schema_map,
       Gui.rawOfCat m.table_map, Gui.rawOfCat m.column_map,
       Gui.rawOfCat m.string_map, Gui.rawOfCat m.function_map,
       Gui.rawOfCat m.alias_map⟩ = none := by
    simp [Gui.firstInvalidAll, firstInvalid_rawOfCat, Option.orElse]
  unfold Gui.load_mapping Gui.save_mapping
  simp only [hval]
  split
  all_goals refine ⟨?_, ?_⟩ <;> first | rfl | trivial

/-- C10 counterexample: the original `''` has empty unquoted content, yet
its placeholder's unquoted length is the `randint(5, 15)` draw (here 5),
not `max 1 0`: the empty string literal is falsy, so the length-preserving
branch is skipped. -/
theorem C10_empty_literal_length :
    ((Core.genStrings [[qS, qS]] (Core.MaskerSt.init ⟨[0, 0, 0, 0, 0, 0, 0]⟩)).string_mapping.map
        fun om => om.2.length) = [7] ∧
    7 ≠ max 1 (pyStripChars [qS, qD] [qS, qS]).length + 2 := by decide

/-- C10 (amended): for a string literal with nonempty unquoted content,
the registered placeholder is the quote style plus exactly
`max 1 (content length)` = `content length` generated characters, so the
masked output reveals the original literal's exact length. -/
theorem C10_string_length_preserved (s : Str) (st : Core.MaskerSt)
    (h1 : Core.hasKey st.string_mapping s = false)
    (h2 : pyStripChars [qS, qD] s ≠ []) :
    ((Core.genStrings [s] st).string_mapping.map fun om => om.2.length) =
      (st.string_mapping.map fun om => om.2.length) ++
        [max 1 (pyStripChars [qS, qD] s).length + 2] := by
  rw [Core.genStrings, List.foldl_cons, List.foldl_nil]
  rw [if_neg (by simp [h1])]
  simp only [Core.generate_string_value]
  rw [if_pos (by simpa using h2), pyStripChars_idem]
  simp [drawChars_length]

/-- C10 witness: the literal `'a'` receives a placeholder of unquoted
length `1 = max 1 1`. -/
theorem C10_string_length_preserved_witness :
    Core.hasKey (Core.MaskerSt.init ⟨[0, 0, 0]⟩).string_mapping [qS, 'a', qS] = false ∧
    ((Core.genStrings [[qS, 'a', qS]] (Core.MaskerSt.init ⟨[0, 0, 0]⟩)).string_mapping.map
        fun om => om.2.length) =
      ((Core.MaskerSt.init ⟨[0, 0, 0]⟩).string_mapping.map fun om => om.2.length) ++
        [max 1 (pyStripChars [qS, qD] [qS, 'a', qS]).length + 2] :=
  ⟨by decide, C10_string_length_preserved _ _ (by decide) (by decide)⟩

/-- C9: the core analyzer's keyword predicate accepts every token ending
in `_id` (case-insensitively, when the token has no newline) and every
token starting with one of the seven verb prefixes; tokens the statement
column extractor emits never satisfy the predicate; generated column
mappings only hold extracted keys; and a word-delimited occurrence of a
word `w` no mapping original can equal survives the whole-word
substitution passes of `mask_sql`, so such identifiers appear unchanged
in the masked output. -/
theorem C9_protected_identifier_patterns :
    (∀ (kwBase : List Str) (t : Str), '\n' ∉ lowerS t →
       Gui.sfxOf (("_id").data) (lowerS t) = true →
       Core.is_sql_keyword_or_function kwBase t = true) ∧
    (∀ (kwBase : List Str) (t p : Str), p ∈ Core.kwPrefixList →
       pfxOf p (lowerS t) = true →
       Core.is_sql_keyword_or_function kwBase t = true) ∧
    (∀ (kwBase : List Str) (inSel inWh inOrd : Bool) (ts : List Core.CToken)
       (c : Str), c ∈ Core.extract_columns_stmt kwBase inSel inWh inOrd ts →
       Core.is_sql_keyword_or_function kwBase c = false) ∧
    (∀ (cs : List Str) (st : Core.MaskerSt) (k : Str),
       Core.hasKey (Core.genColumns cs st).column_mapping k = true →
       k ∈ cs ∨ Core.hasKey st.column_mapping k = true) ∧
    (∀ (st : Core.MaskerSt) (w a b : Str),
       st.string_mapping = [] → st.function_mapping = [] →
       w ≠ [] → allWord w = true → endOKb a = true → headOKb b = true →
       (∀ o ∈ (st.table_mapping ++ st.column_mapping ++
           st.alias_mapping).map Prod.fst,
         o ≠ [] ∧ allWord o = true ∧
           ¬ (o.length = w.length ∧ pfxOfCI o w = true)) →
       ∃ a' b', Core.mask_subst st (a ++ w ++ b) = a' ++ w ++ b') := by
  refine ⟨?_, ?_, ?_, ?_, ?_⟩
  · intro kwBase t hnl hsfx
    rw [Core.is_sql_keyword_or_function]
    by_cases hm : lowerS t ∈ kwBase ∨ lowerS t ∈ Core.additionalKeywords
    · simp [hm]
    · rw [if_neg hm]
      have hid : Core.matchIdSuffix (lowerS t) = true := by
        obtain ⟨u, hu⟩ := (sfxOf_iff _ _).mp hsfx
        rw [Core.matchIdSuffix, List.any_eq_true]
        refine ⟨u.length, List.mem_range.mpr (by rw [hu]; simp; omega), ?_⟩
        have hut : List.take u.length (lowerS t) = u := by
          rw [hu, List.take_left]
        have hud : List.drop u.length (lowerS t) = ['_', 'i', 'd'] := by
          rw [hu, List.drop_left]
        have hnu : '\n' ∉ u := by
          intro hmem
          exact hnl (by rw [hu]; exact List.mem_append_left _ hmem)
        simp [hut, hud, hnu]
      simp [hid]
  · intro kwBase t p hp hpfx
    rw [Core.is_sql_keyword_or_function]
    by_cases hm : lowerS t ∈ kwBase ∨ lowerS t ∈ Core.additionalKeywords
    · simp [hm]
    · rw [if_neg hm]
      have hk : Core.matchKwPfx (lowerS t) = true := by
        rw [Core.matchKwPfx, List.any_eq_true]
        exact ⟨p, hp, hpfx⟩
      simp [hk]
  · intro kwBase inSel inWh inOrd ts
    induction ts generalizing inSel inWh inOrd with
    | nil =>
      intro c hc
      rw [Core.extract_columns_stmt] at hc
      simp at hc
    | cons t ts ih =>
      intro c hc
      rw [Core.extract_columns_stmt] at hc
      by_cases h1 : t.ttype = Core.CTType.keywordT
      · rw [if_pos h1] at hc
        by_cases h2 : Core.upperS t.tstr = ("SELECT").data
        · rw [if_pos h2] at hc
          exact ih _ _ _ _ hc
        · rw [if_neg h2] at hc
          by_cases h3 : Core.upperS t.tstr = ("FROM").data ∨
              Core.upperS t.tstr = ("WHERE").data ∨
              Core.upperS t.tstr = ("GROUP BY").data ∨
              Core.upperS t.tstr = ("ORDER BY").data ∨
              Core.upperS t.tstr = ("HAVING").data
          · rw [if_pos h3] at hc
            exact ih _ _ _ _ hc
          · rw [if_neg h3] at hc
            exact ih _ _ _ _ hc
      · rw [if_neg h1] at hc
        by_cases h4 : (inSel = true ∨ inWh = true ∨ inOrd = true) ∧
            t.ttype = Core.CTType.nameT
        · rw [if_pos h4] at hc
          by_cases h5 : ¬ Core.is_sql_keyword_or_function kwBase t.tstr = true
          · rw [if_pos h5] at hc
            by_cases h6 : Core.lastDotPart (pyStripChars Core.nameStripSet t.tstr) ≠ [] ∧
                ¬ Core.is_sql_keyword_or_function kwBase
                  (Core.lastDotPart (pyStripChars Core.nameStripSet t.tstr)) = true ∧
                Core.lastDotPart (pyStripChars Core.nameStripSet t.tstr) ≠ ['*']
            · rw [if_pos h6] at hc
              rcases List.mem_cons.mp hc with hce | hcr
              · rw [hce]
                simpa using h6.2.1
              · exact ih _ _ _ _ hcr
            · rw [if_neg h6] at hc
              exact ih _ _ _ _ hc
          · rw [if_neg h5] at hc
            exact ih _ _ _ _ hc
        · rw [if_neg h4] at hc
          exact ih _ _ _ _ hc
  · intro cs
    induction cs with
    | nil =>
      intro st k hk
      right
      exact hk
    | cons c rest ih =>
      intro st k hk
      rw [Core.genColumns, List.foldl_cons] at hk
      have hk2 := ih _ k (by rw [Core.genColumns]; exact hk)
      rcases hk2 with hmem | hkey
      · exact Or.inl (List.mem_cons_of_mem _ hmem)
      · by_cases hc : Core.hasKey st.column_mapping c = true
        · rw [if_pos hc] at hkey
          exact Or.inr hkey
        · rw [if_neg hc] at hkey
          rcases hgf : Core.genFresh (fun ng g => Core.generate_column_name ng g)
              st.reverse_column_mapping Core.retryFuel st.gen st.rng with ⟨n, ng1, g1⟩
          rw [hgf] at hkey
          simp only [Core.hasKey, List.any_append, List.any_cons, List.any_nil,
            Bool.or_eq_true, decide_eq_true_eq] at hkey
          rcases hkey with hold | hkc | hfalse
          · exact Or.inr (by simpa [Core.hasKey] using hold)
          · exact Or.inl (by rw [← hkc]; exact List.mem_cons_self _ _)
          · simp at hfalse
  · intro st w a b hs hf hwne hww ha hb hl
    rw [Core.mask_subst]
    rw [hs, hf]
    simp only [List.foldl_nil]
    obtain ⟨a1, b1, h1, ha1, hb1⟩ := wbFold_survives w hwne hww st.table_mapping
      (fun o ho => hl o (by simp only [List.map_append, List.mem_append]; tauto)) a b ha hb
    rw [h1]
    obtain ⟨a2, b2, h2, ha2, hb2⟩ := wbFold_survives w hwne hww st.column_mapping
      (fun o ho => hl o (by simp only [List.map_append, List.mem_append]; tauto)) a1 b1 ha1 hb1
    rw [h2]
    obtain ⟨a3, b3, h3, ha3, hb3⟩ := wbFold_survives w hwne hww st.alias_mapping
      (fun o ho => hl o (by simp only [List.map_append, List.mem_append]; tauto)) a2 b2 ha2 hb2
    exact ⟨a3, b3, h3⟩

/-- C2 counterexample: in realistic mode, `generate_string_value` draws
from the eight fixed templates without consulting `used_names`, so two
distinct string originals receive the identical placeholder
`'example_data'` in one session. -/
theorem C2_realistic_duplicate_placeholder :
    ((Gui.generate_placeholders [] true [0, 0] [] [] [[qS, 'a', qS], [qS, 'b', qS]]
        [] []).maps.string_map.map fun kv => kv.2.mask) =
      [("'example_data'").data, ("'example_data'").data] ∧
    ([qS, 'a', qS] : Str) ≠ [qS, 'b', qS] := by decide

/-- C2 (amended): in generic naming mode, placeholder generation
guarantees global uniqueness — across one session, no two entries of the
seven category maps ever share a placeholder value, whatever the keyword
table, the oracle and the five input entity lists. -/
theorem C2_generic_placeholders_unique (kwBase : List Str) (g0 : List Nat)
    (tables columns strings functions aliases : List Str) :
    (allMasks (Gui.generate_placeholders kwBase false g0 tables columns strings
        functions aliases).maps).Nodup := by
  have h0 : GenInv Gui.Maps.empty 1 1 := by
    refine ⟨?_, ?_, ?_⟩
    · intro c hg mk hmk
      cases c <;> simp [catMasks, Gui.getMap, Gui.Maps.empty] at hmk
    · intro c hg mk hmk
      cases c <;> simp [catMasks, Gui.getMap, Gui.Maps.empty] at hmk
    · simp [allMasks, catMasks, Gui.getMap, Gui.Maps.empty]
  rw [Gui.generate_placeholders]
  exact (foldl_GenInv (fun st x => procAlias_inv kwBase st x) aliases _
    (foldl_GenInv (fun st x => procFunction_inv kwBase st x) functions _
      (foldl_GenInv (fun st x => procString_inv st x) strings _
        (foldl_GenInv (fun st x => procColumn_inv kwBase st x) columns _
          (foldl_GenInv (fun st x => procTable_inv kwBase st x) tables _
            h0))))).2.2

/-- C7: the five counters behind the catalog, schema, table, column and
string placeholders are one shared cell (source line 874 binds them by
chained assignment to the same list), so in generic mode the first column
registered after one table receives `column_2`, not the `column_1` the
per-category description predicts. -/
theorem C7_shared_counter :
    (Gui.generate_placeholders [] false [] [("t").data] [("c").data] [] [] []).maps.column_map =
      [(("c").data, ⟨("column_2").data, true⟩)] ∧
    ("column_2").data ≠ ("column_1").data := by decide

/-- C1 counterexample: the round trip fails on an input that contains
placeholder text of the mapping table's own.  With the single column
entry `secret → column_1`, the SQL text `column_1` contains no
placeholder text other than the table's own, masking leaves it unchanged
(its text is not a mapped original), and unmasking then rewrites it to
`secret`, so `unmask(mask(S, M), M) ≠ S`. -/
theorem C1_own_placeholder_breaks :
    Gui.unmask_sql
        ⟨[], [], [], [(("secret").data, ⟨("column_1").data, true⟩)], [], [], []⟩
        (Gui.mask_stream []
          ⟨[], [], [], [(("secret").data, ⟨("column_1").data, true⟩)], [], [], []⟩
          [⟨Gui.TType.nameT, ("column_1").data⟩]) ≠
      Gui.streamStr [⟨Gui.TType.nameT, ("column_1").data⟩] := by decide

/-- C1 (amended): the round trip `unmask(mask(S, M), M) = S` holds for
every mapping table `M` and token stream of `S` whose chunk decomposition
is well formed: every entry of `M` is enabled with word-shaped identifier
masks and originals and quote-shaped string ones, all placeholders are
distinct, and — strengthening the spec's "no placeholder text other than
M's own" — no placeholder of `M` occurs anywhere in `S`'s unmasked runs
or mapped originals, with masked tokens separated from neighbouring text
by non-word characters. -/
theorem C1_roundtrip_amended (kwBase : List Str) (m : Gui.Maps)
    (ts : List Gui.Token) (hOK : MapsOK m = true)
    (hcs : chunksOK m (chunksOf kwBase m ts) = true) :
    Gui.unmask_sql m (Gui.mask_stream kwBase m ts) = Gui.streamStr ts := by
  rw [← render_chunksOf, unmask_render hOK hcs, render_fillAll_chunksOf]

/-- C1 witness: for the table `{secret → column_1}` and the token stream
of `SELECT secret FROM t`, the hypotheses evaluate to true and the round
trip restores the input text. -/
theorem C1_roundtrip_amended_witness :
    MapsOK ⟨[], [], [], [(("secret").data, ⟨("column_1").data, true⟩)],
        [], [], []⟩ = true ∧
    chunksOK ⟨[], [], [], [(("secret").data, ⟨("column_1").data, true⟩)],
        [], [], []⟩
      (chunksOf []
        ⟨[], [], [], [(("secret").data, ⟨("column_1").data, true⟩)], [], [], []⟩
        [⟨Gui.TType.keywordT, ("SELECT").data⟩,
         ⟨Gui.TType.whitespaceT, (" ").data⟩,
         ⟨Gui.TType.nameT, ("secret").data⟩,
         ⟨Gui.TType.whitespaceT, (" ").data⟩,
         ⟨Gui.TType.keywordT, ("FROM").data⟩,
         ⟨Gui.TType.whitespaceT, (" ").data⟩,
         ⟨Gui.TType.nameT, ("t").data⟩]) = true ∧
    Gui.unmask_sql
        ⟨[], [], [], [(("secret").data, ⟨("column_1").data, true⟩)], [], [], []⟩
        (Gui.mask_stream []
          ⟨[], [], [], [(("secret").data, ⟨("column_1").data, true⟩)], [], [], []⟩
          [⟨Gui.TType.keywordT, ("SELECT").data⟩,
           ⟨Gui.TType.whitespaceT, (" ").data⟩,
           ⟨Gui.TType.nameT, ("secret").data⟩,
           ⟨Gui.TType.whitespaceT, (" ").data⟩,
           ⟨Gui.TType.keywordT, ("FROM").data⟩,
           ⟨Gui.TType.whitespaceT, (" ").data⟩,
           ⟨Gui.TType.nameT, ("t").data⟩]) =
      Gui.streamStr
        [⟨Gui.TType.keywordT, ("SELECT").data⟩,
         ⟨Gui.TType.whitespaceT, (" ").data⟩,
         ⟨Gui.TType.nameT, ("secret").data⟩,
         ⟨Gui.TType.whitespaceT, (" ").data⟩,
         ⟨Gui.TType.keywordT, ("FROM").data⟩,
         ⟨Gui.TType.whitespaceT, (" ").data⟩,
         ⟨Gui.TType.nameT, ("t").data⟩] :=
  ⟨by decide, by decide, C1_roundtrip_amended [] _ _ (by decide) (by decide)⟩

end SqlMask
